import Mathlib

/-!
Verification of the per-group debt ledger (`src/cost.py`, class
`FlexiblePaymentSystem`) and the per-group information hub
(`src/core/info_hub.py`, class `InformationHub`) against their
natural-language specification.

Modelling conventions, shared by the whole development:

* Numeric amounts are Python floats in the source; the embedding models them
  as exact rationals (`ℚ`), preserving the `1e-9` tolerance used by every
  sign/zero comparison in the code.
* Member identifiers (arbitrary hashable values in Python) are modelled as
  natural numbers.
* A Python `dict`-of-`dict`s debt graph is modelled by its value view
  (`debts : ℕ → ℕ → ℚ`, the `.get(k, 0)` semantics) together with the inner
  key sets (`dkeys : ℕ → Finset ℕ`), because `remove_member` performs raw
  `del` operations whose `KeyError` behaviour depends on key presence, not
  on values.  Outer keys of a `defaultdict` (auto-created, always holding
  empty inner dicts when relevant) are observationally irrelevant to every
  operation of the class and are not modelled.
-/

namespace Cost

/-- The floating-point tolerance `1e-9` used throughout `cost.py`. -/
def tol : ℚ := 1 / 1000000000

theorem tol_pos : 0 < tol := by norm_num [tol]

/-- State of one `FlexiblePaymentSystem`.  `opt` is `optimized_debts`,
kept as the (insertion-ordered) list of entries `(debtor, creditor, amount)`
written by `optimized_payment_process`; since that procedure writes each
(debtor, creditor) pair at most once (proved below), the list is a faithful
rendering of the nested dict. -/
structure Ledger where
  members : Finset ℕ
  debts : ℕ → ℕ → ℚ
  dkeys : ℕ → Finset ℕ
  opt : List (ℕ × ℕ × ℚ)

/-- A freshly constructed `FlexiblePaymentSystem`. -/
def freshLedger : Ledger :=
  { members := ∅, debts := fun _ _ => 0, dkeys := fun _ => ∅, opt := [] }

/-- `update(from_member, to_member, amount)`: auto-registers both parties and
adds `amount` to the `(from, to)` edge (creating the key at 0 first). -/
def update (L : Ledger) (f t : ℕ) (a : ℚ) : Ledger :=
  { L with
    members := insert t (insert f L.members)
    debts := fun x y => if x = f ∧ y = t then L.debts x y + a else L.debts x y
    dkeys := fun x => if x = f then insert t (L.dkeys f) else L.dkeys x }

/-- `_get_net_balance(member_id, debt_graph)` for the original graph:
money owed to the member minus money the member owes, summed over members. -/
def netBalance (L : Ledger) (m : ℕ) : ℚ :=
  (∑ o ∈ L.members, L.debts o m) - ∑ o ∈ L.members, L.debts m o

/-- Replay a list of `update(from, to, amount)` calls on a fresh ledger. -/
def runUpdates (us : List (ℕ × ℕ × ℚ)) : Ledger :=
  us.foldl (fun L u => update L u.1 u.2.1 u.2.2) freshLedger

theorem sum_netBalance_eq_zero (L : Ledger) :
    ∑ m ∈ L.members, netBalance L m = 0 := by
  unfold netBalance
  rw [Finset.sum_sub_distrib, Finset.sum_comm]
  exact sub_self _

/-- C2: after any finite sequence of `update(from, to, amount)` calls on a
freshly created ledger, the sum over all members of net balance (computed
over `original_debts`) equals 0 within the 1e-9 tolerance. -/
theorem C2_conservation_of_money (us : List (ℕ × ℕ × ℚ)) :
    |∑ m ∈ (runUpdates us).members, netBalance (runUpdates us) m| ≤ tol := by
  rw [sum_netBalance_eq_zero, abs_zero]
  exact le_of_lt tol_pos

/-- Outcome of `remove_member`: `ok` is a `True` return, `notMember` a
`False` return, `nonzeroBalance` the `ValueError`, and `keyError` the
`KeyError` escaping the edge-deletion loops. -/
inductive RemResult
  | ok
  | notMember
  | nonzeroBalance
  | keyError
deriving DecidableEq

/-- Value view plus key sets of `original_debts` during mutation. -/
abbrev GState := (ℕ → ℕ → ℚ) × (ℕ → Finset ℕ)

/-- `del debt_graph[a][b]`: `none` models the `KeyError` raised when the key
is absent; on success the key is erased and the value view drops to 0. -/
def delEdge (st : GState) (a b : ℕ) : Option GState :=
  if b ∈ st.2 a then
    some (fun x y => if x = a ∧ y = b then 0 else st.1 x y,
          fun x => if x = a then (st.2 a).erase b else st.2 x)
  else none

/-- The loop `for other in list(graph[m].keys()): del graph[m][other];
del graph[other][m]` of `remove_member`.  `false` in the result means a
`KeyError` was raised, in which case the partially mutated state is kept
(the exception propagates to the caller). -/
def remLoop (m : ℕ) : List ℕ → GState → Bool × GState
  | [], st => (true, st)
  | o :: os, st =>
    match delEdge st m o with
    | none => (false, st)
    | some st1 =>
      match delEdge st1 o m with
      | none => (false, st1)
      | some st2 => remLoop m os st2

/-- `del optimized_debts[a][b]` on the entry-list rendering of the optimized
graph: `none` models the `KeyError` when no `(a, b)` entry exists. -/
def optDelEdge (opt : List (ℕ × ℕ × ℚ)) (a b : ℕ) : Option (List (ℕ × ℕ × ℚ)) :=
  if opt.any (fun e => e.1 == a && e.2.1 == b) then
    some (opt.filter (fun e => !(e.1 == a && e.2.1 == b)))
  else none

/-- The same deletion loop run over `optimized_debts`. -/
def optRemLoop (m : ℕ) : List ℕ → List (ℕ × ℕ × ℚ) → Bool × List (ℕ × ℕ × ℚ)
  | [], opt => (true, opt)
  | o :: os, opt =>
    match optDelEdge opt m o with
    | none => (false, opt)
    | some opt1 =>
      match optDelEdge opt1 o m with
      | none => (false, opt1)
      | some opt2 => optRemLoop m os opt2

/-- `remove_member(member_id)`.  The snapshot `list(graph[m].keys())` is
iterated in ascending key order; whether the loops raise does not depend on
the (unspecified) Python dict order.  `self.members.remove(member_id)` runs
before the deletion loops, so `m` is gone from `members` even in the
`KeyError` states. -/
def removeMember (L : Ledger) (m : ℕ) : RemResult × Ledger :=
  if m ∈ L.members then
    if tol < |netBalance L m| then (RemResult.nonzeroBalance, L)
    else
      match remLoop m ((L.dkeys m).sort (· ≤ ·)) (L.debts, L.dkeys) with
      | (false, st) =>
        (RemResult.keyError,
         { L with members := L.members.erase m, debts := st.1, dkeys := st.2 })
      | (true, st) =>
        match optRemLoop m ((L.opt.filter (fun e => e.1 == m)).map (fun e => e.2.1)) L.opt with
        | (false, opt') =>
          (RemResult.keyError,
           { L with members := L.members.erase m, debts := st.1, dkeys := st.2, opt := opt' })
        | (true, opt') =>
          (RemResult.ok,
           { members := L.members.erase m, debts := st.1, dkeys := st.2, opt := opt' })
  else (RemResult.notMember, L)

/-- C3: `removeMember(id)` on a member whose absolute net balance over
`original_debts` exceeds 1e-9 signals a validation failure and leaves
`members`, `original_debts` and `optimized_debts` exactly as they were;
on an unknown member it likewise fails without any mutation. -/
theorem C3_removeMember_failure_atomic (L : Ledger) (m : ℕ) :
    (tol < |netBalance L m| →
      (removeMember L m).1 ≠ RemResult.ok ∧ (removeMember L m).2 = L) ∧
    (m ∉ L.members →
      (removeMember L m).1 ≠ RemResult.ok ∧ (removeMember L m).2 = L) := by
  constructor
  · intro hbal
    unfold removeMember
    by_cases hm : m ∈ L.members
    · rw [if_pos hm, if_pos hbal]
      exact ⟨by simp, rfl⟩
    · rw [if_neg hm]
      exact ⟨by simp, rfl⟩
  · intro hm
    unfold removeMember
    rw [if_neg hm]
    exact ⟨by simp, rfl⟩

/-- A concrete unbalanced ledger: `update("0", "1", 100)`. -/
def ledgerAB : Ledger := update freshLedger 0 1 100

theorem C3_removeMember_failure_atomic_witness :
    (tol < |netBalance ledgerAB 0| ∧
      (removeMember ledgerAB 0).1 ≠ RemResult.ok ∧ (removeMember ledgerAB 0).2 = ledgerAB) ∧
    (5 ∉ ledgerAB.members ∧
      (removeMember ledgerAB 5).1 ≠ RemResult.ok ∧ (removeMember ledgerAB 5).2 = ledgerAB) := by
  have h1 : tol < |netBalance ledgerAB 0| := by
    norm_num [tol, netBalance, ledgerAB, update, freshLedger, Finset.sum_insert]
  have h2 : (5 : ℕ) ∉ ledgerAB.members := by
    norm_num [ledgerAB, update, freshLedger]
  exact ⟨⟨h1, (C3_removeMember_failure_atomic ledgerAB 0).1 h1⟩,
         ⟨h2, (C3_removeMember_failure_atomic ledgerAB 5).2 h2⟩⟩

/-! ### The self-loop behaviour of `update` and `remove_member` (claim C10) -/

theorem insert_eq_singleton_of_subset {s : Finset ℕ} {m : ℕ} (h : s ⊆ {m}) :
    insert m s = {m} := by
  ext x
  simp only [Finset.mem_insert, Finset.mem_singleton]
  constructor
  · rintro (rfl | hx)
    · rfl
    · simpa using h hx
  · rintro rfl
    exact Or.inl rfl

theorem update_self_debts (L : Ledger) (m : ℕ) (a : ℚ) :
    (update L m m a).debts = fun x y =>
      L.debts x y + (if x = m ∧ y = m then a else 0) := by
  funext x y
  simp only [update]
  by_cases h : x = m ∧ y = m
  · rw [if_pos h, if_pos h]
  · rw [if_neg h, if_neg h, add_zero]

theorem netBalance_update_self (L : Ledger) (m : ℕ) (a : ℚ)
    (hclosed : m ∉ L.members → ∀ z, L.debts z m = 0 ∧ L.debts m z = 0) (x : ℕ) :
    netBalance (update L m m a) x = netBalance L x := by
  have hmem : (update L m m a).members = insert m L.members := by
    simp [update, Finset.insert_idem]
  unfold netBalance
  rw [hmem, update_self_debts]
  rw [Finset.sum_add_distrib, Finset.sum_add_distrib]
  have hAB : ∑ o ∈ insert m L.members, (if o = m ∧ x = m then a else 0)
      = ∑ o ∈ insert m L.members, (if x = m ∧ o = m then a else 0) :=
    Finset.sum_congr rfl fun o _ => if_congr and_comm rfl rfl
  rw [hAB]
  by_cases hm : m ∈ L.members
  · rw [Finset.insert_eq_self.mpr hm]
    ring
  · have hd : L.debts m x = L.debts x m := by
      rw [(hclosed hm x).2, (hclosed hm x).1]
    have hins1 : ∑ o ∈ insert m L.members, L.debts o x
        = L.debts m x + ∑ o ∈ L.members, L.debts o x := Finset.sum_insert hm
    have hins2 : ∑ o ∈ insert m L.members, L.debts x o
        = L.debts x m + ∑ o ∈ L.members, L.debts x o := Finset.sum_insert hm
    rw [hins1, hins2, hd]
    ring

theorem netBalance_self_zero (L : Ledger) (m : ℕ)
    (hedge : ∀ x, x ≠ m → L.debts x m = 0 ∧ L.debts m x = 0) :
    netBalance L m = 0 := by
  unfold netBalance
  have h1 : ∀ o ∈ L.members, L.debts o m = L.debts m o := by
    intro o _
    by_cases ho : o = m
    · subst ho; rfl
    · rw [(hedge o ho).1, (hedge o ho).2]
  rw [Finset.sum_congr rfl h1]
  exact sub_self _

/-- `remove_member(m)` on a state where `m` is a member, `m`'s outgoing key
set is exactly the self-key `{m}`, and the balance check passes: the loop
runs `del original_debts[m][m]` twice and the second `del` raises
`KeyError`. -/
theorem removeMember_self_loop_keyError (L : Ledger) (m : ℕ)
    (hmem : m ∈ L.members) (hdk : L.dkeys m = {m})
    (hbal : ¬ tol < |netBalance L m|) :
    (removeMember L m).1 = RemResult.keyError := by
  unfold removeMember
  rw [if_pos hmem, if_neg hbal, hdk, Finset.sort_singleton]
  have hc1 : m ∈ (L.debts, L.dkeys).2 m := by
    show m ∈ L.dkeys m
    rw [hdk]
    exact Finset.mem_singleton_self m
  have h1 : delEdge (L.debts, L.dkeys) m m =
      some (fun x y => if x = m ∧ y = m then 0 else L.debts x y,
            fun x => if x = m then (L.dkeys m).erase m else L.dkeys x) := by
    unfold delEdge
    rw [if_pos hc1]
  have hc2 : ¬ m ∈ (fun x y => if x = m ∧ y = m then 0 else L.debts x y,
            fun x => if x = m then (L.dkeys m).erase m else L.dkeys x).2 m := by
    show ¬ m ∈ (if m = m then (L.dkeys m).erase m else L.dkeys m)
    simp
  have h2 : delEdge (fun x y => if x = m ∧ y = m then 0 else L.debts x y,
            fun x => if x = m then (L.dkeys m).erase m else L.dkeys x) m m = none := by
    unfold delEdge
    rw [if_neg hc2]
  have hstep : remLoop m [m] (L.debts, L.dkeys) =
      (false, (fun x y => if x = m ∧ y = m then 0 else L.debts x y,
               fun x => if x = m then (L.dkeys m).erase m else L.dkeys x)) := by
    simp only [remLoop, h1, h2]
  rw [hstep]

/-- C10 (amended): on every ledger whose debt edges run only between
registered members (as in every reachable state), `update(m, m, a)` is
accepted, registers `m` as a member (a no-op if it already was one), and
leaves the net balance of every member unchanged — whether or not `m` has
other edges; however, whenever `m`'s only incident edges are self-edges,
the subsequent `remove_member(m)` passes its zero-balance check and then
raises `KeyError` (the loop deletes the self-edge key twice), so such a
member can NOT be removed. -/
theorem C10_self_loop_update_amended (L : Ledger) (m : ℕ) (a : ℚ)
    (hedges : ∀ x y, L.debts x y ≠ 0 → x ∈ L.members ∧ y ∈ L.members) :
    (update L m m a).members = insert m L.members ∧
    (∀ x, netBalance (update L m m a) x = netBalance L x) ∧
    (L.dkeys m ⊆ {m} → (∀ x, x ≠ m → L.debts x m = 0 ∧ L.debts m x = 0) →
      |netBalance (update L m m a) m| ≤ tol ∧
      (removeMember (update L m m a) m).1 = RemResult.keyError) := by
  set U := update L m m a with hU
  have hmemU : U.members = insert m L.members := by
    simp [hU, update, Finset.insert_idem]
  have hclosed : m ∉ L.members → ∀ z, L.debts z m = 0 ∧ L.debts m z = 0 := by
    intro hm z
    constructor
    · by_contra hz
      exact hm (hedges z m hz).2
    · by_contra hz
      exact hm (hedges m z hz).1
  have hnb : ∀ x, netBalance U x = netBalance L x :=
    netBalance_update_self L m a hclosed
  refine ⟨hmemU, hnb, ?_⟩
  intro hkeys hedge
  have hzero : netBalance U m = 0 := (hnb m).trans (netBalance_self_zero L m hedge)
  have hbal : ¬ tol < |netBalance U m| := by
    rw [hzero, abs_zero]
    exact not_lt.mpr (le_of_lt tol_pos)
  have hdk : U.dkeys m = {m} := by
    have hh : U.dkeys m = insert m (L.dkeys m) := by simp [hU, update]
    rw [hh]
    exact insert_eq_singleton_of_subset hkeys
  refine ⟨by rw [hzero, abs_zero]; exact le_of_lt tol_pos, ?_⟩
  exact removeMember_self_loop_keyError U m
    (by rw [hmemU]; exact Finset.mem_insert_self m L.members) hdk hbal

/-- C10 counterexample to the claim as stated: on the ledger built by the
single call `update(0, 0, 5)` the member 0 has zero net balance and only a
self-edge, yet `remove_member(0)` does not succeed (it raises `KeyError`). -/
theorem C10_self_loop_counterexample :
    |netBalance (update freshLedger 0 0 5) 0| ≤ tol ∧
    (removeMember (update freshLedger 0 0 5) 0).1 ≠ RemResult.ok := by
  have hzero : netBalance (update freshLedger 0 0 5) 0 = 0 :=
    netBalance_self_zero (update freshLedger 0 0 5) 0
      (by intro x hx; simp [update, freshLedger, hx])
  have hmem : (0 : ℕ) ∈ (update freshLedger 0 0 5).members := by
    simp [update, freshLedger]
  have hdk : (update freshLedger 0 0 5).dkeys 0 = {0} := by
    simp [update, freshLedger]
  refine ⟨by rw [hzero, abs_zero]; exact le_of_lt tol_pos, ?_⟩
  have hk := removeMember_self_loop_keyError (update freshLedger 0 0 5) 0 hmem hdk
    (by rw [hzero, abs_zero]; exact not_lt.mpr (le_of_lt tol_pos))
  rw [hk]
  simp

theorem C10_self_loop_update_amended_witness :
    (∀ x y, ledgerAB.debts x y ≠ 0 → x ∈ ledgerAB.members ∧ y ∈ ledgerAB.members) ∧
    ((update ledgerAB 1 1 7).members = insert 1 ledgerAB.members ∧
     (∀ x, netBalance (update ledgerAB 1 1 7) x = netBalance ledgerAB x) ∧
     (ledgerAB.dkeys 1 ⊆ {1} →
       (∀ x, x ≠ 1 → ledgerAB.debts x 1 = 0 ∧ ledgerAB.debts 1 x = 0) →
       |netBalance (update ledgerAB 1 1 7) 1| ≤ tol ∧
       (removeMember (update ledgerAB 1 1 7) 1).1 = RemResult.keyError)) := by
  have hedgesAB : ∀ x y, ledgerAB.debts x y ≠ 0 →
      x ∈ ledgerAB.members ∧ y ∈ ledgerAB.members := by
    intro x y hxy
    by_cases h : x = 0 ∧ y = 1
    · obtain ⟨rfl, rfl⟩ := h
      constructor <;> simp [ledgerAB, update, freshLedger]
    · exfalso
      apply hxy
      show (if x = 0 ∧ y = 1 then freshLedger.debts x y + 100 else freshLedger.debts x y) = 0
      rw [if_neg h]
      rfl
  exact ⟨hedgesAB, C10_self_loop_update_amended ledgerAB 1 7 hedgesAB⟩

/-! ### `optimized_payment_process` (claims C1, C4) -/

/-- Lexicographic comparison of Python tuples `(balance, member)`, the order
used by `heapq` on the pushed pairs. -/
def pairLe (x y : ℚ × ℕ) : Bool :=
  decide (x.1 < y.1) || (decide (x.1 = y.1) && decide (x.2 ≤ y.2))

/-- `heapq.heappop`: pop the minimum tuple, returning it and the remaining
heap.  (Junk value on the empty heap, on which the loop never pops.)  Only
the multiset of heap elements is observable through `heappop`, so the heap
is modelled as a plain list. -/
def popMin : List (ℚ × ℕ) → (ℚ × ℕ) × List (ℚ × ℕ)
  | [] => ((0, 0), [])
  | [x] => (x, [])
  | x :: y :: ys =>
    let r := popMin (y :: ys)
    if pairLe x r.1 then (x, y :: ys) else (r.1, x :: r.2)

/-- The greedy settlement loop of `optimized_payment_process`: pop the most
negative debtor and the most positive creditor, record
`optimized_debts[debtor][creditor] = min(debt, credit)` and push back
whichever side retains more than `1e-9`.  Recursion is by fuel so that the
definition computes in the kernel; `fuel = |debtors| + |creditors|` always
suffices because every iteration shrinks that sum by at least one.  Returns
the recorded entries (in insertion order) and the final heaps. -/
def settleLoopF : ℕ → List (ℚ × ℕ) → List (ℚ × ℕ) →
    List (ℕ × ℕ × ℚ) × List (ℚ × ℕ) × List (ℚ × ℕ)
  | 0, D, C => ([], D, C)
  | _ + 1, [], C => ([], [], C)
  | _ + 1, d :: D, [] => ([], d :: D, [])
  | fuel + 1, d :: D, c :: C =>
    let P := popMin (d :: D)
    let Q := popMin (c :: C)
    let debt := -P.1.1
    let credit := -Q.1.1
    let s := min debt credit
    let D2 := if tol < debt - s then (-(debt - s), P.1.2) :: P.2 else P.2
    let C2 := if tol < credit - s then (-(credit - s), Q.1.2) :: Q.2 else Q.2
    let r := settleLoopF fuel D2 C2
    ((P.1.2, Q.1.2, s) :: r.1, r.2)

/-- `optimized_payment_process()`: recompute `optimized_debts` from scratch.
On an empty member set the code returns `{}` without touching
`optimized_debts`, so the state is unchanged.  The iteration over members
(to fill the heaps) is in ascending member order; since `heappop` always
selects the unique lexicographic minimum, the heap order of insertion is
unobservable. -/
def optimizedPaymentProcess (L : Ledger) : Ledger :=
  if L.members = ∅ then L
  else
    let ms := L.members.sort (· ≤ ·)
    let debtors := (ms.filter (fun m => decide (netBalance L m < -tol))).map
      (fun m => (netBalance L m, m))
    let creditors := (ms.filter (fun m => decide (tol < netBalance L m))).map
      (fun m => (-netBalance L m, m))
    { L with opt := (settleLoopF (debtors.length + creditors.length) debtors creditors).1 }

theorem optimizedPaymentProcess_members (L : Ledger) :
    (optimizedPaymentProcess L).members = L.members := by
  unfold optimizedPaymentProcess
  split <;> rfl

theorem optimizedPaymentProcess_debts (L : Ledger) :
    (optimizedPaymentProcess L).debts = L.debts := by
  unfold optimizedPaymentProcess
  split <;> rfl

/-- `force_remove_member(member_id, settle_first=True)`: fabricate a single
corrective edge against the first other member (iteration over the member
set is modelled in ascending order), re-run the settlement, then perform the
normal removal.  Note the fabricated edge is written with `=`, not `+=`, and
is directed `other -> member` when the member is owed money. -/
def forceRemoveMember (L : Ledger) (m : ℕ) (settleFirst : Bool) : RemResult × Ledger :=
  if m ∉ L.members then (RemResult.notMember, L)
  else
    let L1 :=
      if settleFirst then
        let nb := netBalance L m
        let L' :=
          if tol < nb then
            match (L.members.erase m).sort (· ≤ ·) with
            | [] => L
            | o :: _ =>
              { L with
                debts := fun x y => if x = o ∧ y = m then nb else L.debts x y
                dkeys := fun x => if x = o then insert m (L.dkeys o) else L.dkeys x }
          else if nb < -tol then
            match (L.members.erase m).sort (· ≤ ·) with
            | [] => L
            | o :: _ =>
              { L with
                debts := fun x y => if x = m ∧ y = o then -nb else L.debts x y
                dkeys := fun x => if x = m then insert o (L.dkeys m) else L.dkeys x }
          else L
        optimizedPaymentProcess L'
      else L
    removeMember L1 m

/-- The ledger after `force_remove_member(1)` fabricates its corrective edge
on `ledgerAB` (where member 1 is owed 100): the edge `0 -> 1` is overwritten
with the net balance 100. -/
def fabAB : Ledger :=
  { ledgerAB with
    debts := fun x y => if x = 0 ∧ y = 1 then netBalance ledgerAB 1 else ledgerAB.debts x y
    dkeys := fun x => if x = 0 then insert 1 (ledgerAB.dkeys 0) else ledgerAB.dkeys x }

theorem netBalance_ledgerAB_one : netBalance ledgerAB 1 = 100 := by
  norm_num [netBalance, ledgerAB, update, freshLedger, Finset.sum_insert, Finset.sum_empty]

theorem netBalance_fabAB_one : netBalance fabAB 1 = 100 := by
  norm_num [netBalance, fabAB, ledgerAB, update, freshLedger, Finset.sum_insert,
    Finset.sum_empty]

theorem forceRemove_ledgerAB_unfold :
    forceRemoveMember ledgerAB 1 true = removeMember (optimizedPaymentProcess fabAB) 1 := by
  have hmem : (1 : ℕ) ∈ ledgerAB.members := by
    simp [ledgerAB, update]
  have hnn : ¬ (1 : ℕ) ∉ ledgerAB.members := not_not_intro hmem
  have hpos : tol < netBalance ledgerAB 1 := by
    rw [netBalance_ledgerAB_one]
    norm_num [tol]
  have hsort : ((ledgerAB.members.erase 1).sort (· ≤ ·)) = [0] := by
    have h : ledgerAB.members.erase 1 = {0} := by decide
    rw [h]
    exact Finset.sort_singleton _ 0
  unfold forceRemoveMember
  rw [if_neg hnn]
  simp only [hsort, hpos, if_true, eq_self_iff_true]
  rfl

/-- C4 evaluated at the failing input: on the ledger where member 1 is owed
100, `force_remove_member(1, settle_first=True)` fabricates the corrective
edge in the wrong direction (overwriting `original_debts[0][1]` with 100),
so member 1's net balance stays 100 instead of becoming zero, and the inner
`remove_member` raises its nonzero-balance `ValueError` instead of
succeeding. -/
theorem C4_force_remove_eval :
    (forceRemoveMember ledgerAB 1 true).1 = RemResult.nonzeroBalance ∧
    netBalance (forceRemoveMember ledgerAB 1 true).2 1 = 100 := by
  rw [forceRemove_ledgerAB_unfold]
  have hnb : netBalance (optimizedPaymentProcess fabAB) 1 = 100 := by
    unfold netBalance
    rw [optimizedPaymentProcess_members, optimizedPaymentProcess_debts]
    exact netBalance_fabAB_one
  have hmem : (1 : ℕ) ∈ (optimizedPaymentProcess fabAB).members := by
    rw [optimizedPaymentProcess_members]
    simp [fabAB, ledgerAB, update]
  have hbal : tol < |netBalance (optimizedPaymentProcess fabAB) 1| := by
    rw [hnb]
    norm_num [tol]
  unfold removeMember
  rw [if_pos hmem, if_pos hbal]
  exact ⟨rfl, hnb⟩

/-! ### Accounting helpers for the settlement loop -/

/-- Sum of the stored first components of a heap's entries for one member. -/
def heapStored (l : List (ℚ × ℕ)) (m : ℕ) : ℚ :=
  ((l.filter (fun p => decide (p.2 = m))).map Prod.fst).sum

/-- Remaining (signed) net represented for member `m` by the two heaps:
debtor entries store the net itself, creditor entries store its negation. -/
def heapNet (D C : List (ℚ × ℕ)) (m : ℕ) : ℚ := heapStored D m - heapStored C m

/-- Net balance of member `m` as derived from a list of settlement entries
`(debtor, creditor, amount)`: amounts received minus amounts paid. -/
def entryNet (E : List (ℕ × ℕ × ℚ)) (m : ℕ) : ℚ :=
  (E.map (fun e => (if e.2.1 = m then e.2.2 else 0) - (if e.1 = m then e.2.2 else 0))).sum

theorem heapStored_nil (m : ℕ) : heapStored [] m = 0 := rfl

theorem heapStored_cons (p : ℚ × ℕ) (l : List (ℚ × ℕ)) (m : ℕ) :
    heapStored (p :: l) m = (if p.2 = m then p.1 else 0) + heapStored l m := by
  by_cases h : p.2 = m <;> simp [heapStored, List.filter_cons, h]

theorem heapStored_eq_zero {l : List (ℚ × ℕ)} {m : ℕ} (h : m ∉ l.map Prod.snd) :
    heapStored l m = 0 := by
  induction l with
  | nil => rfl
  | cons p l ih =>
    simp only [List.map_cons, List.mem_cons, not_or] at h
    rw [heapStored_cons, if_neg (fun he => h.1 he.symm), ih h.2, add_zero]

theorem heapStored_perm {l l' : List (ℚ × ℕ)} (h : l.Perm l') (m : ℕ) :
    heapStored l m = heapStored l' m :=
  List.Perm.sum_eq (List.Perm.map _ (List.Perm.filter _ h))

theorem heapStored_nonpos {l : List (ℚ × ℕ)} (m : ℕ) (h : ∀ p ∈ l, p.1 < 0) :
    heapStored l m ≤ 0 := by
  induction l with
  | nil => exact le_of_eq rfl
  | cons p l ih =>
    rw [heapStored_cons]
    have h1 : p.1 < 0 := h p (List.mem_cons_self p l)
    have h2 : heapStored l m ≤ 0 := ih fun q hq => h q (List.mem_cons_of_mem p hq)
    by_cases hp : p.2 = m
    · rw [if_pos hp]; linarith
    · rw [if_neg hp]; linarith

theorem entryNet_nil (m : ℕ) : entryNet [] m = 0 := rfl

theorem entryNet_cons (e : ℕ × ℕ × ℚ) (E : List (ℕ × ℕ × ℚ)) (m : ℕ) :
    entryNet (e :: E) m =
      ((if e.2.1 = m then e.2.2 else 0) - (if e.1 = m then e.2.2 else 0)) + entryNet E m := by
  simp [entryNet]

theorem popMin_perm : ∀ (l : List (ℚ × ℕ)), l ≠ [] → ((popMin l).1 :: (popMin l).2).Perm l
  | [], h => absurd rfl h
  | [x], _ => by simp [popMin]
  | x :: y :: ys, _ => by
    have ih := popMin_perm (y :: ys) (by simp)
    simp only [popMin]
    by_cases hc : pairLe x (popMin (y :: ys)).1 = true
    · rw [if_pos hc]
    · rw [if_neg hc]
      exact ((List.Perm.swap x (popMin (y :: ys)).1 (popMin (y :: ys)).2).trans
        (List.Perm.cons x ih))

/-- At most one side of a settlement step can retain more than `tol`. -/
theorem push_not_both (debt credit : ℚ) :
    ¬(tol < debt - min debt credit ∧ tol < credit - min debt credit) := by
  rcases le_total debt credit with h | h
  · rw [min_eq_left h]
    rintro ⟨h1, _⟩
    simp only [sub_self] at h1
    exact absurd h1 (not_lt.mpr (le_of_lt tol_pos))
  · rw [min_eq_right h]
    rintro ⟨_, h2⟩
    simp only [sub_self] at h2
    exact absurd h2 (not_lt.mpr (le_of_lt tol_pos))

theorem settleLoopF_subsets : ∀ (fuel : ℕ) (D C : List (ℚ × ℕ)),
    (∀ m, m ∈ (settleLoopF fuel D C).2.1.map Prod.snd → m ∈ D.map Prod.snd) ∧
    (∀ m, m ∈ (settleLoopF fuel D C).2.2.map Prod.snd → m ∈ C.map Prod.snd) := by
  intro fuel
  induction fuel with
  | zero => exact fun D C => ⟨fun m hm => hm, fun m hm => hm⟩
  | succ fuel ih =>
    intro D C
    cases D with
    | nil =>
      refine ⟨fun m hm => ?_, fun m hm => ?_⟩
      · simp only [settleLoopF, List.map_nil] at hm
        exact absurd hm (List.not_mem_nil m)
      · simpa only [settleLoopF] using hm
    | cons d D =>
      cases C with
      | nil =>
        refine ⟨fun m hm => ?_, fun m hm => ?_⟩
        · simpa only [settleLoopF] using hm
        · simp only [settleLoopF, List.map_nil] at hm
          exact absurd hm (List.not_mem_nil m)
      | cons c C =>
        have hDperm := popMin_perm (d :: D) (List.cons_ne_nil d D)
        have hCperm := popMin_perm (c :: C) (List.cons_ne_nil c C)
        simp only [settleLoopF]
        set P := popMin (d :: D) with hP
        set Q := popMin (c :: C) with hQ
        have hmemPD : ∀ m, m ∈ (P.1 :: P.2).map Prod.snd → m ∈ (d :: D).map Prod.snd :=
          fun m hm => (hDperm.map Prod.snd).mem_iff.mp hm
        have hmemQC : ∀ m, m ∈ (Q.1 :: Q.2).map Prod.snd → m ∈ (c :: C).map Prod.snd :=
          fun m hm => (hCperm.map Prod.snd).mem_iff.mp hm
        have hpushD : ∀ (x : ℚ) m, m ∈ ((x, P.1.2) :: P.2).map Prod.snd →
            m ∈ (d :: D).map Prod.snd := by
          intro x m hm
          apply hmemPD m
          simpa only [List.map_cons, List.mem_cons] using hm
        have hpushC : ∀ (x : ℚ) m, m ∈ ((x, Q.1.2) :: Q.2).map Prod.snd →
            m ∈ (c :: C).map Prod.snd := by
          intro x m hm
          apply hmemQC m
          simpa only [List.map_cons, List.mem_cons] using hm
        have hdropD : ∀ m, m ∈ P.2.map Prod.snd → m ∈ (d :: D).map Prod.snd := by
          intro m hm
          apply hmemPD m
          simp only [List.map_cons, List.mem_cons]
          exact Or.inr hm
        have hdropC : ∀ m, m ∈ Q.2.map Prod.snd → m ∈ (c :: C).map Prod.snd := by
          intro m hm
          apply hmemQC m
          simp only [List.map_cons, List.mem_cons]
          exact Or.inr hm
        have key : ∀ (D2 C2 : List (ℚ × ℕ)),
            (∀ m, m ∈ D2.map Prod.snd → m ∈ (d :: D).map Prod.snd) →
            (∀ m, m ∈ C2.map Prod.snd → m ∈ (c :: C).map Prod.snd) →
            (∀ m, m ∈ (settleLoopF fuel D2 C2).2.1.map Prod.snd → m ∈ (d :: D).map Prod.snd) ∧
            (∀ m, m ∈ (settleLoopF fuel D2 C2).2.2.map Prod.snd → m ∈ (c :: C).map Prod.snd) :=
          fun D2 C2 h1 h2 =>
            ⟨fun m hm => h1 m ((ih D2 C2).1 m hm), fun m hm => h2 m ((ih D2 C2).2 m hm)⟩
        by_cases hpd : tol < -P.1.1 - min (-P.1.1) (-Q.1.1)
        · by_cases hqc : tol < -Q.1.1 - min (-P.1.1) (-Q.1.1)
          · exact absurd ⟨hpd, hqc⟩ (push_not_both (-P.1.1) (-Q.1.1))
          · rw [if_pos hpd, if_neg hqc]
            exact key _ _ (hpushD _) hdropC
        · by_cases hqc : tol < -Q.1.1 - min (-P.1.1) (-Q.1.1)
          · rw [if_neg hpd, if_pos hqc]
            exact key _ _ hdropD (hpushC _)
          · rw [if_neg hpd, if_neg hqc]
            exact key _ _ hdropD hdropC

theorem settleLoopF_sources : ∀ (fuel : ℕ) (D C : List (ℚ × ℕ)),
    ∀ e ∈ (settleLoopF fuel D C).1, e.1 ∈ D.map Prod.snd ∧ e.2.1 ∈ C.map Prod.snd := by
  intro fuel
  induction fuel with
  | zero => intro D C e he; exact absurd he (List.not_mem_nil e)
  | succ fuel ih =>
    intro D C
    cases D with
    | nil =>
      intro e he
      simp only [settleLoopF] at he
      exact absurd he (List.not_mem_nil e)
    | cons d D =>
      cases C with
      | nil =>
        intro e he
        simp only [settleLoopF] at he
        exact absurd he (List.not_mem_nil e)
      | cons c C =>
        have hDperm := popMin_perm (d :: D) (List.cons_ne_nil d D)
        have hCperm := popMin_perm (c :: C) (List.cons_ne_nil c C)
        simp only [settleLoopF]
        set P := popMin (d :: D) with hP
        set Q := popMin (c :: C) with hQ
        have hmemPD : ∀ m, m ∈ (P.1 :: P.2).map Prod.snd → m ∈ (d :: D).map Prod.snd :=
          fun m hm => (hDperm.map Prod.snd).mem_iff.mp hm
        have hmemQC : ∀ m, m ∈ (Q.1 :: Q.2).map Prod.snd → m ∈ (c :: C).map Prod.snd :=
          fun m hm => (hCperm.map Prod.snd).mem_iff.mp hm
        have hPhead : P.1.2 ∈ (d :: D).map Prod.snd := hmemPD P.1.2 (by simp)
        have hQhead : Q.1.2 ∈ (c :: C).map Prod.snd := hmemQC Q.1.2 (by simp)
        have hpushD : ∀ (x : ℚ) m, m ∈ ((x, P.1.2) :: P.2).map Prod.snd →
            m ∈ (d :: D).map Prod.snd := by
          intro x m hm
          apply hmemPD m
          simpa only [List.map_cons, List.mem_cons] using hm
        have hpushC : ∀ (x : ℚ) m, m ∈ ((x, Q.1.2) :: Q.2).map Prod.snd →
            m ∈ (c :: C).map Prod.snd := by
          intro x m hm
          apply hmemQC m
          simpa only [List.map_cons, List.mem_cons] using hm
        have hdropD : ∀ m, m ∈ P.2.map Prod.snd → m ∈ (d :: D).map Prod.snd := by
          intro m hm
          apply hmemPD m
          simp only [List.map_cons, List.mem_cons]
          exact Or.inr hm
        have hdropC : ∀ m, m ∈ Q.2.map Prod.snd → m ∈ (c :: C).map Prod.snd := by
          intro m hm
          apply hmemQC m
          simp only [List.map_cons, List.mem_cons]
          exact Or.inr hm
        have key : ∀ (x : ℚ) (D2 C2 : List (ℚ × ℕ)),
            (∀ m, m ∈ D2.map Prod.snd → m ∈ (d :: D).map Prod.snd) →
            (∀ m, m ∈ C2.map Prod.snd → m ∈ (c :: C).map Prod.snd) →
            ∀ e ∈ ((P.1.2, Q.1.2, x) :: (settleLoopF fuel D2 C2).1),
              e.1 ∈ (d :: D).map Prod.snd ∧ e.2.1 ∈ (c :: C).map Prod.snd := by
          intro x D2 C2 h1 h2 e he
          rcases List.mem_cons.mp he with rfl | he'
          · exact ⟨hPhead, hQhead⟩
          · obtain ⟨ha, hb⟩ := ih D2 C2 e he'
            exact ⟨h1 _ ha, h2 _ hb⟩
        by_cases hpd : tol < -P.1.1 - min (-P.1.1) (-Q.1.1)
        · by_cases hqc : tol < -Q.1.1 - min (-P.1.1) (-Q.1.1)
          · exact absurd ⟨hpd, hqc⟩ (push_not_both (-P.1.1) (-Q.1.1))
          · rw [if_pos hpd, if_neg hqc]
            exact key _ _ _ (hpushD _) hdropC
        · by_cases hqc : tol < -Q.1.1 - min (-P.1.1) (-Q.1.1)
          · rw [if_neg hpd, if_pos hqc]
            exact key _ _ _ hdropD (hpushC _)
          · rw [if_neg hpd, if_neg hqc]
            exact key _ _ _ hdropD hdropC

theorem settleLoopF_signs : ∀ (fuel : ℕ) (D C : List (ℚ × ℕ)),
    (∀ p ∈ D, p.1 < 0) → (∀ p ∈ C, p.1 < 0) →
    (∀ p ∈ (settleLoopF fuel D C).2.1, p.1 < 0) ∧
    (∀ p ∈ (settleLoopF fuel D C).2.2, p.1 < 0) := by
  intro fuel
  induction fuel with
  | zero => exact fun D C hD hC => ⟨hD, hC⟩
  | succ fuel ih =>
    intro D C hD hC
    cases D with
    | nil =>
      simp only [settleLoopF]
      exact ⟨fun p hp => absurd hp (List.not_mem_nil p), hC⟩
    | cons d D =>
      cases C with
      | nil =>
        simp only [settleLoopF]
        exact ⟨hD, fun p hp => absurd hp (List.not_mem_nil p)⟩
      | cons c C =>
        have hDperm := popMin_perm (d :: D) (List.cons_ne_nil d D)
        have hCperm := popMin_perm (c :: C) (List.cons_ne_nil c C)
        simp only [settleLoopF]
        set P := popMin (d :: D) with hP
        set Q := popMin (c :: C) with hQ
        have hsubP : ∀ p ∈ P.2, p.1 < 0 :=
          fun p hp => hD p (hDperm.mem_iff.mp (List.mem_cons_of_mem P.1 hp))
        have hsubQ : ∀ p ∈ Q.2, p.1 < 0 :=
          fun p hp => hC p (hCperm.mem_iff.mp (List.mem_cons_of_mem Q.1 hp))
        by_cases hpd : tol < -P.1.1 - min (-P.1.1) (-Q.1.1)
        · by_cases hqc : tol < -Q.1.1 - min (-P.1.1) (-Q.1.1)
          · exact absurd ⟨hpd, hqc⟩ (push_not_both (-P.1.1) (-Q.1.1))
          · rw [if_pos hpd, if_neg hqc]
            refine ih _ _ ?_ hsubQ
            intro p hp
            rcases List.mem_cons.mp hp with rfl | hp'
            · have := tol_pos
              show -(-P.1.1 - min (-P.1.1) (-Q.1.1)) < 0
              linarith
            · exact hsubP p hp'
        · by_cases hqc : tol < -Q.1.1 - min (-P.1.1) (-Q.1.1)
          · rw [if_neg hpd, if_pos hqc]
            refine ih _ _ hsubP ?_
            intro p hp
            rcases List.mem_cons.mp hp with rfl | hp'
            · have := tol_pos
              show -(-Q.1.1 - min (-P.1.1) (-Q.1.1)) < 0
              linarith
            · exact hsubQ p hp'
          · rw [if_neg hpd, if_neg hqc]
            exact ih _ _ hsubP hsubQ

theorem settleLoopF_count : ∀ (fuel : ℕ) (D C : List (ℚ × ℕ)),
    (settleLoopF fuel D C).1.length ≤ D.length + C.length - 1 := by
  intro fuel
  induction fuel with
  | zero => exact fun D C => Nat.zero_le _
  | succ fuel ih =>
    intro D C
    cases D with
    | nil =>
      simp only [settleLoopF, List.length_nil]
      exact Nat.zero_le _
    | cons d D =>
      cases C with
      | nil =>
        simp only [settleLoopF, List.length_nil]
        exact Nat.zero_le _
      | cons c C =>
        have hDperm := popMin_perm (d :: D) (List.cons_ne_nil d D)
        have hCperm := popMin_perm (c :: C) (List.cons_ne_nil c C)
        simp only [settleLoopF]
        set P := popMin (d :: D) with hP
        set Q := popMin (c :: C) with hQ
        have hlenD : P.2.length = D.length := by
          have := hDperm.length_eq
          simp only [List.length_cons] at this
          omega
        have hlenC : Q.2.length = C.length := by
          have := hCperm.length_eq
          simp only [List.length_cons] at this
          omega
        by_cases hpd : tol < -P.1.1 - min (-P.1.1) (-Q.1.1)
        · by_cases hqc : tol < -Q.1.1 - min (-P.1.1) (-Q.1.1)
          · exact absurd ⟨hpd, hqc⟩ (push_not_both (-P.1.1) (-Q.1.1))
          · rw [if_pos hpd, if_neg hqc]
            have h := ih ((-(-P.1.1 - min (-P.1.1) (-Q.1.1)), P.1.2) :: P.2) Q.2
            simp only [List.length_cons] at h ⊢
            omega
        · by_cases hqc : tol < -Q.1.1 - min (-P.1.1) (-Q.1.1)
          · rw [if_neg hpd, if_pos hqc]
            have h := ih P.2 ((-(-Q.1.1 - min (-P.1.1) (-Q.1.1)), Q.1.2) :: Q.2)
            simp only [List.length_cons] at h ⊢
            omega
          · rw [if_neg hpd, if_neg hqc]
            have h := ih P.2 Q.2
            simp only [List.length_cons] at h ⊢
            omega

theorem settleLoopF_ends : ∀ (fuel : ℕ) (D C : List (ℚ × ℕ)),
    D.length + C.length ≤ fuel →
    (settleLoopF fuel D C).2.1 = [] ∨ (settleLoopF fuel D C).2.2 = [] := by
  intro fuel
  induction fuel with
  | zero =>
    intro D C hf
    left
    have : D.length = 0 := by omega
    exact List.eq_nil_of_length_eq_zero this
  | succ fuel ih =>
    intro D C hf
    cases D with
    | nil =>
      simp only [settleLoopF]
      exact Or.inl trivial
    | cons d D =>
      cases C with
      | nil =>
        simp only [settleLoopF]
        exact Or.inr trivial
      | cons c C =>
        have hDperm := popMin_perm (d :: D) (List.cons_ne_nil d D)
        have hCperm := popMin_perm (c :: C) (List.cons_ne_nil c C)
        simp only [List.length_cons] at hf
        simp only [settleLoopF]
        set P := popMin (d :: D) with hP
        set Q := popMin (c :: C) with hQ
        have hlenD : P.2.length = D.length := by
          have := hDperm.length_eq
          simp only [List.length_cons] at this
          omega
        have hlenC : Q.2.length = C.length := by
          have := hCperm.length_eq
          simp only [List.length_cons] at this
          omega
        by_cases hpd : tol < -P.1.1 - min (-P.1.1) (-Q.1.1)
        · by_cases hqc : tol < -Q.1.1 - min (-P.1.1) (-Q.1.1)
          · exact absurd ⟨hpd, hqc⟩ (push_not_both (-P.1.1) (-Q.1.1))
          · rw [if_pos hpd, if_neg hqc]
            refine ih _ _ ?_
            simp only [List.length_cons]
            omega
        · by_cases hqc : tol < -Q.1.1 - min (-P.1.1) (-Q.1.1)
          · rw [if_neg hpd, if_pos hqc]
            refine ih _ _ ?_
            simp only [List.length_cons]
            omega
          · rw [if_neg hpd, if_neg hqc]
            refine ih _ _ ?_
            omega

/-- Per-member conservation through the settlement loop: the net settled for
`m` by the produced entries, plus the net still represented in the final
heaps, differs from the net initially represented in the heaps by at most
`tol` (the residual dropped when `m` left the loop); the difference is
exactly 0 while `m` is still in a heap, and members never in the heaps are
never mentioned. -/
theorem settleLoopF_accounting : ∀ (fuel : ℕ) (D C : List (ℚ × ℕ)),
    (D.map Prod.snd ++ C.map Prod.snd).Nodup → ∀ m,
    (|heapNet D C m - entryNet (settleLoopF fuel D C).1 m -
        heapNet (settleLoopF fuel D C).2.1 (settleLoopF fuel D C).2.2 m| ≤ tol) ∧
    ((m ∈ (settleLoopF fuel D C).2.1.map Prod.snd ∨
      m ∈ (settleLoopF fuel D C).2.2.map Prod.snd) →
        heapNet D C m - entryNet (settleLoopF fuel D C).1 m -
          heapNet (settleLoopF fuel D C).2.1 (settleLoopF fuel D C).2.2 m = 0) ∧
    ((m ∉ D.map Prod.snd ∧ m ∉ C.map Prod.snd) →
        entryNet (settleLoopF fuel D C).1 m = 0 ∧
        heapNet (settleLoopF fuel D C).2.1 (settleLoopF fuel D C).2.2 m = 0) := by
  intro fuel
  induction fuel with
  | zero =>
    intro D C _ m
    simp only [settleLoopF]
    refine ⟨?_, fun _ => ?_, fun hm => ?_⟩
    · rw [entryNet_nil, sub_zero, sub_self, abs_zero]
      exact le_of_lt tol_pos
    · rw [entryNet_nil, sub_zero, sub_self]
    · refine ⟨entryNet_nil m, ?_⟩
      rw [heapNet, heapStored_eq_zero hm.1, heapStored_eq_zero hm.2, sub_zero]
  | succ fuel ih =>
    intro D C hnd m
    cases D with
    | nil =>
      simp only [settleLoopF]
      refine ⟨?_, fun _ => ?_, fun hm => ?_⟩
      · rw [entryNet_nil, sub_zero]
        have : heapNet [] C m - heapNet [] C m = 0 := sub_self _
        rw [this, abs_zero]
        exact le_of_lt tol_pos
      · rw [entryNet_nil, sub_zero, sub_self]
      · refine ⟨entryNet_nil m, ?_⟩
        rw [heapNet, heapStored_nil, heapStored_eq_zero hm.2, sub_zero]
    | cons d D =>
      cases C with
      | nil =>
        simp only [settleLoopF]
        refine ⟨?_, fun _ => ?_, fun hm => ?_⟩
        · rw [entryNet_nil, sub_zero, sub_self, abs_zero]
          exact le_of_lt tol_pos
        · rw [entryNet_nil, sub_zero, sub_self]
        · refine ⟨entryNet_nil m, ?_⟩
          rw [heapNet, heapStored_eq_zero hm.1, heapStored_nil, sub_zero]
      | cons c C =>
        have hDperm := popMin_perm (d :: D) (List.cons_ne_nil d D)
        have hCperm := popMin_perm (c :: C) (List.cons_ne_nil c C)
        simp only [settleLoopF]
        set P := popMin (d :: D) with hP
        set Q := popMin (c :: C) with hQ
        have hndP : ((P.1 :: P.2).map Prod.snd ++ (Q.1 :: Q.2).map Prod.snd).Nodup :=
          ((hDperm.map Prod.snd).append (hCperm.map Prod.snd)).nodup_iff.mpr hnd
        simp only [List.map_cons] at hndP
        rw [List.nodup_append] at hndP
        obtain ⟨ndD, ndC, hdisj⟩ := hndP
        have hPP : P.1.2 ∉ P.2.map Prod.snd := (List.nodup_cons.mp ndD).1
        have hQQ : Q.1.2 ∉ Q.2.map Prod.snd := (List.nodup_cons.mp ndC).1
        have hPQ : P.1.2 ∉ Q.1.2 :: Q.2.map Prod.snd :=
          fun h => hdisj (List.mem_cons_self _ _) h
        have hQP : Q.1.2 ∉ P.1.2 :: P.2.map Prod.snd :=
          fun h => hdisj h (List.mem_cons_self _ _)
        have hPQ2 : P.1.2 ∉ Q.2.map Prod.snd :=
          fun h => hPQ (List.mem_cons_of_mem _ h)
        have hQP2 : Q.1.2 ∉ P.2.map Prod.snd :=
          fun h => hQP (List.mem_cons_of_mem _ h)
        have hPneQ : P.1.2 ≠ Q.1.2 := fun h => hPQ (h ▸ List.mem_cons_self _ _)
        have hmemPD : ∀ x, x ∈ (P.1 :: P.2).map Prod.snd → x ∈ (d :: D).map Prod.snd :=
          fun x hx => (hDperm.map Prod.snd).mem_iff.mp hx
        have hmemQC : ∀ x, x ∈ (Q.1 :: Q.2).map Prod.snd → x ∈ (c :: C).map Prod.snd :=
          fun x hx => (hCperm.map Prod.snd).mem_iff.mp hx
        have hmemPD' : ∀ x, x ∈ (d :: D).map Prod.snd → x ∈ (P.1 :: P.2).map Prod.snd :=
          fun x hx => (hDperm.map Prod.snd).mem_iff.mpr hx
        have hmemQC' : ∀ x, x ∈ (c :: C).map Prod.snd → x ∈ (Q.1 :: Q.2).map Prod.snd :=
          fun x hx => (hCperm.map Prod.snd).mem_iff.mpr hx
        have hhd : heapStored (d :: D) m
            = (if P.1.2 = m then P.1.1 else 0) + heapStored P.2 m := by
          rw [← heapStored_perm hDperm m, heapStored_cons]
        have hhc : heapStored (c :: C) m
            = (if Q.1.2 = m then Q.1.1 else 0) + heapStored Q.2 m := by
          rw [← heapStored_perm hCperm m, heapStored_cons]
        have hs1 : min (-P.1.1) (-Q.1.1) ≤ -P.1.1 := min_le_left _ _
        have hs2 : min (-P.1.1) (-Q.1.1) ≤ -Q.1.1 := min_le_right _ _
        by_cases hpd : tol < -P.1.1 - min (-P.1.1) (-Q.1.1)
        · by_cases hqc : tol < -Q.1.1 - min (-P.1.1) (-Q.1.1)
          · exact absurd ⟨hpd, hqc⟩ (push_not_both (-P.1.1) (-Q.1.1))
          · -- push back the debtor, drop the creditor
            rw [if_pos hpd, if_neg hqc]
            have hnd2 : (((-(-P.1.1 - min (-P.1.1) (-Q.1.1)), P.1.2) :: P.2).map Prod.snd
                ++ Q.2.map Prod.snd).Nodup := by
              simp only [List.map_cons]
              have hsub : List.Sublist
                  (P.1.2 :: P.2.map Prod.snd ++ Q.2.map Prod.snd)
                  (P.1.2 :: P.2.map Prod.snd ++ Q.1.2 :: Q.2.map Prod.snd) :=
                (List.sublist_cons_self Q.1.2 (Q.2.map Prod.snd)).append_left _
              refine List.Nodup.sublist hsub ?_
              rw [List.nodup_append]
              exact ⟨ndD, ndC, hdisj⟩
            obtain ⟨ihA, ihB, ihC⟩ := ih _ _ hnd2 m
            by_cases hm1 : P.1.2 = m
            · -- m is the pushed-back debtor: exact step equation
              have hm2 : ¬ Q.1.2 = m := fun h => hPneQ (hm1.trans h.symm)
              have hre : heapNet (d :: D) (c :: C) m
                  - entryNet ((P.1.2, Q.1.2, min (-P.1.1) (-Q.1.1)) ::
                      (settleLoopF fuel ((-(-P.1.1 - min (-P.1.1) (-Q.1.1)), P.1.2) :: P.2) Q.2).1) m
                  - heapNet (settleLoopF fuel ((-(-P.1.1 - min (-P.1.1) (-Q.1.1)), P.1.2) :: P.2) Q.2).2.1
                      (settleLoopF fuel ((-(-P.1.1 - min (-P.1.1) (-Q.1.1)), P.1.2) :: P.2) Q.2).2.2 m
                  = heapNet ((-(-P.1.1 - min (-P.1.1) (-Q.1.1)), P.1.2) :: P.2) Q.2 m
                  - entryNet (settleLoopF fuel ((-(-P.1.1 - min (-P.1.1) (-Q.1.1)), P.1.2) :: P.2) Q.2).1 m
                  - heapNet (settleLoopF fuel ((-(-P.1.1 - min (-P.1.1) (-Q.1.1)), P.1.2) :: P.2) Q.2).2.1
                      (settleLoopF fuel ((-(-P.1.1 - min (-P.1.1) (-Q.1.1)), P.1.2) :: P.2) Q.2).2.2 m := by
                simp only [heapNet, hhd, hhc, heapStored_cons, entryNet_cons,
                  if_pos hm1, if_neg hm2]
                ring
              refine ⟨?_, fun hmem => ?_, fun hout => ?_⟩
              · rw [hre]; exact ihA
              · rw [hre]; exact ihB hmem
              · exact absurd (hmemPD m (by simp [← hm1])) hout.1
            · by_cases hm2 : Q.1.2 = m
              · -- m is the dropped creditor
                have hmP2 : m ∉ P.2.map Prod.snd := fun h => hQP2 (hm2 ▸ h)
                have hmQ2 : m ∉ Q.2.map Prod.snd := fun h => hQQ (hm2 ▸ h)
                have hmD2 : m ∉ ((-(-P.1.1 - min (-P.1.1) (-Q.1.1)), P.1.2) :: P.2).map Prod.snd := by
                  simp only [List.map_cons, List.mem_cons, not_or]
                  exact ⟨fun h => hm1 h.symm, hmP2⟩
                obtain ⟨hE0, hH0⟩ := ihC ⟨hmD2, hmQ2⟩
                have hre : heapNet (d :: D) (c :: C) m
                    - entryNet ((P.1.2, Q.1.2, min (-P.1.1) (-Q.1.1)) ::
                        (settleLoopF fuel ((-(-P.1.1 - min (-P.1.1) (-Q.1.1)), P.1.2) :: P.2) Q.2).1) m
                    - heapNet (settleLoopF fuel ((-(-P.1.1 - min (-P.1.1) (-Q.1.1)), P.1.2) :: P.2) Q.2).2.1
                        (settleLoopF fuel ((-(-P.1.1 - min (-P.1.1) (-Q.1.1)), P.1.2) :: P.2) Q.2).2.2 m
                    = -Q.1.1 - min (-P.1.1) (-Q.1.1) := by
                  simp only [heapNet, hhd, hhc, heapStored_cons, entryNet_cons,
                    if_pos hm2, if_neg hm1, hE0, hH0, heapStored_eq_zero hmP2,
                    heapStored_eq_zero hmQ2]
                  simp only [heapNet] at hH0
                  ring_nf
                  ring_nf at hH0
                  linarith [hH0]
                refine ⟨?_, fun hmem => ?_, fun hout => ?_⟩
                · rw [hre, abs_le]
                  constructor
                  · have := tol_pos
                    linarith
                  · linarith
                · rcases hmem with hmem | hmem
                  · exact absurd ((settleLoopF_subsets fuel _ _).1 m hmem) hmD2
                  · exact absurd ((settleLoopF_subsets fuel _ _).2 m hmem) hmQ2
                · exact absurd (hmemQC m (by simp [← hm2])) hout.2
              · -- m untouched this step
                have hre : heapNet (d :: D) (c :: C) m
                    - entryNet ((P.1.2, Q.1.2, min (-P.1.1) (-Q.1.1)) ::
                        (settleLoopF fuel ((-(-P.1.1 - min (-P.1.1) (-Q.1.1)), P.1.2) :: P.2) Q.2).1) m
                    - heapNet (settleLoopF fuel ((-(-P.1.1 - min (-P.1.1) (-Q.1.1)), P.1.2) :: P.2) Q.2).2.1
                        (settleLoopF fuel ((-(-P.1.1 - min (-P.1.1) (-Q.1.1)), P.1.2) :: P.2) Q.2).2.2 m
                    = heapNet ((-(-P.1.1 - min (-P.1.1) (-Q.1.1)), P.1.2) :: P.2) Q.2 m
                    - entryNet (settleLoopF fuel ((-(-P.1.1 - min (-P.1.1) (-Q.1.1)), P.1.2) :: P.2) Q.2).1 m
                    - heapNet (settleLoopF fuel ((-(-P.1.1 - min (-P.1.1) (-Q.1.1)), P.1.2) :: P.2) Q.2).2.1
                        (settleLoopF fuel ((-(-P.1.1 - min (-P.1.1) (-Q.1.1)), P.1.2) :: P.2) Q.2).2.2 m := by
                  simp only [heapNet, hhd, hhc, heapStored_cons, entryNet_cons,
                    if_neg hm1, if_neg hm2]
                  ring
                refine ⟨?_, fun hmem => ?_, fun hout => ?_⟩
                · rw [hre]; exact ihA
                · rw [hre]; exact ihB hmem
                · have hmD2 : m ∉ ((-(-P.1.1 - min (-P.1.1) (-Q.1.1)), P.1.2) :: P.2).map Prod.snd := by
                    simp only [List.map_cons, List.mem_cons, not_or]
                    refine ⟨fun h => hm1 h.symm, fun h => hout.1 (hmemPD m ?_)⟩
                    simp only [List.map_cons, List.mem_cons]
                    exact Or.inr h
                  have hmC2 : m ∉ Q.2.map Prod.snd := by
                    intro h
                    exact hout.2 (hmemQC m (by
                      simp only [List.map_cons, List.mem_cons]
                      exact Or.inr h))
                  obtain ⟨hE0, hH0⟩ := ihC ⟨hmD2, hmC2⟩
                  refine ⟨?_, hH0⟩
                  rw [entryNet_cons, hE0, if_neg hm1, if_neg hm2]
                  ring
        · by_cases hqc : tol < -Q.1.1 - min (-P.1.1) (-Q.1.1)
          · -- drop the debtor, push back the creditor
            rw [if_neg hpd, if_pos hqc]
            have hnd2 : (P.2.map Prod.snd ++
                (((-(-Q.1.1 - min (-P.1.1) (-Q.1.1)), Q.1.2) :: Q.2).map Prod.snd)).Nodup := by
              simp only [List.map_cons]
              have hsub : List.Sublist
                  (P.2.map Prod.snd ++ Q.1.2 :: Q.2.map Prod.snd)
                  (P.1.2 :: P.2.map Prod.snd ++ Q.1.2 :: Q.2.map Prod.snd) :=
                List.Sublist.append (List.sublist_cons_self P.1.2 (P.2.map Prod.snd))
                  (List.Sublist.refl _)
              refine List.Nodup.sublist hsub ?_
              rw [List.nodup_append]
              exact ⟨ndD, ndC, hdisj⟩
            obtain ⟨ihA, ihB, ihC⟩ := ih _ _ hnd2 m
            by_cases hm2 : Q.1.2 = m
            · -- m is the pushed-back creditor: exact step equation
              have hm1 : ¬ P.1.2 = m := fun h => hPneQ (h.trans hm2.symm)
              have hre : heapNet (d :: D) (c :: C) m
                  - entryNet ((P.1.2, Q.1.2, min (-P.1.1) (-Q.1.1)) ::
                      (settleLoopF fuel P.2 ((-(-Q.1.1 - min (-P.1.1) (-Q.1.1)), Q.1.2) :: Q.2)).1) m
                  - heapNet (settleLoopF fuel P.2 ((-(-Q.1.1 - min (-P.1.1) (-Q.1.1)), Q.1.2) :: Q.2)).2.1
                      (settleLoopF fuel P.2 ((-(-Q.1.1 - min (-P.1.1) (-Q.1.1)), Q.1.2) :: Q.2)).2.2 m
                  = heapNet P.2 ((-(-Q.1.1 - min (-P.1.1) (-Q.1.1)), Q.1.2) :: Q.2) m
                  - entryNet (settleLoopF fuel P.2 ((-(-Q.1.1 - min (-P.1.1) (-Q.1.1)), Q.1.2) :: Q.2)).1 m
                  - heapNet (settleLoopF fuel P.2 ((-(-Q.1.1 - min (-P.1.1) (-Q.1.1)), Q.1.2) :: Q.2)).2.1
                      (settleLoopF fuel P.2 ((-(-Q.1.1 - min (-P.1.1) (-Q.1.1)), Q.1.2) :: Q.2)).2.2 m := by
                simp only [heapNet, hhd, hhc, heapStored_cons, entryNet_cons,
                  if_pos hm2, if_neg hm1]
                ring
              refine ⟨?_, fun hmem => ?_, fun hout => ?_⟩
              · rw [hre]; exact ihA
              · rw [hre]; exact ihB hmem
              · exact absurd (hmemQC m (by simp [← hm2])) hout.2
            · by_cases hm1 : P.1.2 = m
              · -- m is the dropped debtor
                have hmP2 : m ∉ P.2.map Prod.snd := fun h => hPP (hm1 ▸ h)
                have hmQ2 : m ∉ Q.2.map Prod.snd := fun h => hPQ2 (hm1 ▸ h)
                have hmC2 : m ∉ ((-(-Q.1.1 - min (-P.1.1) (-Q.1.1)), Q.1.2) :: Q.2).map Prod.snd := by
                  simp only [List.map_cons, List.mem_cons, not_or]
                  exact ⟨fun h => hm2 h.symm, hmQ2⟩
                obtain ⟨hE0, hH0⟩ := ihC ⟨hmP2, hmC2⟩
                have hre : heapNet (d :: D) (c :: C) m
                    - entryNet ((P.1.2, Q.1.2, min (-P.1.1) (-Q.1.1)) ::
                        (settleLoopF fuel P.2 ((-(-Q.1.1 - min (-P.1.1) (-Q.1.1)), Q.1.2) :: Q.2)).1) m
                    - heapNet (settleLoopF fuel P.2 ((-(-Q.1.1 - min (-P.1.1) (-Q.1.1)), Q.1.2) :: Q.2)).2.1
                        (settleLoopF fuel P.2 ((-(-Q.1.1 - min (-P.1.1) (-Q.1.1)), Q.1.2) :: Q.2)).2.2 m
                    = P.1.1 + min (-P.1.1) (-Q.1.1) := by
                  simp only [heapNet, hhd, hhc, heapStored_cons, entryNet_cons,
                    if_pos hm1, if_neg hm2, hE0, heapStored_eq_zero hmP2,
                    heapStored_eq_zero hmQ2]
                  simp only [heapNet] at hH0
                  ring_nf
                  ring_nf at hH0
                  linarith [hH0]
                refine ⟨?_, fun hmem => ?_, fun hout => ?_⟩
                · rw [hre, abs_le]
                  constructor
                  · have := tol_pos
                    linarith
                  · linarith
                · rcases hmem with hmem | hmem
                  · exact absurd ((settleLoopF_subsets fuel _ _).1 m hmem) hmP2
                  · exact absurd ((settleLoopF_subsets fuel _ _).2 m hmem) hmC2
                · exact absurd (hmemPD m (by simp [← hm1])) hout.1
              · -- m untouched this step
                have hre : heapNet (d :: D) (c :: C) m
                    - entryNet ((P.1.2, Q.1.2, min (-P.1.1) (-Q.1.1)) ::
                        (settleLoopF fuel P.2 ((-(-Q.1.1 - min (-P.1.1) (-Q.1.1)), Q.1.2) :: Q.2)).1) m
                    - heapNet (settleLoopF fuel P.2 ((-(-Q.1.1 - min (-P.1.1) (-Q.1.1)), Q.1.2) :: Q.2)).2.1
                        (settleLoopF fuel P.2 ((-(-Q.1.1 - min (-P.1.1) (-Q.1.1)), Q.1.2) :: Q.2)).2.2 m
                    = heapNet P.2 ((-(-Q.1.1 - min (-P.1.1) (-Q.1.1)), Q.1.2) :: Q.2) m
                    - entryNet (settleLoopF fuel P.2 ((-(-Q.1.1 - min (-P.1.1) (-Q.1.1)), Q.1.2) :: Q.2)).1 m
                    - heapNet (settleLoopF fuel P.2 ((-(-Q.1.1 - min (-P.1.1) (-Q.1.1)), Q.1.2) :: Q.2)).2.1
                        (settleLoopF fuel P.2 ((-(-Q.1.1 - min (-P.1.1) (-Q.1.1)), Q.1.2) :: Q.2)).2.2 m := by
                  simp only [heapNet, hhd, hhc, heapStored_cons, entryNet_cons,
                    if_neg hm1, if_neg hm2]
                  ring
                refine ⟨?_, fun hmem => ?_, fun hout => ?_⟩
                · rw [hre]; exact ihA
                · rw [hre]; exact ihB hmem
                · have hmP2 : m ∉ P.2.map Prod.snd := by
                    intro h
                    exact hout.1 (hmemPD m (by
                      simp only [List.map_cons, List.mem_cons]
                      exact Or.inr h))
                  have hmC2 : m ∉ ((-(-Q.1.1 - min (-P.1.1) (-Q.1.1)), Q.1.2) :: Q.2).map Prod.snd := by
                    simp only [List.map_cons, List.mem_cons, not_or]
                    refine ⟨fun h => hm2 h.symm, fun h => hout.2 (hmemQC m ?_)⟩
                    simp only [List.map_cons, List.mem_cons]
                    exact Or.inr h
                  obtain ⟨hE0, hH0⟩ := ihC ⟨hmP2, hmC2⟩
                  refine ⟨?_, hH0⟩
                  rw [entryNet_cons, hE0, if_neg hm1, if_neg hm2]
                  ring
          · -- both sides fully settled (or sub-tolerance residues dropped)
            rw [if_neg hpd, if_neg hqc]
            have hnd2 : (P.2.map Prod.snd ++ Q.2.map Prod.snd).Nodup := by
              have hsub : List.Sublist
                  (P.2.map Prod.snd ++ Q.2.map Prod.snd)
                  (P.1.2 :: P.2.map Prod.snd ++ Q.1.2 :: Q.2.map Prod.snd) :=
                List.Sublist.append (List.sublist_cons_self P.1.2 (P.2.map Prod.snd))
                  (List.sublist_cons_self Q.1.2 (Q.2.map Prod.snd))
              refine List.Nodup.sublist hsub ?_
              rw [List.nodup_append]
              exact ⟨ndD, ndC, hdisj⟩
            obtain ⟨ihA, ihB, ihC⟩ := ih _ _ hnd2 m
            by_cases hm1 : P.1.2 = m
            · -- m is the dropped debtor
              have hm2 : ¬ Q.1.2 = m := fun h => hPneQ (hm1.trans h.symm)
              have hmP2 : m ∉ P.2.map Prod.snd := fun h => hPP (hm1 ▸ h)
              have hmQ2 : m ∉ Q.2.map Prod.snd := fun h => hPQ2 (hm1 ▸ h)
              obtain ⟨hE0, hH0⟩ := ihC ⟨hmP2, hmQ2⟩
              have hre : heapNet (d :: D) (c :: C) m
                  - entryNet ((P.1.2, Q.1.2, min (-P.1.1) (-Q.1.1)) ::
                      (settleLoopF fuel P.2 Q.2).1) m
                  - heapNet (settleLoopF fuel P.2 Q.2).2.1 (settleLoopF fuel P.2 Q.2).2.2 m
                  = P.1.1 + min (-P.1.1) (-Q.1.1) := by
                simp only [heapNet, hhd, hhc, heapStored_cons, entryNet_cons,
                  if_pos hm1, if_neg hm2, hE0, heapStored_eq_zero hmP2,
                  heapStored_eq_zero hmQ2]
                simp only [heapNet] at hH0
                ring_nf
                ring_nf at hH0
                linarith [hH0]
              refine ⟨?_, fun hmem => ?_, fun hout => ?_⟩
              · rw [hre, abs_le]
                constructor
                · have := tol_pos
                  linarith
                · linarith
              · rcases hmem with hmem | hmem
                · exact absurd ((settleLoopF_subsets fuel _ _).1 m hmem) hmP2
                · exact absurd ((settleLoopF_subsets fuel _ _).2 m hmem) hmQ2
              · exact absurd (hmemPD m (by simp [← hm1])) hout.1
            · by_cases hm2 : Q.1.2 = m
              · -- m is the dropped creditor
                have hmP2 : m ∉ P.2.map Prod.snd := fun h => hQP2 (hm2 ▸ h)
                have hmQ2 : m ∉ Q.2.map Prod.snd := fun h => hQQ (hm2 ▸ h)
                obtain ⟨hE0, hH0⟩ := ihC ⟨hmP2, hmQ2⟩
                have hre : heapNet (d :: D) (c :: C) m
                    - entryNet ((P.1.2, Q.1.2, min (-P.1.1) (-Q.1.1)) ::
                        (settleLoopF fuel P.2 Q.2).1) m
                    - heapNet (settleLoopF fuel P.2 Q.2).2.1 (settleLoopF fuel P.2 Q.2).2.2 m
                    = -Q.1.1 - min (-P.1.1) (-Q.1.1) := by
                  simp only [heapNet, hhd, hhc, heapStored_cons, entryNet_cons,
                    if_pos hm2, if_neg hm1, hE0, heapStored_eq_zero hmP2,
                    heapStored_eq_zero hmQ2]
                  simp only [heapNet] at hH0
                  ring_nf
                  ring_nf at hH0
                  linarith [hH0]
                refine ⟨?_, fun hmem => ?_, fun hout => ?_⟩
                · rw [hre, abs_le]
                  constructor
                  · have := tol_pos
                    linarith
                  · linarith
                · rcases hmem with hmem | hmem
                  · exact absurd ((settleLoopF_subsets fuel _ _).1 m hmem) hmP2
                  · exact absurd ((settleLoopF_subsets fuel _ _).2 m hmem) hmQ2
                · exact absurd (hmemQC m (by simp [← hm2])) hout.2
              · -- m untouched this step
                have hre : heapNet (d :: D) (c :: C) m
                    - entryNet ((P.1.2, Q.1.2, min (-P.1.1) (-Q.1.1)) ::
                        (settleLoopF fuel P.2 Q.2).1) m
                    - heapNet (settleLoopF fuel P.2 Q.2).2.1 (settleLoopF fuel P.2 Q.2).2.2 m
                    = heapNet P.2 Q.2 m
                    - entryNet (settleLoopF fuel P.2 Q.2).1 m
                    - heapNet (settleLoopF fuel P.2 Q.2).2.1 (settleLoopF fuel P.2 Q.2).2.2 m := by
                  simp only [heapNet, hhd, hhc, heapStored_cons, entryNet_cons,
                    if_neg hm1, if_neg hm2]
                  ring
                refine ⟨?_, fun hmem => ?_, fun hout => ?_⟩
                · rw [hre]; exact ihA
                · rw [hre]; exact ihB hmem
                · have hmP2 : m ∉ P.2.map Prod.snd := by
                    intro h
                    exact hout.1 (hmemPD m (by
                      simp only [List.map_cons, List.mem_cons]
                      exact Or.inr h))
                  have hmQ2 : m ∉ Q.2.map Prod.snd := by
                    intro h
                    exact hout.2 (hmemQC m (by
                      simp only [List.map_cons, List.mem_cons]
                      exact Or.inr h))
                  obtain ⟨hE0, hH0⟩ := ihC ⟨hmP2, hmQ2⟩
                  refine ⟨?_, hH0⟩
                  rw [entryNet_cons, hE0, if_neg hm1, if_neg hm2]
                  ring

/-- The settlement loop writes each (debtor, creditor) pair at most once, so
`optimized_debts[debtor][creditor] = settlement` never overwrites an entry
and the entry list is a faithful rendering of the nested dict. -/
theorem settleLoopF_pairs_distinct : ∀ (fuel : ℕ) (D C : List (ℚ × ℕ)),
    (D.map Prod.snd ++ C.map Prod.snd).Nodup →
    (settleLoopF fuel D C).1.Pairwise (fun e e' => e.1 ≠ e'.1 ∨ e.2.1 ≠ e'.2.1) := by
  intro fuel
  induction fuel with
  | zero => exact fun D C _ => List.Pairwise.nil
  | succ fuel ih =>
    intro D C hnd
    cases D with
    | nil => simp only [settleLoopF]; exact List.Pairwise.nil
    | cons d D =>
      cases C with
      | nil => simp only [settleLoopF]; exact List.Pairwise.nil
      | cons c C =>
        have hDperm := popMin_perm (d :: D) (List.cons_ne_nil d D)
        have hCperm := popMin_perm (c :: C) (List.cons_ne_nil c C)
        simp only [settleLoopF]
        set P := popMin (d :: D) with hP
        set Q := popMin (c :: C) with hQ
        have hndP : ((P.1 :: P.2).map Prod.snd ++ (Q.1 :: Q.2).map Prod.snd).Nodup :=
          ((hDperm.map Prod.snd).append (hCperm.map Prod.snd)).nodup_iff.mpr hnd
        simp only [List.map_cons] at hndP
        rw [List.nodup_append] at hndP
        obtain ⟨ndD, ndC, hdisj⟩ := hndP
        have hPP : P.1.2 ∉ P.2.map Prod.snd := (List.nodup_cons.mp ndD).1
        have hQQ : Q.1.2 ∉ Q.2.map Prod.snd := (List.nodup_cons.mp ndC).1
        by_cases hpd : tol < -P.1.1 - min (-P.1.1) (-Q.1.1)
        · by_cases hqc : tol < -Q.1.1 - min (-P.1.1) (-Q.1.1)
          · exact absurd ⟨hpd, hqc⟩ (push_not_both (-P.1.1) (-Q.1.1))
          · rw [if_pos hpd, if_neg hqc]
            have hnd2 : (((-(-P.1.1 - min (-P.1.1) (-Q.1.1)), P.1.2) :: P.2).map Prod.snd
                ++ Q.2.map Prod.snd).Nodup := by
              simp only [List.map_cons]
              have hsub : List.Sublist
                  (P.1.2 :: P.2.map Prod.snd ++ Q.2.map Prod.snd)
                  (P.1.2 :: P.2.map Prod.snd ++ Q.1.2 :: Q.2.map Prod.snd) :=
                (List.sublist_cons_self Q.1.2 (Q.2.map Prod.snd)).append_left _
              refine List.Nodup.sublist hsub ?_
              rw [List.nodup_append]
              exact ⟨ndD, ndC, hdisj⟩
            refine List.Pairwise.cons ?_ (ih _ _ hnd2)
            intro e' he'
            right
            intro hcon
            have hsrc := (settleLoopF_sources fuel _ _ e' he').2
            have h2 : Q.1.2 = e'.2.1 := hcon
            rw [← h2] at hsrc
            exact hQQ hsrc
        · by_cases hqc : tol < -Q.1.1 - min (-P.1.1) (-Q.1.1)
          · rw [if_neg hpd, if_pos hqc]
            have hnd2 : (P.2.map Prod.snd ++
                (((-(-Q.1.1 - min (-P.1.1) (-Q.1.1)), Q.1.2) :: Q.2).map Prod.snd)).Nodup := by
              simp only [List.map_cons]
              have hsub : List.Sublist
                  (P.2.map Prod.snd ++ Q.1.2 :: Q.2.map Prod.snd)
                  (P.1.2 :: P.2.map Prod.snd ++ Q.1.2 :: Q.2.map Prod.snd) :=
                List.Sublist.append (List.sublist_cons_self P.1.2 (P.2.map Prod.snd))
                  (List.Sublist.refl _)
              refine List.Nodup.sublist hsub ?_
              rw [List.nodup_append]
              exact ⟨ndD, ndC, hdisj⟩
            refine List.Pairwise.cons ?_ (ih _ _ hnd2)
            intro e' he'
            left
            intro hcon
            have hsrc := (settleLoopF_sources fuel _ _ e' he').1
            have h2 : P.1.2 = e'.1 := hcon
            rw [← h2] at hsrc
            exact hPP hsrc
          · rw [if_neg hpd, if_neg hqc]
            have hnd2 : (P.2.map Prod.snd ++ Q.2.map Prod.snd).Nodup := by
              have hsub : List.Sublist
                  (P.2.map Prod.snd ++ Q.2.map Prod.snd)
                  (P.1.2 :: P.2.map Prod.snd ++ Q.1.2 :: Q.2.map Prod.snd) :=
                List.Sublist.append (List.sublist_cons_self P.1.2 (P.2.map Prod.snd))
                  (List.sublist_cons_self Q.1.2 (Q.2.map Prod.snd))
              refine List.Nodup.sublist hsub ?_
              rw [List.nodup_append]
              exact ⟨ndD, ndC, hdisj⟩
            refine List.Pairwise.cons ?_ (ih _ _ hnd2)
            intro e' he'
            left
            intro hcon
            have hsrc := (settleLoopF_sources fuel _ _ e' he').1
            have h2 : P.1.2 = e'.1 := hcon
            rw [← h2] at hsrc
            exact hPP hsrc

/-- `heapStored` evaluated on a heap built by tagging each member of a
duplicate-free list with a stored value. -/
theorem heapStored_map_tag (f : ℕ → ℚ) :
    ∀ (l : List ℕ), l.Nodup → ∀ x,
      heapStored (l.map fun m => (f m, m)) x = if x ∈ l then f x else 0 := by
  intro l
  induction l with
  | nil => intro _ x; simp [heapStored_nil]
  | cons a l ih =>
    intro hnd x
    obtain ⟨ha, hl⟩ := List.nodup_cons.mp hnd
    rw [List.map_cons, heapStored_cons, ih hl x]
    by_cases hax : a = x
    · subst hax
      rw [if_pos rfl, if_neg ha, if_pos (List.mem_cons_self a l), add_zero]
    · rw [if_neg hax]
      by_cases hxl : x ∈ l
      · rw [if_pos hxl, if_pos (List.mem_cons_of_mem a hxl), zero_add]
      · rw [if_neg hxl, if_neg (by
          simp only [List.mem_cons, not_or]
          exact ⟨fun h => hax h.symm, hxl⟩), add_zero]

/-- Summed over any set containing all mentioned members, the settlement
entries transfer money without creating or destroying it. -/
theorem entryNet_sum_zero : ∀ (E : List (ℕ × ℕ × ℚ)) (S : Finset ℕ),
    (∀ e ∈ E, e.1 ∈ S ∧ e.2.1 ∈ S) → ∑ m ∈ S, entryNet E m = 0 := by
  intro E
  induction E with
  | nil => intro S _; simp [entryNet_nil]
  | cons e E ih =>
    intro S hsrc
    have h1 : ∀ m ∈ S, entryNet (e :: E) m =
        ((if e.2.1 = m then e.2.2 else 0) - (if e.1 = m then e.2.2 else 0)) + entryNet E m :=
      fun m _ => entryNet_cons e E m
    rw [Finset.sum_congr rfl h1, Finset.sum_add_distrib, Finset.sum_sub_distrib]
    have h2 : ∑ m ∈ S, (if e.2.1 = m then e.2.2 else 0) = e.2.2 := by
      rw [Finset.sum_ite_eq S e.2.1 (fun _ => e.2.2)]
      exact if_pos (hsrc e (List.mem_cons_self e E)).2
    have h3 : ∑ m ∈ S, (if e.1 = m then e.2.2 else 0) = e.2.2 := by
      rw [Finset.sum_ite_eq S e.1 (fun _ => e.2.2)]
      exact if_pos (hsrc e (List.mem_cons_self e E)).1
    rw [h2, h3, ih S (fun e' he' => hsrc e' (List.mem_cons_of_mem e he'))]
    ring

/-- In a family of same-signed quantities, each member is bounded by the
absolute value of the total. -/
theorem abs_le_abs_sum_of_nonpos {S : Finset ℕ} {g : ℕ → ℚ}
    (h : ∀ x ∈ S, g x ≤ 0) {m : ℕ} (hm : m ∈ S) :
    |g m| ≤ |∑ x ∈ S, g x| := by
  have hsum : ∑ x ∈ S, g x ≤ 0 := Finset.sum_nonpos h
  rw [abs_of_nonpos (h m hm), abs_of_nonpos hsum, ← Finset.sum_neg_distrib]
  exact Finset.single_le_sum (fun x hx => neg_nonneg.mpr (h x hx)) hm

theorem abs_le_abs_sum_of_nonneg {S : Finset ℕ} {g : ℕ → ℚ}
    (h : ∀ x ∈ S, 0 ≤ g x) {m : ℕ} (hm : m ∈ S) :
    |g m| ≤ |∑ x ∈ S, g x| := by
  have hsum : 0 ≤ ∑ x ∈ S, g x := Finset.sum_nonneg h
  rw [abs_of_nonneg (h m hm), abs_of_nonneg hsum]
  exact Finset.single_le_sum h hm

theorem sort_filter_length (s : Finset ℕ) (p : ℕ → Prop) [DecidablePred p] :
    ((s.sort (· ≤ ·)).filter (fun m => decide (p m))).length = (s.filter p).card := by
  have h1 : (((s.sort (· ≤ ·)).filter (fun m => decide (p m)) : List ℕ) : Multiset ℕ)
      = Multiset.filter p ((s.sort (· ≤ ·) : List ℕ) : Multiset ℕ) := by
    rw [← Multiset.filter_coe]
  rw [← Multiset.coe_card, h1, Finset.sort_eq]
  rfl

/-- C1 (amended): on a nonempty ledger whose net balances sum to zero,
`optimized_payment_process` produces a settlement whose derived net balance
for every member matches the member's original net balance to within
`(number of members) * 1e-9` — not exactly, because residues of at most
`1e-9` are silently dropped when a heap entry is retired — and records at
most `(#debtors + #creditors - 1)` settlement entries. -/
theorem C1_optimizedPaymentProcess_amended (L : Ledger)
    (hne : L.members.Nonempty)
    (hbal : ∑ m ∈ L.members, netBalance L m = 0) :
    (∀ m ∈ L.members,
      |netBalance L m - entryNet (optimizedPaymentProcess L).opt m|
        ≤ (L.members.card : ℚ) * tol) ∧
    (optimizedPaymentProcess L).opt.length
      ≤ (L.members.filter (fun m => netBalance L m < -tol)).card
        + (L.members.filter (fun m => tol < netBalance L m)).card - 1 := by
  have hne' : ¬ L.members = ∅ := by
    intro h
    rw [h] at hne
    exact Finset.not_nonempty_empty hne
  set ms := L.members.sort (· ≤ ·) with hms
  set dl := (ms.filter (fun m => decide (netBalance L m < -tol))).map
      (fun m => (netBalance L m, m)) with hdl
  set cl := (ms.filter (fun m => decide (tol < netBalance L m))).map
      (fun m => (-netBalance L m, m)) with hcl
  have hopt : (optimizedPaymentProcess L).opt = (settleLoopF (dl.length + cl.length) dl cl).1 := by
    unfold optimizedPaymentProcess
    rw [if_neg hne']
  have hmem_ms : ∀ x, x ∈ ms ↔ x ∈ L.members := fun x => Finset.mem_sort _
  have hnodup_ms : ms.Nodup := Finset.sort_nodup _ _
  have hdlsnd : dl.map Prod.snd = ms.filter (fun m => decide (netBalance L m < -tol)) := by
    rw [hdl, List.map_map]
    have h : Prod.snd ∘ (fun m => ((netBalance L m : ℚ), m)) = id := rfl
    rw [h, List.map_id]
  have hclsnd : cl.map Prod.snd = ms.filter (fun m => decide (tol < netBalance L m)) := by
    rw [hcl, List.map_map]
    have h : Prod.snd ∘ (fun m => ((-netBalance L m : ℚ), m)) = id := rfl
    rw [h, List.map_id]
  have hmemD : ∀ m, m ∈ dl.map Prod.snd ↔ (m ∈ L.members ∧ netBalance L m < -tol) := by
    intro m
    rw [hdlsnd, List.mem_filter]
    simp [hmem_ms]
  have hmemC : ∀ m, m ∈ cl.map Prod.snd ↔ (m ∈ L.members ∧ tol < netBalance L m) := by
    intro m
    rw [hclsnd, List.mem_filter]
    simp [hmem_ms]
  have hnd : (dl.map Prod.snd ++ cl.map Prod.snd).Nodup := by
    rw [hdlsnd, hclsnd, List.nodup_append]
    refine ⟨hnodup_ms.filter _, hnodup_ms.filter _, ?_⟩
    intro a ha hb
    rw [List.mem_filter] at ha hb
    have h1 : netBalance L a < -tol := by simpa using ha.2
    have h2 : tol < netBalance L a := by simpa using hb.2
    have := tol_pos
    linarith
  have hstored_dl : ∀ m ∈ L.members, heapStored dl m
      = if netBalance L m < -tol then netBalance L m else 0 := by
    intro m hm
    rw [hdl, heapStored_map_tag _ _ (hnodup_ms.filter _) m]
    by_cases h : netBalance L m < -tol
    · rw [if_pos h, if_pos]
      rw [List.mem_filter]
      exact ⟨(hmem_ms m).mpr hm, by simp [h]⟩
    · rw [if_neg h, if_neg]
      rw [List.mem_filter]
      rintro ⟨-, hdec⟩
      exact h (by simpa using hdec)
  have hstored_cl : ∀ m ∈ L.members, heapStored cl m
      = if tol < netBalance L m then -netBalance L m else 0 := by
    intro m hm
    rw [hcl, heapStored_map_tag _ _ (hnodup_ms.filter _) m]
    by_cases h : tol < netBalance L m
    · rw [if_pos h, if_pos]
      rw [List.mem_filter]
      exact ⟨(hmem_ms m).mpr hm, by simp [h]⟩
    · rw [if_neg h, if_neg]
      rw [List.mem_filter]
      rintro ⟨-, hdec⟩
      exact h (by simpa using hdec)
  have hheap0 : ∀ m ∈ L.members, heapNet dl cl m
      = (if netBalance L m < -tol then netBalance L m else 0)
        + (if tol < netBalance L m then netBalance L m else 0) := by
    intro m hm
    rw [heapNet, hstored_dl m hm, hstored_cl m hm]
    by_cases h : tol < netBalance L m
    · rw [if_pos h, if_pos h]
      ring
    · rw [if_neg h, if_neg h]
      ring
  have hsum_entry : ∑ m ∈ L.members,
      entryNet (settleLoopF (dl.length + cl.length) dl cl).1 m = 0 := by
    apply entryNet_sum_zero
    intro e he
    have h := settleLoopF_sources _ _ _ e he
    exact ⟨((hmemD e.1).mp h.1).1, ((hmemC e.2.1).mp h.2).1⟩
  -- sign facts for the heaps
  have hdneg : ∀ p ∈ dl, p.1 < 0 := by
    intro p hp
    rw [hdl] at hp
    obtain ⟨m, hmf, rfl⟩ := List.mem_map.mp hp
    rw [List.mem_filter] at hmf
    have h1 : netBalance L m < -tol := by simpa using hmf.2
    have := tol_pos
    show netBalance L m < 0
    linarith
  have hcneg : ∀ p ∈ cl, p.1 < 0 := by
    intro p hp
    rw [hcl] at hp
    obtain ⟨m, hmf, rfl⟩ := List.mem_map.mp hp
    rw [List.mem_filter] at hmf
    have h1 : tol < netBalance L m := by simpa using hmf.2
    have := tol_pos
    show -netBalance L m < 0
    linarith
  -- the three cardinalities partition the member set
  have hcards : (L.members.filter (fun m => netBalance L m < -tol)).card
      + (L.members.filter (fun m => tol < netBalance L m)).card
      + (L.members.filter
          (fun m => ¬ netBalance L m < -tol ∧ ¬ tol < netBalance L m)).card
      = L.members.card := by
    have h1 := Finset.filter_card_add_filter_neg_card_eq_card
      (s := L.members) (p := fun m => netBalance L m < -tol)
    have h2 := Finset.filter_card_add_filter_neg_card_eq_card
      (s := L.members.filter (fun m => ¬ netBalance L m < -tol))
      (p := fun m => tol < netBalance L m)
    have e1 : (L.members.filter (fun m => ¬ netBalance L m < -tol)).filter
        (fun m => tol < netBalance L m) = L.members.filter (fun m => tol < netBalance L m) := by
      rw [Finset.filter_filter]
      apply Finset.filter_congr
      intro x _
      constructor
      · rintro ⟨-, h⟩
        exact h
      · intro h
        have := tol_pos
        exact ⟨by intro hc; linarith, h⟩
    have e2 : (L.members.filter (fun m => ¬ netBalance L m < -tol)).filter
        (fun m => ¬ tol < netBalance L m)
        = L.members.filter (fun m => ¬ netBalance L m < -tol ∧ ¬ tol < netBalance L m) := by
      rw [Finset.filter_filter]
    rw [e1, e2] at h2
    omega
  -- the balance argument: total leftover in the final heaps is small
  have hsum_split : ∑ m ∈ L.members, heapNet dl cl m
      = - ∑ m ∈ L.members.filter
          (fun m => ¬ netBalance L m < -tol ∧ ¬ tol < netBalance L m), netBalance L m := by
    have h0 : ∑ m ∈ L.members, heapNet dl cl m
        = (∑ m ∈ L.members, (if netBalance L m < -tol then netBalance L m else 0))
          + ∑ m ∈ L.members, (if tol < netBalance L m then netBalance L m else 0) := by
      rw [← Finset.sum_add_distrib]
      exact Finset.sum_congr rfl hheap0
    rw [h0, ← Finset.sum_filter, ← Finset.sum_filter]
    have hsplit1 := Finset.sum_filter_add_sum_filter_not L.members
      (fun m => netBalance L m < -tol) (netBalance L)
    have hsplit2 := Finset.sum_filter_add_sum_filter_not
      (L.members.filter (fun m => ¬ netBalance L m < -tol))
      (fun m => tol < netBalance L m) (netBalance L)
    have e1 : (L.members.filter (fun m => ¬ netBalance L m < -tol)).filter
        (fun m => tol < netBalance L m) = L.members.filter (fun m => tol < netBalance L m) := by
      rw [Finset.filter_filter]
      apply Finset.filter_congr
      intro x _
      constructor
      · rintro ⟨-, h⟩
        exact h
      · intro h
        have := tol_pos
        exact ⟨by intro hc; linarith, h⟩
    have e2 : (L.members.filter (fun m => ¬ netBalance L m < -tol)).filter
        (fun m => ¬ tol < netBalance L m)
        = L.members.filter (fun m => ¬ netBalance L m < -tol ∧ ¬ tol < netBalance L m) := by
      rw [Finset.filter_filter]
    rw [e1, e2] at hsplit2
    rw [hbal] at hsplit1
    linarith [hsplit1, hsplit2]
  have hexcl_bound : |∑ m ∈ L.members.filter
      (fun m => ¬ netBalance L m < -tol ∧ ¬ tol < netBalance L m), netBalance L m|
      ≤ ((L.members.filter
          (fun m => ¬ netBalance L m < -tol ∧ ¬ tol < netBalance L m)).card : ℚ) * tol := by
    calc |∑ m ∈ _, netBalance L m| ≤ ∑ m ∈ L.members.filter
          (fun m => ¬ netBalance L m < -tol ∧ ¬ tol < netBalance L m), |netBalance L m| :=
        Finset.abs_sum_le_sum_abs _ _
      _ ≤ ∑ _m ∈ L.members.filter
          (fun m => ¬ netBalance L m < -tol ∧ ¬ tol < netBalance L m), tol := by
        apply Finset.sum_le_sum
        intro i hi
        rw [Finset.mem_filter] at hi
        rw [abs_le]
        constructor
        · linarith [hi.2.1]
        · linarith [hi.2.2]
      _ = _ := by
        rw [Finset.sum_const, nsmul_eq_mul]
  have heps_small : ∀ m,
      |heapNet dl cl m - entryNet (settleLoopF (dl.length + cl.length) dl cl).1 m
        - heapNet (settleLoopF (dl.length + cl.length) dl cl).2.1
            (settleLoopF (dl.length + cl.length) dl cl).2.2 m| ≤ tol :=
    fun m => (settleLoopF_accounting _ _ _ hnd m).1
  have heps_zero_out : ∀ m, m ∉ dl.map Prod.snd → m ∉ cl.map Prod.snd →
      entryNet (settleLoopF (dl.length + cl.length) dl cl).1 m = 0 ∧
      heapNet (settleLoopF (dl.length + cl.length) dl cl).2.1
        (settleLoopF (dl.length + cl.length) dl cl).2.2 m = 0 :=
    fun m h1 h2 => (settleLoopF_accounting _ _ _ hnd m).2.2 ⟨h1, h2⟩
  have hsum_eps : |∑ m ∈ L.members,
      (heapNet dl cl m - entryNet (settleLoopF (dl.length + cl.length) dl cl).1 m
        - heapNet (settleLoopF (dl.length + cl.length) dl cl).2.1
            (settleLoopF (dl.length + cl.length) dl cl).2.2 m)|
      ≤ (((L.members.filter (fun m => netBalance L m < -tol)).card
          + (L.members.filter (fun m => tol < netBalance L m)).card : ℕ) : ℚ) * tol := by
    calc |∑ m ∈ L.members, _| ≤ ∑ m ∈ L.members,
          |heapNet dl cl m - entryNet (settleLoopF (dl.length + cl.length) dl cl).1 m
            - heapNet (settleLoopF (dl.length + cl.length) dl cl).2.1
                (settleLoopF (dl.length + cl.length) dl cl).2.2 m| :=
        Finset.abs_sum_le_sum_abs _ _
      _ ≤ ∑ m ∈ L.members,
          (if netBalance L m < -tol ∨ tol < netBalance L m then tol else 0) := by
        apply Finset.sum_le_sum
        intro i hi
        by_cases h : netBalance L i < -tol ∨ tol < netBalance L i
        · rw [if_pos h]
          exact heps_small i
        · rw [if_neg h]
          push_neg at h
          have hd1 : i ∉ dl.map Prod.snd := by
            rw [hmemD]
            rintro ⟨-, hc⟩
            exact absurd hc (by linarith [h.1])
          have hc1 : i ∉ cl.map Prod.snd := by
            rw [hmemC]
            rintro ⟨-, hc⟩
            exact absurd hc (by linarith [h.2])
          obtain ⟨hz1, hz2⟩ := heps_zero_out i hd1 hc1
          have hz0 : heapNet dl cl i = 0 := by
            rw [hheap0 i hi, if_neg (by linarith [h.1]), if_neg (by linarith [h.2])]
            ring
          rw [hz0, hz1, hz2]
          simp
      _ = ((L.members.filter
            (fun m => netBalance L m < -tol ∨ tol < netBalance L m)).card : ℚ) * tol := by
        rw [← Finset.sum_filter, Finset.sum_const, nsmul_eq_mul]
      _ ≤ _ := by
        have hle : (L.members.filter
            (fun m => netBalance L m < -tol ∨ tol < netBalance L m)).card
            ≤ (L.members.filter (fun m => netBalance L m < -tol)).card
              + (L.members.filter (fun m => tol < netBalance L m)).card := by
          rw [Finset.filter_or]
          exact Finset.card_union_le _ _
        have htolnn : (0 : ℚ) ≤ tol := le_of_lt tol_pos
        have hcast : ((L.members.filter
            (fun m => netBalance L m < -tol ∨ tol < netBalance L m)).card : ℚ)
            ≤ (((L.members.filter (fun m => netBalance L m < -tol)).card
              + (L.members.filter (fun m => tol < netBalance L m)).card : ℕ) : ℚ) := by
          exact_mod_cast hle
        exact mul_le_mul_of_nonneg_right hcast htolnn
  have hsum_final_eq : ∑ m ∈ L.members,
      heapNet (settleLoopF (dl.length + cl.length) dl cl).2.1
        (settleLoopF (dl.length + cl.length) dl cl).2.2 m
      = ∑ m ∈ L.members, heapNet dl cl m
        - ∑ m ∈ L.members, entryNet (settleLoopF (dl.length + cl.length) dl cl).1 m
        - ∑ m ∈ L.members,
            (heapNet dl cl m - entryNet (settleLoopF (dl.length + cl.length) dl cl).1 m
              - heapNet (settleLoopF (dl.length + cl.length) dl cl).2.1
                  (settleLoopF (dl.length + cl.length) dl cl).2.2 m) := by
    rw [← Finset.sum_sub_distrib, ← Finset.sum_sub_distrib]
    apply Finset.sum_congr rfl
    intro m _
    ring
  have htotal : |∑ m ∈ L.members,
      heapNet (settleLoopF (dl.length + cl.length) dl cl).2.1
        (settleLoopF (dl.length + cl.length) dl cl).2.2 m|
      ≤ (L.members.card : ℚ) * tol := by
    rw [hsum_final_eq, hsum_entry, hsum_split]
    have h1 := hexcl_bound
    have h2 := hsum_eps
    have hc : ((L.members.filter
        (fun m => ¬ netBalance L m < -tol ∧ ¬ tol < netBalance L m)).card : ℚ)
        + (((L.members.filter (fun m => netBalance L m < -tol)).card
          + (L.members.filter (fun m => tol < netBalance L m)).card : ℕ) : ℚ)
        = (L.members.card : ℚ) := by
      have h3 : (((L.members.filter (fun m => netBalance L m < -tol)).card
          + (L.members.filter (fun m => tol < netBalance L m)).card
          + (L.members.filter
              (fun m => ¬ netBalance L m < -tol ∧ ¬ tol < netBalance L m)).card : ℕ) : ℚ)
          = (L.members.card : ℚ) := by exact_mod_cast hcards
      push_cast at h3 ⊢
      linarith
    calc |(- ∑ m ∈ L.members.filter
          (fun m => ¬ netBalance L m < -tol ∧ ¬ tol < netBalance L m), netBalance L m) - 0
          - ∑ m ∈ L.members,
              (heapNet dl cl m - entryNet (settleLoopF (dl.length + cl.length) dl cl).1 m
                - heapNet (settleLoopF (dl.length + cl.length) dl cl).2.1
                    (settleLoopF (dl.length + cl.length) dl cl).2.2 m)|
        ≤ |∑ m ∈ L.members.filter
            (fun m => ¬ netBalance L m < -tol ∧ ¬ tol < netBalance L m), netBalance L m|
          + |∑ m ∈ L.members,
              (heapNet dl cl m - entryNet (settleLoopF (dl.length + cl.length) dl cl).1 m
                - heapNet (settleLoopF (dl.length + cl.length) dl cl).2.1
                    (settleLoopF (dl.length + cl.length) dl cl).2.2 m)| := by
          rw [sub_zero]
          calc |(- ∑ m ∈ L.members.filter
              (fun m => ¬ netBalance L m < -tol ∧ ¬ tol < netBalance L m), netBalance L m)
              - ∑ m ∈ L.members,
                  (heapNet dl cl m - entryNet (settleLoopF (dl.length + cl.length) dl cl).1 m
                    - heapNet (settleLoopF (dl.length + cl.length) dl cl).2.1
                        (settleLoopF (dl.length + cl.length) dl cl).2.2 m)|
              ≤ |(- ∑ m ∈ L.members.filter
                  (fun m => ¬ netBalance L m < -tol ∧ ¬ tol < netBalance L m), netBalance L m)|
                + |∑ m ∈ L.members,
                    (heapNet dl cl m
                      - entryNet (settleLoopF (dl.length + cl.length) dl cl).1 m
                      - heapNet (settleLoopF (dl.length + cl.length) dl cl).2.1
                          (settleLoopF (dl.length + cl.length) dl cl).2.2 m)| :=
                abs_sub _ _
            _ = _ := by rw [abs_neg]
        _ ≤ ((L.members.filter
              (fun m => ¬ netBalance L m < -tol ∧ ¬ tol < netBalance L m)).card : ℚ) * tol
            + (((L.members.filter (fun m => netBalance L m < -tol)).card
              + (L.members.filter (fun m => tol < netBalance L m)).card : ℕ) : ℚ) * tol := by
          exact add_le_add h1 h2
        _ = (L.members.card : ℚ) * tol := by
          rw [← add_mul, hc]
  have hN1 : (1 : ℚ) ≤ (L.members.card : ℚ) := by
    have := Finset.card_pos.mpr hne
    exact_mod_cast this
  have hfin_bound : ∀ m ∈ L.members,
      |heapNet (settleLoopF (dl.length + cl.length) dl cl).2.1
        (settleLoopF (dl.length + cl.length) dl cl).2.2 m| ≤ (L.members.card : ℚ) * tol := by
    intro m hm
    have hends := settleLoopF_ends (dl.length + cl.length) dl cl (le_refl _)
    have hsigns := settleLoopF_signs (dl.length + cl.length) dl cl hdneg hcneg
    rcases hends with hDnil | hCnil
    · have hnn : ∀ x ∈ L.members,
          0 ≤ heapNet (settleLoopF (dl.length + cl.length) dl cl).2.1
            (settleLoopF (dl.length + cl.length) dl cl).2.2 x := by
        intro x _
        rw [heapNet, hDnil, heapStored_nil]
        have := heapStored_nonpos (l := (settleLoopF (dl.length + cl.length) dl cl).2.2) x hsigns.2
        linarith
      exact le_trans (abs_le_abs_sum_of_nonneg hnn hm) htotal
    · have hnp : ∀ x ∈ L.members,
          heapNet (settleLoopF (dl.length + cl.length) dl cl).2.1
            (settleLoopF (dl.length + cl.length) dl cl).2.2 x ≤ 0 := by
        intro x _
        rw [heapNet, hCnil, heapStored_nil]
        have := heapStored_nonpos (l := (settleLoopF (dl.length + cl.length) dl cl).2.1) x hsigns.1
        linarith
      exact le_trans (abs_le_abs_sum_of_nonpos hnp hm) htotal
  constructor
  · intro m hm
    rw [hopt]
    by_cases hheaped : netBalance L m < -tol ∨ tol < netBalance L m
    · have hnetheap : heapNet dl cl m = netBalance L m := by
        rw [hheap0 m hm]
        rcases hheaped with h | h
        · rw [if_pos h, if_neg (by have := tol_pos; linarith)]
          ring
        · rw [if_neg (by have := tol_pos; linarith), if_pos h]
          ring
      by_cases hmem : m ∈ (settleLoopF (dl.length + cl.length) dl cl).2.1.map Prod.snd ∨
          m ∈ (settleLoopF (dl.length + cl.length) dl cl).2.2.map Prod.snd
      · have hz := (settleLoopF_accounting _ _ _ hnd m).2.1 hmem
        rw [hnetheap] at hz
        have : netBalance L m
            - entryNet (settleLoopF (dl.length + cl.length) dl cl).1 m
            = heapNet (settleLoopF (dl.length + cl.length) dl cl).2.1
                (settleLoopF (dl.length + cl.length) dl cl).2.2 m := by
          linarith
        rw [this]
        exact hfin_bound m hm
      · push_neg at hmem
        have hz : heapNet (settleLoopF (dl.length + cl.length) dl cl).2.1
            (settleLoopF (dl.length + cl.length) dl cl).2.2 m = 0 := by
          rw [heapNet, heapStored_eq_zero hmem.1, heapStored_eq_zero hmem.2]
          ring
        have h1 := heps_small m
        rw [hnetheap, hz, sub_zero] at h1
        calc |netBalance L m - entryNet (settleLoopF (dl.length + cl.length) dl cl).1 m|
            ≤ tol := h1
          _ ≤ (L.members.card : ℚ) * tol :=
            le_mul_of_one_le_left (le_of_lt tol_pos) hN1
    · push_neg at hheaped
      have hd1 : m ∉ dl.map Prod.snd := by
        rw [hmemD]
        rintro ⟨-, hc⟩
        exact absurd hc (by linarith [hheaped.1])
      have hc1 : m ∉ cl.map Prod.snd := by
        rw [hmemC]
        rintro ⟨-, hc⟩
        exact absurd hc (by linarith [hheaped.2])
      obtain ⟨hz1, -⟩ := heps_zero_out m hd1 hc1
      rw [hz1, sub_zero]
      have habs : |netBalance L m| ≤ tol := by
        rw [abs_le]
        exact ⟨by linarith [hheaped.1], by linarith [hheaped.2]⟩
      exact le_trans habs (le_mul_of_one_le_left (le_of_lt tol_pos) hN1)
  · rw [hopt]
    have hcount := settleLoopF_count (dl.length + cl.length) dl cl
    have hld : dl.length = (L.members.filter (fun m => netBalance L m < -tol)).card := by
      rw [hdl, List.length_map]
      exact sort_filter_length L.members (fun m => netBalance L m < -tol)
    have hlc : cl.length = (L.members.filter (fun m => tol < netBalance L m)).card := by
      rw [hcl, List.length_map]
      exact sort_filter_length L.members (fun m => tol < netBalance L m)
    omega

/-- A balanced three-member ledger with one sub-tolerance net balance:
`update(0, 1, 1)` then `update(1, 2, 5e-10)`. -/
def ledgerTri : Ledger := update (update freshLedger 0 1 1) 1 2 (1 / 2000000000)

theorem ledgerTri_members : ledgerTri.members = {0, 1, 2} := by decide

theorem ledgerTri_net0 : netBalance ledgerTri 0 = -1 := by
  rw [netBalance, ledgerTri_members]
  norm_num [ledgerTri, update, freshLedger, Finset.sum_insert, Finset.mem_insert,
    Finset.mem_singleton, Finset.sum_singleton]

theorem ledgerTri_net1 : netBalance ledgerTri 1 = 1 - 1 / 2000000000 := by
  rw [netBalance, ledgerTri_members]
  norm_num [ledgerTri, update, freshLedger, Finset.sum_insert, Finset.mem_insert,
    Finset.mem_singleton, Finset.sum_singleton]

theorem ledgerTri_net2 : netBalance ledgerTri 2 = 1 / 2000000000 := by
  rw [netBalance, ledgerTri_members]
  norm_num [ledgerTri, update, freshLedger, Finset.sum_insert, Finset.mem_insert,
    Finset.mem_singleton, Finset.sum_singleton]

theorem ledgerTri_opt :
    (optimizedPaymentProcess ledgerTri).opt = [(0, 1, 1 - 1 / 2000000000)] := by
  have hsort : ledgerTri.members.sort (· ≤ ·) = [0, 1, 2] := by
    rw [ledgerTri_members]
    have h2 : Finset.sort (· ≤ ·) ({2} : Finset ℕ) = [2] := Finset.sort_singleton _ _
    have h1 : Finset.sort (· ≤ ·) (insert 1 {2} : Finset ℕ) = 1 :: [2] := by
      rw [Finset.sort_insert (· ≤ ·) (by decide) (by decide), h2]
    show Finset.sort (· ≤ ·) (insert 0 (insert 1 {2}) : Finset ℕ) = [0, 1, 2]
    rw [Finset.sort_insert (· ≤ ·) (by decide) (by decide), h1]
  have hne' : ¬ ledgerTri.members = ∅ := by decide
  have hf : ([0, 1, 2].filter (fun m => decide (netBalance ledgerTri m < -tol))) = [0] := by
    simp only [List.filter, ledgerTri_net0, ledgerTri_net1, ledgerTri_net2]
    norm_num [tol]
  have hg : ([0, 1, 2].filter (fun m => decide (tol < netBalance ledgerTri m))) = [1] := by
    simp only [List.filter, ledgerTri_net0, ledgerTri_net1, ledgerTri_net2]
    norm_num [tol]
  unfold optimizedPaymentProcess
  rw [if_neg hne']
  simp only [hsort, hf, hg, List.map_cons, List.map_nil, ledgerTri_net0, ledgerTri_net1,
    List.length_cons, List.length_nil]
  have hpop1 : popMin [((-1 : ℚ), (0 : ℕ))] = ((-1, 0), []) := rfl
  have hpop2 : popMin [((-(1 - 1 / 2000000000) : ℚ), (1 : ℕ))]
      = ((-(1 - 1 / 2000000000), 1), []) := rfl
  show (settleLoopF (0 + 1 + (0 + 1)) [(-1, 0)] [(-(1 - 1 / 2000000000), 1)]).1 = _
  norm_num [settleLoopF, hpop1, tol, min_def]
  have hpop2' : popMin [((-(1999999999 / 2000000000) : ℚ), (1 : ℕ))]
      = ((-(1999999999 / 2000000000), 1), []) := rfl
  simp only [hpop2']
  norm_num [settleLoopF]

/-- C1 counterexample to the claim as stated: `ledgerTri` is balanced, yet
after `optimized_payment_process` the net balance of member 0 derived from
the optimized graph is `-(1 - 5e-10)`, not its original net `-1`: the
debtor's sub-tolerance residue of `5e-10` was silently dropped. -/
theorem C1_exact_match_counterexample :
    (∑ m ∈ ledgerTri.members, netBalance ledgerTri m = 0) ∧
    entryNet (optimizedPaymentProcess ledgerTri).opt 0 ≠ netBalance ledgerTri 0 := by
  constructor
  · exact sum_netBalance_eq_zero ledgerTri
  · rw [ledgerTri_opt, ledgerTri_net0]
    simp only [entryNet]
    norm_num

/-- The spec's own worked example: `update("A","B",100); update("B","A",30)`. -/
def ledgerW : Ledger := update (update freshLedger 0 1 100) 1 0 30

theorem C1_optimizedPaymentProcess_amended_witness :
    ledgerW.members.Nonempty ∧
    (∑ m ∈ ledgerW.members, netBalance ledgerW m = 0) ∧
    ((∀ m ∈ ledgerW.members,
      |netBalance ledgerW m - entryNet (optimizedPaymentProcess ledgerW).opt m|
        ≤ (ledgerW.members.card : ℚ) * tol) ∧
    (optimizedPaymentProcess ledgerW).opt.length
      ≤ (ledgerW.members.filter (fun m => netBalance ledgerW m < -tol)).card
        + (ledgerW.members.filter (fun m => tol < netBalance ledgerW m)).card - 1) := by
  have hne : ledgerW.members.Nonempty := ⟨0, by decide⟩
  have hbal : ∑ m ∈ ledgerW.members, netBalance ledgerW m = 0 :=
    sum_netBalance_eq_zero ledgerW
  exact ⟨hne, hbal, C1_optimizedPaymentProcess_amended ledgerW hne hbal⟩

end Cost

namespace InfoHub

/-- One document: the `Information` dataclass of `info_hub.py`. -/
structure Information where
  title : String
  content : String
  id : ℕ
  deleted : Bool
deriving DecidableEq

/-- A posting: `(doc_id, token position)`. -/
abbrev Posting := ℕ × ℕ

/-- Python tuple `<=` on postings: by doc id, then position. -/
def ple (a b : Posting) : Prop := a.1 < b.1 ∨ (a.1 = b.1 ∧ a.2 ≤ b.2)

/-- Python tuple `<` on postings. -/
def plt (a b : Posting) : Prop := a.1 < b.1 ∨ (a.1 = b.1 ∧ a.2 < b.2)

instance (a b : Posting) : Decidable (ple a b) := by unfold ple; infer_instance

instance (a b : Posting) : Decidable (plt a b) := by unfold plt; infer_instance

theorem ple_refl (a : Posting) : ple a a := Or.inr ⟨rfl, le_refl _⟩

theorem ple_trans {a b c : Posting} (h1 : ple a b) (h2 : ple b c) : ple a c := by
  rcases h1 with h1 | ⟨h1, h1'⟩ <;> rcases h2 with h2 | ⟨h2, h2'⟩
  · exact Or.inl (lt_trans h1 h2)
  · exact Or.inl (h2 ▸ h1)
  · exact Or.inl (h1 ▸ h2)
  · exact Or.inr ⟨h1.trans h2, le_trans h1' h2'⟩

theorem ple_antisymm {a b : Posting} (h1 : ple a b) (h2 : ple b a) : a = b := by
  rcases h1 with h1 | ⟨h1, h1'⟩ <;> rcases h2 with h2 | ⟨h2, h2'⟩
  · omega
  · omega
  · omega
  · have : a.2 = b.2 := le_antisymm h1' h2'
    exact Prod.ext h1 this

theorem ple_total (a b : Posting) : ple a b ∨ ple b a := by
  unfold ple
  omega

theorem not_plt_iff {a b : Posting} : ¬ plt a b ↔ ple b a := by
  unfold plt ple
  omega

/-- `bisect.insort(entries, x)` (right-biased: passes over entries `≤ x`,
inserting before the first entry strictly greater). -/
def insortP (x : Posting) : List Posting → List Posting
  | [] => [x]
  | y :: ys => if plt x y then x :: y :: ys else y :: insortP x ys

theorem insortP_perm (x : Posting) : ∀ l : List Posting, (insortP x l).Perm (x :: l)
  | [] => List.Perm.refl _
  | y :: ys => by
    unfold insortP
    by_cases h : plt x y
    · rw [if_pos h]
    · rw [if_neg h]
      exact (List.Perm.cons y (insortP_perm x ys)).trans (List.Perm.swap x y ys)

theorem insortP_sorted (x : Posting) :
    ∀ l : List Posting, l.Pairwise ple → (insortP x l).Pairwise ple := by
  intro l
  induction l with
  | nil => intro _; exact List.pairwise_singleton _ _
  | cons y ys ih =>
    intro hs
    obtain ⟨hy, hys⟩ := List.pairwise_cons.mp hs
    have hxy_ple : plt x y → ple x y := by
      unfold plt ple
      omega
    unfold insortP
    by_cases h : plt x y
    · rw [if_pos h]
      refine List.pairwise_cons.mpr ⟨?_, hs⟩
      intro b hb
      rcases List.mem_cons.mp hb with rfl | hb'
      · exact hxy_ple h
      · exact ple_trans (hxy_ple h) (hy b hb')
    · rw [if_neg h]
      refine List.pairwise_cons.mpr ⟨?_, ih hys⟩
      intro b hb
      have hb' := (insortP_perm x ys).mem_iff.mp hb
      rcases List.mem_cons.mp hb' with rfl | hb''
      · exact not_plt_iff.mp h
      · exact hy b hb''

instance : IsAntisymm Posting ple := ⟨fun _ _ => ple_antisymm⟩

/-- The binary-search range deletion used by `delete_document` and
`update_document`: `left = bisect_left(entries, (doc_id, 0))`,
`right = bisect_right(entries, (doc_id, float('inf')))`, then delete the
indices `[left, right)`.  On a sorted list the prefix before `left` is
exactly the leading entries with smaller doc id, and the suffix from
`right` the trailing entries with larger doc id. -/
def removeDoc (i : ℕ) (l : List Posting) : List Posting :=
  l.takeWhile (fun p => decide (p.1 < i)) ++ l.dropWhile (fun p => decide (p.1 ≤ i))

/-- Entries of a posting list belonging to one document. -/
def postingsOf (i : ℕ) (l : List Posting) : List Posting :=
  l.filter (fun p => decide (p.1 = i))

theorem filter_ne_eq_self {i : ℕ} {l : List Posting} (h : ∀ p ∈ l, i < p.1) :
    l.filter (fun p => decide (¬ p.1 = i)) = l := by
  apply List.filter_eq_self.mpr
  intro a ha
  simp only [decide_eq_true_eq]
  intro hc
  exact absurd (hc ▸ h a ha) (lt_irrefl i)

theorem dropWhile_eq_filter_of_ge {i : ℕ} :
    ∀ l : List Posting, l.Pairwise ple → (∀ p ∈ l, i ≤ p.1) →
      l.dropWhile (fun p => decide (p.1 ≤ i)) = l.filter (fun p => decide (¬ p.1 = i)) := by
  intro l
  induction l with
  | nil => intro _ _; rfl
  | cons q l ih =>
    intro hs hge
    obtain ⟨hq, hl⟩ := List.pairwise_cons.mp hs
    have hqge : i ≤ q.1 := hge q (List.mem_cons_self q l)
    rcases lt_or_eq_of_le hqge with hlt | heq
    · have hd : (decide (q.1 ≤ i)) = false := by
        simp only [decide_eq_false_iff_not, not_le]
        exact hlt
      have hf : (decide (¬ q.1 = i)) = true := by
        simp only [decide_eq_true_eq]
        omega
      rw [List.dropWhile_cons, hd, List.filter_cons, hf]
      simp only [Bool.false_eq_true, if_false, if_true]
      rw [filter_ne_eq_self]
      intro p hp
      have := hq p hp
      unfold ple at this
      omega
    · have hd : (decide (q.1 ≤ i)) = true := by
        simp only [decide_eq_true_eq]
        omega
      have hf : (decide (¬ q.1 = i)) = false := by
        simp only [decide_eq_false_iff_not, not_not]
        omega
      rw [List.dropWhile_cons, hd, List.filter_cons, hf]
      simp only [if_true, Bool.false_eq_true, if_false]
      apply ih hl
      intro p hp
      have := hq p hp
      unfold ple at this
      omega

theorem removeDoc_eq_filter {i : ℕ} :
    ∀ l : List Posting, l.Pairwise ple →
      removeDoc i l = l.filter (fun p => decide (¬ p.1 = i)) := by
  intro l
  induction l with
  | nil => intro _; rfl
  | cons q l ih =>
    intro hs
    obtain ⟨hq, hl⟩ := List.pairwise_cons.mp hs
    unfold removeDoc
    by_cases hlt : q.1 < i
    · have ht : (decide (q.1 < i)) = true := by simpa using hlt
      have hd : (decide (q.1 ≤ i)) = true := by
        simp only [decide_eq_true_eq]
        omega
      have hf : (decide (¬ q.1 = i)) = true := by
        simp only [decide_eq_true_eq]
        omega
      rw [List.takeWhile_cons, ht, List.dropWhile_cons, hd, List.filter_cons, hf]
      simp only [if_true]
      rw [List.cons_append]
      congr 1
      exact ih hl
    · have ht : (decide (q.1 < i)) = false := by simpa using hlt
      rw [List.takeWhile_cons, ht]
      simp only [Bool.false_eq_true, if_false, List.nil_append]
      exact dropWhile_eq_filter_of_ge (q :: l) hs
        (fun p hp => by
          rcases List.mem_cons.mp hp with rfl | hp'
          · omega
          · have := hq p hp'
            unfold ple at this
            omega)

theorem removeDoc_sorted {i : ℕ} {l : List Posting} (hs : l.Pairwise ple) :
    (removeDoc i l).Pairwise ple := by
  rw [removeDoc_eq_filter l hs]
  exact List.Pairwise.sublist (List.filter_sublist l) hs

theorem postingsOf_removeDoc_self {i : ℕ} {l : List Posting} (hs : l.Pairwise ple) :
    postingsOf i (removeDoc i l) = [] := by
  rw [removeDoc_eq_filter l hs]
  unfold postingsOf
  rw [List.filter_filter]
  apply List.filter_eq_nil_iff.mpr
  intro p _
  simp

theorem postingsOf_removeDoc_other {i j : ℕ} {l : List Posting} (hs : l.Pairwise ple)
    (hij : j ≠ i) : postingsOf j (removeDoc i l) = postingsOf j l := by
  rw [removeDoc_eq_filter l hs]
  unfold postingsOf
  rw [List.filter_filter]
  apply List.filter_congr
  intro p _
  by_cases h : p.1 = j
  · simp [h, hij]
  · simp [h]

/-- `\w` for the ASCII fragment: alphanumeric or underscore. -/
def isWordChar (c : Char) : Bool := c.isAlphanum || c = '_'

/-- Accumulator-based splitter: maximal runs of word characters. -/
def tokAux : List Char → List Char → List String
  | [], cur => if cur.isEmpty then [] else [String.mk cur.reverse]
  | c :: cs, cur =>
    if isWordChar c then tokAux cs (c :: cur)
    else if cur.isEmpty then tokAux cs []
    else String.mk cur.reverse :: tokAux cs []

/-- `_tokenize`: models `re.findall(r'\b\w+\b', text.lower())` on the ASCII
fragment — lowercase, then split into maximal runs of `\w` characters. -/
def tokenize (s : String) : List String := tokAux (s.toList.map Char.toLower) []

/-- Positions (starting from `pos`) at which token `t` occurs in a word
list: the `enumerate` view of the indexing loops. -/
def positionsFrom (t : String) : ℕ → List String → List ℕ
  | _, [] => []
  | pos, w :: ws =>
    if w = t then pos :: positionsFrom t (pos + 1) ws
    else positionsFrom t (pos + 1) ws

/-- The indexing loop
`for pos, word in enumerate(words): bisect.insort(index[word], (doc_id, pos))`. -/
def indexTokens (docId : ℕ) : ℕ → List String → (String → List Posting) →
    String → List Posting
  | _, [], idx => idx
  | pos, w :: ws, idx =>
    indexTokens docId (pos + 1) ws
      (fun t => if t = w then insortP (docId, pos) (idx w) else idx t)

/-- State of one `InformationHub`.  `deleted_ids` is a Python set used only
through `pop` (arbitrary element) and `add`; it is modelled as a
duplicate-free list popped from the front.  The inverted indexes are
defaultdicts whose entries are deleted when they become empty, so a key is
present iff its list is nonempty; they are modelled extensionally as total
functions into lists. -/
@[ext]
structure Hub where
  documents : List (Option Information)
  next_id : ℕ
  group_prefix : ℕ
  deleted_ids : List ℕ
  title_index : String → List Posting
  content_index : String → List Posting
  doc_title_words : ℕ → Finset String
  doc_content_words : ℕ → Finset String

/-- A freshly constructed `InformationHub`; `group_prefix` is
`abs(hash(group_id)) % 1000`, with the (salted, opaque) Python hash taken
as a parameter. -/
def freshHub (hashVal : ℕ) : Hub :=
  { documents := []
    next_id := 1
    group_prefix := hashVal % 1000
    deleted_ids := []
    title_index := fun _ => []
    content_index := fun _ => []
    doc_title_words := fun _ => ∅
    doc_content_words := fun _ => ∅ }

/-- `_allocate_id`: prefer the reuse pool; otherwise mint
`group_prefix * 1000 + next_id`.  NOTE: the code increments `next_id`
before the overflow check, so a failed allocation still mutates the
counter. -/
def allocateId (h : Hub) : Except Unit ℕ × Hub :=
  match h.deleted_ids with
  | i :: rest => (Except.ok i, { h with deleted_ids := rest })
  | [] =>
    let idVal := h.next_id
    let h' := { h with next_id := h.next_id + 1 }
    if idVal > 999 then (Except.error (), h')
    else (Except.ok (h.group_prefix * 1000 + idVal), h')

/-- `while len(self.documents) < doc_id: self.documents.append(None)`. -/
def padTo (l : List (Option Information)) (n : ℕ) : List (Option Information) :=
  l ++ List.replicate (n - l.length) none

/-- `add_document(title, content)`. -/
def addDocument (h : Hub) (t c : String) : Except Unit ℕ × Hub :=
  match allocateId h with
  | (Except.error e, h') => (Except.error e, h')
  | (Except.ok docId, h') =>
    let tw := tokenize t
    let cw := tokenize c
    (Except.ok docId,
     { h' with
       documents := (padTo h'.documents docId).set (docId - 1) (some ⟨t, c, docId, false⟩)
       title_index := indexTokens docId 0 tw h'.title_index
       content_index := indexTokens docId 0 cw h'.content_index
       doc_title_words := fun j =>
         if j = docId then h'.doc_title_words docId ∪ tw.toFinset else h'.doc_title_words j
       doc_content_words := fun j =>
         if j = docId then h'.doc_content_words docId ∪ cw.toFinset
         else h'.doc_content_words j })

/-- `get_document(doc_id)`. -/
def getDocument (h : Hub) (docId : ℕ) : Option Information :=
  if docId < 1 ∨ h.documents.length < docId then none
  else
    match h.documents.getD (docId - 1) none with
    | none => none
    | some d => if d.deleted then none else some d

/-- `delete_document(doc_id)`: tombstone the document, remove its postings
from both indexes (a contiguous range per token, via binary search), clear
its word sets and release the id to the reuse pool. -/
def deleteDocument (h : Hub) (docId : ℕ) : Bool × Hub :=
  if docId < 1 ∨ h.documents.length < docId then (false, h)
  else
    match h.documents.getD (docId - 1) none with
    | none => (false, h)
    | some d =>
      if d.deleted then (false, h)
      else
        (true,
         { h with
           documents := h.documents.set (docId - 1) (some { d with deleted := true })
           title_index := fun w =>
             if w ∈ h.doc_title_words docId then removeDoc docId (h.title_index w)
             else h.title_index w
           content_index := fun w =>
             if w ∈ h.doc_content_words docId then removeDoc docId (h.content_index w)
             else h.content_index w
           doc_title_words := fun j => if j = docId then ∅ else h.doc_title_words j
           doc_content_words := fun j => if j = docId then ∅ else h.doc_content_words j
           deleted_ids := h.deleted_ids ++ [docId] })

/-- `update_document(doc_id, title=None, content=None)`: same failure
conditions as delete; on success remove all old postings, apply the
provided field updates, and re-index. -/
def updateDocument (h : Hub) (docId : ℕ) (tOpt cOpt : Option String) : Bool × Hub :=
  if docId < 1 ∨ h.documents.length < docId then (false, h)
  else
    match h.documents.getD (docId - 1) none with
    | none => (false, h)
    | some d =>
      if d.deleted then (false, h)
      else
        let d' : Information :=
          { d with title := tOpt.getD d.title, content := cOpt.getD d.content }
        let tw := tokenize d'.title
        let cw := tokenize d'.content
        (true,
         { h with
           documents := h.documents.set (docId - 1) (some d')
           title_index := indexTokens docId 0 tw (fun w =>
             if w ∈ h.doc_title_words docId then removeDoc docId (h.title_index w)
             else h.title_index w)
           content_index := indexTokens docId 0 cw (fun w =>
             if w ∈ h.doc_content_words docId then removeDoc docId (h.content_index w)
             else h.content_index w)
           doc_title_words := fun j => if j = docId then tw.toFinset else h.doc_title_words j
           doc_content_words := fun j =>
             if j = docId then cw.toFinset else h.doc_content_words j })

/-- `_filter_deleted(doc_ids)`.  Ids recorded in the indexes are always
≥ 1 (allocation), so `documents[doc_id - 1]` is modelled with
natural-number indexing. -/
def filterDeleted (h : Hub) (ids : List ℕ) : List ℕ :=
  ids.filter (fun i =>
    decide (i ≤ h.documents.length) &&
    match h.documents.getD (i - 1) none with
    | none => false
    | some d => !d.deleted)

/-- `search(keyword)`: tokenize the query, use only the first token,
collect the matching ids from each inverted index (Python sets, modelled
as dedup lists in posting order), subtract title matches from content
matches, drop tombstoned ids, and return title matches first. -/
def search (h : Hub) (keyword : String) : List Information :=
  match tokenize keyword with
  | [] => []
  | t :: _ =>
    let titleIds := ((h.title_index t).map Prod.fst).dedup
    let contentIds := ((h.content_index t).map Prod.fst).dedup
    let contentOnly := contentIds.filter (fun i => decide (i ∉ titleIds))
    (filterDeleted h titleIds).filterMap (fun i => h.documents.getD (i - 1) none)
      ++ (filterDeleted h contentOnly).filterMap (fun i => h.documents.getD (i - 1) none)

/-- A mutation of the hub, for reachability statements. -/
inductive HubOp
  | add (t c : String)
  | upd (docId : ℕ) (tOpt cOpt : Option String)
  | del (docId : ℕ)

def applyHubOp (h : Hub) : HubOp → Hub
  | HubOp.add t c => (addDocument h t c).2
  | HubOp.upd i tOpt cOpt => (updateDocument h i tOpt cOpt).2
  | HubOp.del i => (deleteDocument h i).2

/-- The hub reached from a fresh hub by a sequence of mutations. -/
def runHubOps (hashVal : ℕ) (ops : List HubOp) : Hub :=
  ops.foldl applyHubOp (freshHub hashVal)

/-- A hub whose 999 sequence slots are exhausted (as after 999 successful
`add_document` calls with no deletions): `next_id` is 1000, reuse pool
empty. -/
def overflowHub : Hub := { freshHub 0 with next_id := 1000 }

/-- C5 evaluated at the failing input: on a hub with exhausted sequence
space, `add_document` fails with the allocation `OverflowError` and leaves
the documents store, both indexes, the word sets and the reuse pool
untouched — but `next_id` has already been incremented to 1001, so the
failed call does NOT leave the allocation state exactly as it was. -/
theorem C5_allocation_overflow_mutates_counter :
    (addDocument overflowHub "a" "b").1 = Except.error () ∧
    (addDocument overflowHub "a" "b").2.documents = overflowHub.documents ∧
    (addDocument overflowHub "a" "b").2.deleted_ids = overflowHub.deleted_ids ∧
    (addDocument overflowHub "a" "b").2.title_index = overflowHub.title_index ∧
    (addDocument overflowHub "a" "b").2.content_index = overflowHub.content_index ∧
    (addDocument overflowHub "a" "b").2.doc_title_words = overflowHub.doc_title_words ∧
    (addDocument overflowHub "a" "b").2.doc_content_words = overflowHub.doc_content_words ∧
    (addDocument overflowHub "a" "b").2.next_id = 1001 ∧
    overflowHub.next_id = 1000 := by
  refine ⟨rfl, rfl, rfl, rfl, rfl, rfl, rfl, rfl, rfl⟩

theorem getD_set_self (l : List (Option Information)) (n : ℕ) (a : Option Information)
    (hn : n < l.length) : (l.set n a).getD n none = a := by
  rw [List.getD_eq_getElem?_getD, List.getElem?_set_self (by simpa using hn)]
  rfl

theorem getD_set_other (l : List (Option Information)) (n m : ℕ) (a : Option Information)
    (h : n ≠ m) : (l.set n a).getD m none = l.getD m none := by
  rw [List.getD_eq_getElem?_getD, List.getElem?_set_ne h, ← List.getD_eq_getElem?_getD]

theorem padTo_length (l : List (Option Information)) (n : ℕ) :
    (padTo l n).length = max l.length n := by
  simp only [padTo, List.length_append, List.length_replicate]
  omega

/-- C7: with remaining allocation capacity (a successful allocation),
`addDocument(t, c)` returns an id under which `getDocument` immediately
finds a document with exactly that title and content and `deleted = false`.
The two well-formedness hypotheses hold in every reachable hub: pooled ids
were previously allocated (hence ≥ 1) and `next_id` starts at 1 and only
grows. -/
theorem C7_addDocument_getDocument (h : Hub) (t c : String) (docId : ℕ)
    (hpool : ∀ i ∈ h.deleted_ids, 1 ≤ i)
    (hnext : 1 ≤ h.next_id)
    (hok : (addDocument h t c).1 = Except.ok docId) :
    getDocument (addDocument h t c).2 docId
      = some { title := t, content := c, id := docId, deleted := false } := by
  unfold addDocument at hok ⊢
  rcases hpoolcase : h.deleted_ids with _ | ⟨i, rest⟩
  · -- mint branch
    by_cases hcap : h.next_id > 999
    · rw [allocateId] at hok ⊢
      rw [hpoolcase] at hok ⊢
      simp only [if_pos hcap] at hok
      exact absurd hok (by simp)
    · rw [allocateId] at hok ⊢
      rw [hpoolcase] at hok ⊢
      simp only [if_neg hcap] at hok ⊢
      have hid : docId = h.group_prefix * 1000 + h.next_id := by
        cases hok
        rfl
      subst hid
      have h1 : 1 ≤ h.group_prefix * 1000 + h.next_id := by omega
      have hlen : ((padTo h.documents (h.group_prefix * 1000 + h.next_id)).set
          (h.group_prefix * 1000 + h.next_id - 1)
          (some { title := t, content := c, id := h.group_prefix * 1000 + h.next_id,
                  deleted := false })).length
          = max h.documents.length (h.group_prefix * 1000 + h.next_id) := by
        rw [List.length_set, padTo_length]
      unfold getDocument
      rw [if_neg (by
        simp only [not_or, not_lt]
        constructor
        · exact h1
        · simp only [hlen]
          omega)]
      rw [getD_set_self _ _ _ (by
        rw [padTo_length]
        omega)]
      rfl
  · -- reuse-pool branch
    rw [allocateId] at hok ⊢
    rw [hpoolcase] at hok ⊢
    simp only at hok
    have hid : docId = i := by
      cases hok
      rfl
    subst hid
    have h1 : 1 ≤ docId := hpool docId (hpoolcase ▸ List.mem_cons_self _ _)
    have hlen : ((padTo h.documents docId).set (docId - 1)
        (some { title := t, content := c, id := docId, deleted := false })).length
        = max h.documents.length docId := by
      rw [List.length_set, padTo_length]
    unfold getDocument
    rw [if_neg (by
      simp only [not_or, not_lt]
      constructor
      · exact h1
      · simp only [hlen]
        omega)]
    rw [getD_set_self _ _ _ (by
      rw [padTo_length]
      omega)]
    rfl

theorem C7_addDocument_getDocument_witness :
    (∀ i ∈ (freshHub 0).deleted_ids, 1 ≤ i) ∧
    1 ≤ (freshHub 0).next_id ∧
    (addDocument (freshHub 0) "a" "b").1 = Except.ok 1 ∧
    getDocument (addDocument (freshHub 0) "a" "b").2 1
      = some { title := "a", content := "b", id := 1, deleted := false } := by
  have hpool : ∀ i ∈ (freshHub 0).deleted_ids, 1 ≤ i := by
    intro i hi
    simp [freshHub] at hi
  have hnext : 1 ≤ (freshHub 0).next_id := le_refl 1
  have hok : (addDocument (freshHub 0) "a" "b").1 = Except.ok 1 := rfl
  exact ⟨hpool, hnext, hok, C7_addDocument_getDocument (freshHub 0) "a" "b" 1 hpool hnext hok⟩

theorem indexOf_append_lt {α : Type} [BEq α] [LawfulBEq α] {d : α} :
    ∀ (l1 l2 : List α), d ∈ l1 → (l1 ++ l2).indexOf d < l1.length := by
  intro l1
  induction l1 with
  | nil => intro l2 h; exact absurd h (List.not_mem_nil d)
  | cons a l1 ih =>
    intro l2 h
    rw [List.cons_append, List.indexOf_cons]
    by_cases had : a == d
    · rw [had]
      simp
    · rw [Bool.eq_false_iff.mpr had]
      simp only [cond_false, List.length_cons]
      have hd : d ∈ l1 := by
        rcases List.mem_cons.mp h with rfl | h'
        · exact absurd (beq_self_eq_true d) (by
            intro hc
            exact had hc)
        · exact h'
      have := ih l2 hd
      omega

theorem indexOf_append_ge {α : Type} [BEq α] [LawfulBEq α] {d : α} :
    ∀ (l1 l2 : List α), d ∉ l1 → l1.length ≤ (l1 ++ l2).indexOf d := by
  intro l1
  induction l1 with
  | nil => intro l2 _; exact Nat.zero_le _
  | cons a l1 ih =>
    intro l2 h
    rw [List.cons_append, List.indexOf_cons]
    have had : (a == d) = false := by
      apply beq_eq_false_iff_ne.mpr
      intro hc
      exact h (hc ▸ List.mem_cons_self a l1)
    rw [had]
    simp only [cond_false, List.length_cons]
    have := ih l2 (fun hc => h (List.mem_cons_of_mem a hc))
    omega

theorem filterDeleted_mem {h : Hub} {ids : List ℕ} {i : ℕ} :
    i ∈ filterDeleted h ids ↔
      i ∈ ids ∧ i ≤ h.documents.length ∧
        ∃ d, h.documents.getD (i - 1) none = some d ∧ d.deleted = false := by
  unfold filterDeleted
  rw [List.mem_filter]
  constructor
  · rintro ⟨hin, hp⟩
    rw [Bool.and_eq_true] at hp
    obtain ⟨h1, h2⟩ := hp
    refine ⟨hin, by simpa using h1, ?_⟩
    rcases hget : h.documents.getD (i - 1) none with _ | d
    · rw [hget] at h2
      simp at h2
    · rw [hget] at h2
      simp only [Bool.not_eq_eq_eq_not, Bool.not_true] at h2
      exact ⟨d, rfl, by simpa using h2⟩
  · rintro ⟨hin, hlen, d, hget, hdel⟩
    refine ⟨hin, ?_⟩
    rw [Bool.and_eq_true]
    refine ⟨by simpa using hlen, ?_⟩
    rw [hget]
    simpa using hdel

theorem filterMap_doc_ids (h : Hub)
    (hcoh : ∀ i d, 1 ≤ i → h.documents.getD (i - 1) none = some d → d.id = i) :
    ∀ l : List ℕ,
      (∀ i ∈ l, 1 ≤ i ∧ ∃ d, h.documents.getD (i - 1) none = some d) →
      ((l.filterMap (fun i => h.documents.getD (i - 1) none)).map Information.id) = l := by
  intro l
  induction l with
  | nil => intro _; rfl
  | cons i l ih =>
    intro hl
    obtain ⟨h1, d, hd⟩ := hl i (List.mem_cons_self i l)
    rw [List.filterMap_cons, hd, List.map_cons, hcoh i d h1 hd,
      ih (fun j hj => hl j (List.mem_cons_of_mem i hj))]

/-- C6: for a query whose first token is `tk`, `search` never returns a
tombstoned document, returns each matching document at most once, and
places every result whose title contains `tk` before every result that
matches only in content.  The hypotheses hold in every reachable hub:
posting ids are ≥ 1 and a stored document's `id` field names its slot. -/
theorem C6_search_results (h : Hub) (k tk : String) (rest : List String)
    (htok : tokenize k = tk :: rest)
    (hT1 : ∀ p ∈ h.title_index tk, 1 ≤ p.1)
    (hC1 : ∀ p ∈ h.content_index tk, 1 ≤ p.1)
    (hcoh : ∀ i d, 1 ≤ i → h.documents.getD (i - 1) none = some d → d.id = i) :
    (∀ d ∈ search h k, d.deleted = false) ∧
    (search h k).Nodup ∧
    (∀ d1 d2, d1 ∈ search h k → d2 ∈ search h k →
      d1.id ∈ (h.title_index tk).map Prod.fst →
      d2.id ∉ (h.title_index tk).map Prod.fst →
      (search h k).indexOf d1 < (search h k).indexOf d2) := by
  have hsearch : search h k =
      (filterDeleted h (((h.title_index tk).map Prod.fst).dedup)).filterMap
        (fun i => h.documents.getD (i - 1) none)
      ++ (filterDeleted h ((((h.content_index tk).map Prod.fst).dedup).filter
            (fun i => decide (i ∉ ((h.title_index tk).map Prod.fst).dedup)))).filterMap
        (fun i => h.documents.getD (i - 1) none) := by
    unfold search
    rw [htok]
  set titleIds := ((h.title_index tk).map Prod.fst).dedup with htIds
  set contentOnly := (((h.content_index tk).map Prod.fst).dedup).filter
      (fun i => decide (i ∉ titleIds)) with hcO
  set seg1 := (filterDeleted h titleIds).filterMap
      (fun i => h.documents.getD (i - 1) none) with hseg1
  set seg2 := (filterDeleted h contentOnly).filterMap
      (fun i => h.documents.getD (i - 1) none) with hseg2
  have hTids1 : ∀ i ∈ titleIds, 1 ≤ i := by
    intro i hi
    rw [htIds, List.mem_dedup] at hi
    obtain ⟨p, hp, rfl⟩ := List.mem_map.mp hi
    exact hT1 p hp
  have hCO1 : ∀ i ∈ contentOnly, 1 ≤ i := by
    intro i hi
    rw [hcO, List.mem_filter] at hi
    have h2 := hi.1
    rw [List.mem_dedup] at h2
    obtain ⟨p, hp, rfl⟩ := List.mem_map.mp h2
    exact hC1 p hp
  have hpre1 : ∀ i ∈ filterDeleted h titleIds,
      1 ≤ i ∧ ∃ d, h.documents.getD (i - 1) none = some d := by
    intro i hi
    obtain ⟨hin, _, d, hd, _⟩ := filterDeleted_mem.mp hi
    exact ⟨hTids1 i hin, d, hd⟩
  have hpre2 : ∀ i ∈ filterDeleted h contentOnly,
      1 ≤ i ∧ ∃ d, h.documents.getD (i - 1) none = some d := by
    intro i hi
    obtain ⟨hin, _, d, hd, _⟩ := filterDeleted_mem.mp hi
    exact ⟨hCO1 i hin, d, hd⟩
  have hids1 : seg1.map Information.id = filterDeleted h titleIds :=
    filterMap_doc_ids h hcoh _ hpre1
  have hids2 : seg2.map Information.id = filterDeleted h contentOnly :=
    filterMap_doc_ids h hcoh _ hpre2
  have hnotdel : ∀ d ∈ seg1 ++ seg2, d.deleted = false := by
    intro d hd
    rcases List.mem_append.mp hd with hd' | hd' <;>
    · obtain ⟨i, hiF, hgd⟩ := List.mem_filterMap.mp hd'
      obtain ⟨-, -, d', hget', hdel'⟩ := filterDeleted_mem.mp hiF
      rw [hget'] at hgd
      cases hgd
      exact hdel'
  refine ⟨?_, ?_, ?_⟩
  · intro d hd
    rw [hsearch] at hd
    exact hnotdel d hd
  · rw [hsearch]
    apply List.Nodup.of_map Information.id
    rw [List.map_append, hids1, hids2, List.nodup_append]
    refine ⟨?_, ?_, ?_⟩
    · exact (List.nodup_dedup _).filter _
    · exact ((List.nodup_dedup _).filter _).filter _
    · intro a ha hb
      have h1 : a ∈ titleIds := (filterDeleted_mem.mp ha).1
      have h2 : a ∈ contentOnly := (filterDeleted_mem.mp hb).1
      rw [hcO, List.mem_filter] at h2
      have := h2.2
      simp only [decide_eq_true_eq] at this
      exact this h1
  · intro d1 d2 hd1 hd2 ht1 ht2
    rw [hsearch] at hd1 hd2 ⊢
    have hd1seg1 : d1 ∈ seg1 := by
      rcases List.mem_append.mp hd1 with h' | h'
      · exact h'
      · exfalso
        have : d1.id ∈ seg2.map Information.id := List.mem_map_of_mem Information.id h'
        rw [hids2] at this
        have h2 : d1.id ∈ contentOnly := (filterDeleted_mem.mp this).1
        rw [hcO, List.mem_filter] at h2
        have h3 := h2.2
        simp only [decide_eq_true_eq] at h3
        exact h3 (by rw [htIds, List.mem_dedup]; exact ht1)
    have hd2notseg1 : d2 ∉ seg1 := by
      intro h'
      have : d2.id ∈ seg1.map Information.id := List.mem_map_of_mem Information.id h'
      rw [hids1] at this
      have h2 : d2.id ∈ titleIds := (filterDeleted_mem.mp this).1
      rw [htIds, List.mem_dedup] at h2
      exact ht2 h2
    exact lt_of_lt_of_le (indexOf_append_lt seg1 seg2 hd1seg1)
      (indexOf_append_ge seg1 seg2 hd2notseg1)

/-- A concrete hub: document 1 is `("foo bar", "baz")`, document 2 is
`("qux", "foo")`. -/
def hubW : Hub := (addDocument (addDocument (freshHub 0) "foo bar" "baz").2 "qux" "foo").2

theorem hubW_documents : hubW.documents =
    [some { title := "foo bar", content := "baz", id := 1, deleted := false },
     some { title := "qux", content := "foo", id := 2, deleted := false }] := rfl

theorem C6_search_results_witness :
    tokenize "foo" = "foo" :: [] ∧
    (∀ p ∈ hubW.title_index "foo", 1 ≤ p.1) ∧
    (∀ p ∈ hubW.content_index "foo", 1 ≤ p.1) ∧
    ((∀ d ∈ search hubW "foo", d.deleted = false) ∧
     (search hubW "foo").Nodup ∧
     (∀ d1 d2, d1 ∈ search hubW "foo" → d2 ∈ search hubW "foo" →
       d1.id ∈ (hubW.title_index "foo").map Prod.fst →
       d2.id ∉ (hubW.title_index "foo").map Prod.fst →
       (search hubW "foo").indexOf d1 < (search hubW "foo").indexOf d2)) := by
  have htok : tokenize "foo" = "foo" :: [] := rfl
  have hT1 : ∀ p ∈ hubW.title_index "foo", 1 ≤ p.1 := by decide
  have hC1 : ∀ p ∈ hubW.content_index "foo", 1 ≤ p.1 := by decide
  have hcoh : ∀ i d, 1 ≤ i → hubW.documents.getD (i - 1) none = some d → d.id = i := by
    intro i d h1 hd
    rw [hubW_documents] at hd
    rcases i with _ | _ | _ | n
    · exact absurd h1 (by omega)
    · have h2 : (some { title := "foo bar", content := "baz", id := 1, deleted := false }
          : Option Information) = some d := by
        simpa using hd
      cases h2
      rfl
    · have h2 : (some { title := "qux", content := "foo", id := 2, deleted := false }
          : Option Information) = some d := by
        simpa using hd
      cases h2
      rfl
    · exfalso
      have h2 : ([some { title := "foo bar", content := "baz", id := 1, deleted := false },
          some { title := "qux", content := "foo", id := 2, deleted := false }]
          : List (Option Information)).getD (n + 3 - 1) none = none := by
        rw [List.getD_eq_getElem?_getD, List.getElem?_eq_none (by simp)]
        rfl
      rw [h2] at hd
      exact Option.noConfusion hd
  exact ⟨htok, hT1, hC1, C6_search_results hubW "foo" "foo" [] htok hT1 hC1 hcoh⟩

theorem indexTokens_sorted (docId : ℕ) :
    ∀ (ws : List String) (pos : ℕ) (idx : String → List Posting),
      (∀ w, (idx w).Pairwise ple) →
      ∀ w, (indexTokens docId pos ws idx w).Pairwise ple := by
  intro ws
  induction ws with
  | nil => intro pos idx hidx w; exact hidx w
  | cons v ws ih =>
    intro pos idx hidx w
    unfold indexTokens
    apply ih
    intro u
    by_cases hu : u = v
    · rw [if_pos hu]
      exact insortP_sorted _ _ (hidx v)
    · rw [if_neg hu]
      exact hidx u

/-- Sortedness of both inverted indexes, as a state predicate. -/
def SortedIdx (h : Hub) : Prop :=
  ∀ w, (h.title_index w).Pairwise ple ∧ (h.content_index w).Pairwise ple

theorem addDocument_sortedIdx (h : Hub) (t c : String) (hs : SortedIdx h) :
    SortedIdx (addDocument h t c).2 := by
  unfold addDocument
  rcases hpool : h.deleted_ids with _ | ⟨i, rest⟩
  · rw [allocateId, hpool]
    by_cases hcap : h.next_id > 999
    · rw [if_pos hcap]
      exact hs
    · rw [if_neg hcap]
      intro w
      exact ⟨indexTokens_sorted _ _ _ _ (fun u => (hs u).1) w,
             indexTokens_sorted _ _ _ _ (fun u => (hs u).2) w⟩
  · rw [allocateId, hpool]
    intro w
    exact ⟨indexTokens_sorted _ _ _ _ (fun u => (hs u).1) w,
           indexTokens_sorted _ _ _ _ (fun u => (hs u).2) w⟩

theorem deleteDocument_sortedIdx (h : Hub) (i : ℕ) (hs : SortedIdx h) :
    SortedIdx (deleteDocument h i).2 := by
  unfold deleteDocument
  by_cases h1 : i < 1 ∨ h.documents.length < i
  · rw [if_pos h1]
    exact hs
  · rw [if_neg h1]
    rcases hget : h.documents.getD (i - 1) none with _ | d
    · exact hs
    · dsimp only
      by_cases h2 : d.deleted
      · rw [if_pos h2]
        exact hs
      · rw [if_neg h2]
        intro w
        constructor
        · by_cases h3 : w ∈ h.doc_title_words i
          · show (if w ∈ h.doc_title_words i then removeDoc i (h.title_index w)
              else h.title_index w).Pairwise ple
            rw [if_pos h3]
            exact removeDoc_sorted (hs w).1
          · show (if w ∈ h.doc_title_words i then removeDoc i (h.title_index w)
              else h.title_index w).Pairwise ple
            rw [if_neg h3]
            exact (hs w).1
        · by_cases h3 : w ∈ h.doc_content_words i
          · show (if w ∈ h.doc_content_words i then removeDoc i (h.content_index w)
              else h.content_index w).Pairwise ple
            rw [if_pos h3]
            exact removeDoc_sorted (hs w).2
          · show (if w ∈ h.doc_content_words i then removeDoc i (h.content_index w)
              else h.content_index w).Pairwise ple
            rw [if_neg h3]
            exact (hs w).2

theorem updateDocument_sortedIdx (h : Hub) (i : ℕ) (tOpt cOpt : Option String)
    (hs : SortedIdx h) : SortedIdx (updateDocument h i tOpt cOpt).2 := by
  unfold updateDocument
  by_cases h1 : i < 1 ∨ h.documents.length < i
  · rw [if_pos h1]
    exact hs
  · rw [if_neg h1]
    rcases hget : h.documents.getD (i - 1) none with _ | d
    · exact hs
    · dsimp only
      by_cases h2 : d.deleted
      · rw [if_pos h2]
        exact hs
      · rw [if_neg h2]
        intro w
        constructor
        · apply indexTokens_sorted
          intro u
          by_cases h3 : u ∈ h.doc_title_words i
          · rw [if_pos h3]
            exact removeDoc_sorted (hs u).1
          · rw [if_neg h3]
            exact (hs u).1
        · apply indexTokens_sorted
          intro u
          by_cases h3 : u ∈ h.doc_content_words i
          · rw [if_pos h3]
            exact removeDoc_sorted (hs u).2
          · rw [if_neg h3]
            exact (hs u).2

theorem applyHubOp_sortedIdx (h : Hub) (op : HubOp) (hs : SortedIdx h) :
    SortedIdx (applyHubOp h op) := by
  cases op with
  | add t c => exact addDocument_sortedIdx h t c hs
  | upd i tOpt cOpt => exact updateDocument_sortedIdx h i tOpt cOpt hs
  | del i => exact deleteDocument_sortedIdx h i hs

theorem foldl_sortedIdx : ∀ (ops : List HubOp) (h : Hub), SortedIdx h →
    SortedIdx (ops.foldl applyHubOp h) := by
  intro ops
  induction ops with
  | nil => exact fun h hs => hs
  | cons op ops ih =>
    intro h hs
    rw [List.foldl_cons]
    exact ih _ (applyHubOp_sortedIdx h op hs)

/-- C8: in every hub state reachable by `addDocument` / `updateDocument` /
`deleteDocument` from a fresh hub, every token's posting list in both
indexes is sorted in (doc id, position) order, and insertion into a sorted
posting list by `insortP` (the model of `bisect.insort`) preserves that
order — postings are never appended and re-sorted. -/
theorem C8_posting_lists_sorted (hashVal : ℕ) (ops : List HubOp) :
    (∀ w, ((runHubOps hashVal ops).title_index w).Pairwise ple ∧
      ((runHubOps hashVal ops).content_index w).Pairwise ple) ∧
    (∀ (x : Posting) (l : List Posting), l.Pairwise ple → (insortP x l).Pairwise ple) := by
  constructor
  · apply foldl_sortedIdx
    intro w
    exact ⟨List.Pairwise.nil, List.Pairwise.nil⟩
  · exact fun x l => insortP_sorted x l

theorem insortP_filter_neg {p : Posting → Bool} {x : Posting} (hx : p x = false) :
    ∀ l : List Posting, (insortP x l).filter p = l.filter p := by
  intro l
  induction l with
  | nil => simp [insortP, List.filter, hx]
  | cons y ys ih =>
    unfold insortP
    by_cases h : plt x y
    · rw [if_pos h, List.filter_cons, hx]
      simp
    · rw [if_neg h, List.filter_cons, List.filter_cons]
      rcases hy : p y with _ | _
      · simpa [hy] using ih
      · simpa [hy] using ih

theorem indexTokens_perm (docId : ℕ) :
    ∀ (ws : List String) (pos : ℕ) (idx : String → List Posting) (w : String),
      (indexTokens docId pos ws idx w).Perm
        (idx w ++ (positionsFrom w pos ws).map (fun p => (docId, p))) := by
  intro ws
  induction ws with
  | nil =>
    intro pos idx w
    simp [indexTokens, positionsFrom]
  | cons v ws ih =>
    intro pos idx w
    unfold indexTokens
    by_cases hw : w = v
    · subst hw
      have h1 := ih (pos + 1) (fun t => if t = w then insortP (docId, pos) (idx w) else idx t) w
      rw [if_pos rfl] at h1
      unfold positionsFrom
      rw [if_pos rfl]
      refine h1.trans ?_
      rw [List.map_cons]
      exact ((insortP_perm (docId, pos) (idx w)).append_right _).trans List.perm_middle.symm
    · have h1 := ih (pos + 1) (fun t => if t = v then insortP (docId, pos) (idx v) else idx t) w
      rw [if_neg hw] at h1
      unfold positionsFrom
      rw [if_neg (fun hc => hw hc.symm)]
      exact h1

theorem indexTokens_not_mem (docId : ℕ) :
    ∀ (ws : List String) (pos : ℕ) (idx : String → List Posting) (w : String),
      w ∉ ws → indexTokens docId pos ws idx w = idx w := by
  intro ws
  induction ws with
  | nil => intro pos idx w _; rfl
  | cons v ws ih =>
    intro pos idx w hw
    simp only [List.mem_cons, not_or] at hw
    unfold indexTokens
    rw [ih _ _ w hw.2, if_neg hw.1]

theorem indexTokens_postings_other (docId j : ℕ) (hj : j ≠ docId) :
    ∀ (ws : List String) (pos : ℕ) (idx : String → List Posting) (w : String),
      postingsOf j (indexTokens docId pos ws idx w) = postingsOf j (idx w) := by
  intro ws
  induction ws with
  | nil => intro pos idx w; rfl
  | cons v ws ih =>
    intro pos idx w
    unfold indexTokens
    rw [ih]
    by_cases hw : w = v
    · rw [if_pos hw]
      unfold postingsOf
      subst hw
      exact insortP_filter_neg (by
        simp only [decide_eq_false_iff_not]
        exact fun hc => hj hc.symm) _
    · rw [if_neg hw]

theorem positionsFrom_not_mem (t : String) :
    ∀ (ws : List String) (pos : ℕ), t ∉ ws → positionsFrom t pos ws = [] := by
  intro ws
  induction ws with
  | nil => intro pos _; rfl
  | cons v ws ih =>
    intro pos ht
    simp only [List.mem_cons, not_or] at ht
    unfold positionsFrom
    rw [if_neg (fun hc => ht.1 hc.symm), ih _ ht.2]

theorem positionsFrom_ge (t : String) :
    ∀ (ws : List String) (pos : ℕ), ∀ q ∈ positionsFrom t pos ws, pos ≤ q := by
  intro ws
  induction ws with
  | nil => intro pos q hq; exact absurd hq (List.not_mem_nil q)
  | cons v ws ih =>
    intro pos q hq
    unfold positionsFrom at hq
    by_cases hv : v = t
    · rw [if_pos hv] at hq
      rcases List.mem_cons.mp hq with rfl | hq'
      · exact le_refl q
      · exact le_trans (Nat.le_succ pos) (ih (pos + 1) q hq')
    · rw [if_neg hv] at hq
      exact le_trans (Nat.le_succ pos) (ih (pos + 1) q hq)

theorem positionsFrom_map_sorted (t : String) (i : ℕ) :
    ∀ (ws : List String) (pos : ℕ),
      (((positionsFrom t pos ws).map (fun p => (i, p))) : List Posting).Pairwise ple := by
  intro ws
  induction ws with
  | nil => intro pos; exact List.Pairwise.nil
  | cons v ws ih =>
    intro pos
    unfold positionsFrom
    by_cases hv : v = t
    · rw [if_pos hv, List.map_cons]
      refine List.pairwise_cons.mpr ⟨?_, ih (pos + 1)⟩
      intro b hb
      obtain ⟨q, hq, rfl⟩ := List.mem_map.mp hb
      have := positionsFrom_ge t ws (pos + 1) q hq
      exact Or.inr ⟨rfl, by omega⟩
    · rw [if_neg hv]
      exact ih (pos + 1)

theorem list_set_getD (l : List (Option Information)) :
    ∀ n, n < l.length → l.set n (l.getD n none) = l := by
  induction l with
  | nil => intro n hn; simp at hn
  | cons a l ih =>
    intro n hn
    cases n with
    | zero => rfl
    | succ n =>
      simp only [List.length_cons] at hn
      show a :: l.set n (l.getD n none) = a :: l
      rw [ih n (by omega)]

theorem padTo_getD_lt (l : List (Option Information)) (n m : ℕ) (hm : m < l.length) :
    (padTo l n).getD m none = l.getD m none := by
  unfold padTo
  rw [List.getD_eq_getElem?_getD, List.getElem?_append, if_pos hm,
    ← List.getD_eq_getElem?_getD]

theorem getD_eq_none_of_len (l : List (Option Information)) (m : ℕ)
    (hm : l.length ≤ m) : l.getD m none = none := by
  rw [List.getD_eq_getElem?_getD, List.getElem?_eq_none (by simpa using hm)]
  rfl

theorem padTo_getD_ge (l : List (Option Information)) (n m : ℕ) (hm : l.length ≤ m) :
    (padTo l n).getD m none = none := by
  unfold padTo
  rw [List.getD_eq_getElem?_getD, List.getElem?_append_right hm, List.getElem?_replicate]
  by_cases h : m - l.length < n - l.length
  · rw [if_pos h]
    rfl
  · rw [if_neg h]
    rfl

theorem getDocument_eq_some {h : Hub} {i : ℕ} {d : Information} :
    getDocument h i = some d ↔
      1 ≤ i ∧ i ≤ h.documents.length ∧
      h.documents.getD (i - 1) none = some d ∧ d.deleted = false := by
  unfold getDocument
  by_cases h1 : i < 1 ∨ h.documents.length < i
  · rw [if_pos h1]
    constructor
    · intro hc
      exact absurd hc (by simp)
    · rintro ⟨ha, hb, -, -⟩
      exfalso
      omega
  · rw [if_neg h1]
    push_neg at h1
    rcases hget : h.documents.getD (i - 1) none with _ | d'
    · dsimp only
      constructor
      · intro hc
        exact Option.noConfusion hc
      · rintro ⟨-, -, hd, -⟩
        exact Option.noConfusion hd
    · dsimp only
      by_cases h2 : d'.deleted
      · rw [if_pos h2]
        constructor
        · intro hc
          exact Option.noConfusion hc
        · rintro ⟨-, -, hd, hdel⟩
          cases hd
          rw [hdel] at h2
          exact Bool.noConfusion h2
      · rw [if_neg h2]
        have h3 : d'.deleted = false := by
          revert h2
          cases d'.deleted <;> simp
        constructor
        · intro hc
          cases hc
          exact ⟨by omega, by omega, rfl, h3⟩
        · rintro ⟨-, -, hd, -⟩
          cases hd
          rfl

theorem getDocument_none_out {h : Hub} {i : ℕ} (hi : h.documents.length < i ∨ i < 1) :
    getDocument h i = none := by
  unfold getDocument
  rw [if_pos (by omega)]

theorem getDocument_set {h h' : Hub} {i : ℕ} {x : Option Information}
    (hd : h'.documents = h.documents.set (i - 1) x) {j : ℕ} (hij : j ≠ i) (hi1 : 1 ≤ i) :
    getDocument h' j = getDocument h j := by
  unfold getDocument
  rw [hd, List.length_set]
  by_cases hj1 : j < 1 ∨ h.documents.length < j
  · rw [if_pos hj1, if_pos hj1]
  · rw [if_neg hj1, if_neg hj1]
    push_neg at hj1
    rw [getD_set_other _ _ _ _ (by omega : i - 1 ≠ j - 1)]

/-- The representation invariant of `InformationHub`, tying the inverted
indexes, per-document word sets, reuse pool and allocation counters to the
document store.  It holds in every reachable state. -/
structure HubInv (h : Hub) : Prop where
  sortedIdx : SortedIdx h
  liveId : ∀ i d, getDocument h i = some d → d.id = i
  liveTitle : ∀ i d, getDocument h i = some d → ∀ w,
    postingsOf i (h.title_index w)
      = (positionsFrom w 0 (tokenize d.title)).map (fun p => (i, p))
  liveContent : ∀ i d, getDocument h i = some d → ∀ w,
    postingsOf i (h.content_index w)
      = (positionsFrom w 0 (tokenize d.content)).map (fun p => (i, p))
  liveWordsT : ∀ i d, getDocument h i = some d →
    h.doc_title_words i = (tokenize d.title).toFinset
  liveWordsC : ∀ i d, getDocument h i = some d →
    h.doc_content_words i = (tokenize d.content).toFinset
  deadPostings : ∀ i, getDocument h i = none → ∀ w,
    postingsOf i (h.title_index w) = [] ∧ postingsOf i (h.content_index w) = []
  deadWords : ∀ i, getDocument h i = none →
    h.doc_title_words i = ∅ ∧ h.doc_content_words i = ∅
  poolNodup : h.deleted_ids.Nodup
  poolOk : ∀ i ∈ h.deleted_ids, 1 ≤ i ∧ i ≤ h.documents.length ∧
    ∃ d, h.documents.getD (i - 1) none = some d ∧ d.deleted = true
  lenBound : h.documents.length < h.group_prefix * 1000 + h.next_id
  nextPos : 1 ≤ h.next_id

theorem freshHub_inv (hashVal : ℕ) : HubInv (freshHub hashVal) := by
  refine ⟨?_, ?_, ?_, ?_, ?_, ?_, ?_, ?_, ?_, ?_, ?_, ?_⟩
  · intro w
    exact ⟨List.Pairwise.nil, List.Pairwise.nil⟩
  · intro i d hd
    rw [getDocument_eq_some] at hd
    have := hd.2.1
    simp [freshHub] at this
    omega
  · intro i d hd
    rw [getDocument_eq_some] at hd
    have := hd.2.1
    simp [freshHub] at this
    omega
  · intro i d hd
    rw [getDocument_eq_some] at hd
    have := hd.2.1
    simp [freshHub] at this
    omega
  · intro i d hd
    rw [getDocument_eq_some] at hd
    have := hd.2.1
    simp [freshHub] at this
    omega
  · intro i d hd
    rw [getDocument_eq_some] at hd
    have := hd.2.1
    simp [freshHub] at this
    omega
  · intro i _ w
    exact ⟨rfl, rfl⟩
  · intro i _
    exact ⟨rfl, rfl⟩
  · exact List.nodup_nil
  · intro i hi
    exact absurd hi (List.not_mem_nil i)
  · show (0 : ℕ) < hashVal % 1000 * 1000 + 1
    omega
  · exact le_refl 1

theorem postingsOf_append (i : ℕ) (l l' : List Posting) :
    postingsOf i (l ++ l') = postingsOf i l ++ postingsOf i l' := by
  unfold postingsOf
  rw [List.filter_append]

theorem postingsOf_map_self (i : ℕ) (qs : List ℕ) :
    postingsOf i (qs.map (fun p => (i, p))) = qs.map (fun p => (i, p)) := by
  unfold postingsOf
  apply List.filter_eq_self.mpr
  intro a ha
  rcases List.mem_map.mp ha with ⟨q, _, rfl⟩
  simp

theorem postingsOf_indexTokens_self (docId : ℕ) (ws : List String)
    (idx : String → List Posting) (hsorted : ∀ u, (idx u).Pairwise ple)
    (hdead : ∀ u, postingsOf docId (idx u) = []) (w : String) :
    postingsOf docId (indexTokens docId 0 ws idx w)
      = (positionsFrom w 0 ws).map (fun p => (docId, p)) := by
  by_cases hw : w ∈ ws
  · have hperm : (postingsOf docId (indexTokens docId 0 ws idx w)).Perm
        (postingsOf docId (idx w ++ (positionsFrom w 0 ws).map (fun p => (docId, p)))) :=
      (indexTokens_perm docId ws 0 idx w).filter _
    rw [postingsOf_append, hdead w, List.nil_append, postingsOf_map_self] at hperm
    have hs1 : (postingsOf docId (indexTokens docId 0 ws idx w)).Pairwise ple := by
      unfold postingsOf
      exact List.Pairwise.sublist (List.filter_sublist _)
        (indexTokens_sorted docId ws 0 idx hsorted w)
    exact List.eq_of_perm_of_sorted hperm hs1 (positionsFrom_map_sorted w docId ws 0)
  · rw [indexTokens_not_mem docId ws 0 idx w hw, hdead w,
      positionsFrom_not_mem w ws 0 hw]
    rfl

theorem hub_add_core (h H : Hub) (docId : ℕ) (t c : String)
    (hinv : HubInv h) (hdead : getDocument h docId = none) (h1 : 1 ≤ docId)
    (hpool : docId ∉ h.deleted_ids)
    (hBound : docId < h.group_prefix * 1000 + h.next_id)
    (hdocs : H.documents = (padTo h.documents docId).set (docId - 1)
      (some ⟨t, c, docId, false⟩))
    (hT : H.title_index = indexTokens docId 0 (tokenize t) h.title_index)
    (hC : H.content_index = indexTokens docId 0 (tokenize c) h.content_index)
    (hWT : H.doc_title_words = fun j =>
      if j = docId then h.doc_title_words docId ∪ (tokenize t).toFinset
      else h.doc_title_words j)
    (hWC : H.doc_content_words = fun j =>
      if j = docId then h.doc_content_words docId ∪ (tokenize c).toFinset
      else h.doc_content_words j)
    (hDel : H.deleted_ids = h.deleted_ids)
    (hNext : H.next_id = h.next_id)
    (hPre : H.group_prefix = h.group_prefix) :
    HubInv H := by
  have hnew : getDocument H docId = some ⟨t, c, docId, false⟩ := by
    apply getDocument_eq_some.mpr
    refine ⟨h1, ?_, ?_, rfl⟩
    · rw [hdocs, List.length_set, padTo_length]
      omega
    · rw [hdocs]
      apply getD_set_self
      rw [padTo_length]
      omega
  have hsame : ∀ j, j ≠ docId → getDocument H j = getDocument h j := by
    intro j hj
    by_cases hj0 : j < 1
    · rw [getDocument_none_out (Or.inr hj0), getDocument_none_out (Or.inr hj0)]
    · push_neg at hj0
      by_cases hjlen : j ≤ h.documents.length
      · unfold getDocument
        rw [hdocs, List.length_set, padTo_length,
          getD_set_other _ _ _ _ (by omega : docId - 1 ≠ j - 1),
          padTo_getD_lt _ _ _ (by omega : j - 1 < h.documents.length)]
        rw [if_neg (by omega), if_neg (by omega)]
      · push_neg at hjlen
        rw [getDocument_none_out (Or.inl hjlen)]
        unfold getDocument
        rw [hdocs, List.length_set, padTo_length,
          getD_set_other _ _ _ _ (by omega : docId - 1 ≠ j - 1),
          padTo_getD_ge _ _ _ (by omega : h.documents.length ≤ j - 1)]
        by_cases hjd : max h.documents.length docId < j
        · rw [if_pos (Or.inr hjd)]
        · rw [if_neg (by omega)]
  refine ⟨?_, ?_, ?_, ?_, ?_, ?_, ?_, ?_, ?_, ?_, ?_, ?_⟩
  · intro w
    rw [hT, hC]
    exact ⟨indexTokens_sorted _ _ _ _ (fun u => (hinv.sortedIdx u).1) w,
           indexTokens_sorted _ _ _ _ (fun u => (hinv.sortedIdx u).2) w⟩
  · intro i d hd
    by_cases hi : i = docId
    · subst hi
      rw [hnew] at hd
      cases hd
      rfl
    · rw [hsame i hi] at hd
      exact hinv.liveId i d hd
  · intro i d hd w
    by_cases hi : i = docId
    · subst hi
      rw [hnew] at hd
      cases hd
      rw [hT]
      exact postingsOf_indexTokens_self i (tokenize t) h.title_index
        (fun u => (hinv.sortedIdx u).1)
        (fun u => (hinv.deadPostings i hdead u).1) w
    · rw [hsame i hi] at hd
      rw [hT, indexTokens_postings_other docId i hi]
      exact hinv.liveTitle i d hd w
  · intro i d hd w
    by_cases hi : i = docId
    · subst hi
      rw [hnew] at hd
      cases hd
      rw [hC]
      exact postingsOf_indexTokens_self i (tokenize c) h.content_index
        (fun u => (hinv.sortedIdx u).2)
        (fun u => (hinv.deadPostings i hdead u).2) w
    · rw [hsame i hi] at hd
      rw [hC, indexTokens_postings_other docId i hi]
      exact hinv.liveContent i d hd w
  · intro i d hd
    by_cases hi : i = docId
    · subst hi
      rw [hnew] at hd
      cases hd
      rw [hWT]
      dsimp only
      rw [if_pos rfl, (hinv.deadWords i hdead).1, Finset.empty_union]
    · rw [hsame i hi] at hd
      rw [hWT]
      dsimp only
      rw [if_neg hi]
      exact hinv.liveWordsT i d hd
  · intro i d hd
    by_cases hi : i = docId
    · subst hi
      rw [hnew] at hd
      cases hd
      rw [hWC]
      dsimp only
      rw [if_pos rfl, (hinv.deadWords i hdead).2, Finset.empty_union]
    · rw [hsame i hi] at hd
      rw [hWC]
      dsimp only
      rw [if_neg hi]
      exact hinv.liveWordsC i d hd
  · intro i hd w
    have hi : i ≠ docId := by
      intro hc
      subst hc
      rw [hnew] at hd
      exact Option.noConfusion hd
    rw [hsame i hi] at hd
    rw [hT, hC]
    exact ⟨by rw [indexTokens_postings_other docId i hi]
              exact (hinv.deadPostings i hd w).1,
           by rw [indexTokens_postings_other docId i hi]
              exact (hinv.deadPostings i hd w).2⟩
  · intro i hd
    have hi : i ≠ docId := by
      intro hc
      subst hc
      rw [hnew] at hd
      exact Option.noConfusion hd
    rw [hsame i hi] at hd
    rw [hWT, hWC]
    dsimp only
    rw [if_neg hi, if_neg hi]
    exact hinv.deadWords i hd
  · rw [hDel]
    exact hinv.poolNodup
  · intro i hi
    rw [hDel] at hi
    obtain ⟨hi1, hilen, d₀, hd₀, hdel₀⟩ := hinv.poolOk i hi
    have hne : i ≠ docId := fun hc => hpool (hc ▸ hi)
    refine ⟨hi1, ?_, d₀, ?_, hdel₀⟩
    · rw [hdocs, List.length_set, padTo_length]
      omega
    · rw [hdocs, getD_set_other _ _ _ _ (by omega : docId - 1 ≠ i - 1),
        padTo_getD_lt _ _ _ (by omega : i - 1 < h.documents.length)]
      exact hd₀
  · rw [hdocs, List.length_set, padTo_length, hNext, hPre]
    have := hinv.lenBound
    omega
  · rw [hNext]
    exact hinv.nextPos

theorem hub_bump_inv (h : Hub) (hinv : HubInv h) :
    HubInv { h with next_id := h.next_id + 1 } := by
  refine ⟨hinv.sortedIdx, hinv.liveId, hinv.liveTitle, hinv.liveContent, hinv.liveWordsT,
    hinv.liveWordsC, hinv.deadPostings, hinv.deadWords, hinv.poolNodup, hinv.poolOk,
    ?_, ?_⟩
  · show h.documents.length < h.group_prefix * 1000 + (h.next_id + 1)
    have := hinv.lenBound
    omega
  · show (1 : ℕ) ≤ h.next_id + 1
    omega

theorem hub_pop_inv (h : Hub) (i : ℕ) (rest : List ℕ) (hpool : h.deleted_ids = i :: rest)
    (hinv : HubInv h) : HubInv { h with deleted_ids := rest } := by
  refine ⟨hinv.sortedIdx, hinv.liveId, hinv.liveTitle, hinv.liveContent, hinv.liveWordsT,
    hinv.liveWordsC, hinv.deadPostings, hinv.deadWords, ?_, ?_, hinv.lenBound,
    hinv.nextPos⟩
  · show rest.Nodup
    have hh := hinv.poolNodup
    rw [hpool] at hh
    exact hh.of_cons
  · intro j hj
    exact hinv.poolOk j (by rw [hpool]; exact List.mem_cons_of_mem i hj)

theorem addDocument_inv (h : Hub) (t c : String) (hinv : HubInv h) :
    HubInv (addDocument h t c).2 := by
  obtain ⟨docs, nid, gp, pool, ti, ci, wt, wc⟩ := h
  rcases pool with _ | ⟨i, rest⟩
  · unfold addDocument allocateId
    dsimp only
    by_cases hcap : nid > 999
    · rw [if_pos hcap]
      exact hub_bump_inv _ hinv
    · rw [if_neg hcap]
      have hlb : docs.length < gp * 1000 + nid := hinv.lenBound
      have hnp : 1 ≤ nid := hinv.nextPos
      refine hub_add_core ⟨docs, nid + 1, gp, [], ti, ci, wt, wc⟩ _
        (gp * 1000 + nid) t c (hub_bump_inv _ hinv)
        ?_ ?_ ?_ ?_ rfl rfl rfl rfl rfl rfl rfl rfl
      · apply getDocument_none_out
        left
        show docs.length < gp * 1000 + nid
        omega
      · show (1 : ℕ) ≤ gp * 1000 + nid
        omega
      · show gp * 1000 + nid ∉ ([] : List ℕ)
        exact List.not_mem_nil _
      · show gp * 1000 + nid < gp * 1000 + (nid + 1)
        omega
  · unfold addDocument allocateId
    dsimp only
    obtain ⟨hi1, hilen, d₀, hd₀, hdel₀⟩ := hinv.poolOk i (List.mem_cons_self i rest)
    have hilen' : i ≤ docs.length := hilen
    have hd₀' : docs.getD (i - 1) none = some d₀ := hd₀
    have hlb : docs.length < gp * 1000 + nid := hinv.lenBound
    refine hub_add_core ⟨docs, nid, gp, rest, ti, ci, wt, wc⟩ _ i t c
      (hub_pop_inv _ i rest rfl hinv) ?_ hi1 ?_ ?_ rfl rfl rfl rfl rfl rfl rfl rfl
    · show getDocument ⟨docs, nid, gp, rest, ti, ci, wt, wc⟩ i = none
      unfold getDocument
      dsimp only
      rw [if_neg (by omega : ¬(i < 1 ∨ docs.length < i)), hd₀']
      dsimp only
      rw [if_pos hdel₀]
    · show i ∉ rest
      have hh : (i :: rest).Nodup := hinv.poolNodup
      exact (List.nodup_cons.mp hh).1
    · show i < gp * 1000 + nid
      omega

theorem hub_del_core (h H : Hub) (docId : ℕ) (d : Information)
    (hinv : HubInv h) (hlive : getDocument h docId = some d)
    (hdocs : H.documents = h.documents.set (docId - 1) (some { d with deleted := true }))
    (hT : H.title_index = fun w =>
      if w ∈ h.doc_title_words docId then removeDoc docId (h.title_index w)
      else h.title_index w)
    (hC : H.content_index = fun w =>
      if w ∈ h.doc_content_words docId then removeDoc docId (h.content_index w)
      else h.content_index w)
    (hWT : H.doc_title_words = fun j => if j = docId then ∅ else h.doc_title_words j)
    (hWC : H.doc_content_words = fun j => if j = docId then ∅ else h.doc_content_words j)
    (hDel : H.deleted_ids = h.deleted_ids ++ [docId])
    (hNext : H.next_id = h.next_id)
    (hPre : H.group_prefix = h.group_prefix) :
    HubInv H := by
  obtain ⟨h1, hlen, hget, hdel⟩ := getDocument_eq_some.mp hlive
  have hpoolNot : docId ∉ h.deleted_ids := by
    intro hc
    obtain ⟨-, -, d₁, hd₁, hdel₁⟩ := hinv.poolOk docId hc
    rw [hget] at hd₁
    cases hd₁
    rw [hdel] at hdel₁
    exact Bool.noConfusion hdel₁
  have hLH : H.documents.length = h.documents.length := by
    rw [hdocs, List.length_set]
  have hdeadH : getDocument H docId = none := by
    unfold getDocument
    rw [hdocs, List.length_set, getD_set_self _ _ _ (by omega)]
    rw [if_neg (by omega)]
    rfl
  have hsame : ∀ j, j ≠ docId → getDocument H j = getDocument h j := by
    intro j hj
    by_cases hj0 : j < 1
    · rw [getDocument_none_out (Or.inr hj0), getDocument_none_out (Or.inr hj0)]
    · push_neg at hj0
      unfold getDocument
      rw [hdocs, List.length_set,
        getD_set_other _ _ _ _ (by omega : docId - 1 ≠ j - 1)]
  have hTpost : ∀ j, j ≠ docId → ∀ w,
      postingsOf j (H.title_index w) = postingsOf j (h.title_index w) := by
    intro j hj w
    rw [hT]
    dsimp only
    by_cases hw : w ∈ h.doc_title_words docId
    · rw [if_pos hw]
      exact postingsOf_removeDoc_other (hinv.sortedIdx w).1 hj
    · rw [if_neg hw]
  have hCpost : ∀ j, j ≠ docId → ∀ w,
      postingsOf j (H.content_index w) = postingsOf j (h.content_index w) := by
    intro j hj w
    rw [hC]
    dsimp only
    by_cases hw : w ∈ h.doc_content_words docId
    · rw [if_pos hw]
      exact postingsOf_removeDoc_other (hinv.sortedIdx w).2 hj
    · rw [if_neg hw]
  have hTdead : ∀ w, postingsOf docId (H.title_index w) = [] := by
    intro w
    rw [hT]
    dsimp only
    by_cases hw : w ∈ h.doc_title_words docId
    · rw [if_pos hw]
      exact postingsOf_removeDoc_self (hinv.sortedIdx w).1
    · rw [if_neg hw]
      have hwnot : w ∉ tokenize d.title := by
        intro hc
        exact hw ((hinv.liveWordsT docId d hlive) ▸ List.mem_toFinset.mpr hc)
      rw [hinv.liveTitle docId d hlive w, positionsFrom_not_mem _ _ _ hwnot]
      rfl
  have hCdead : ∀ w, postingsOf docId (H.content_index w) = [] := by
    intro w
    rw [hC]
    dsimp only
    by_cases hw : w ∈ h.doc_content_words docId
    · rw [if_pos hw]
      exact postingsOf_removeDoc_self (hinv.sortedIdx w).2
    · rw [if_neg hw]
      have hwnot : w ∉ tokenize d.content := by
        intro hc
        exact hw ((hinv.liveWordsC docId d hlive) ▸ List.mem_toFinset.mpr hc)
      rw [hinv.liveContent docId d hlive w, positionsFrom_not_mem _ _ _ hwnot]
      rfl
  refine ⟨?_, ?_, ?_, ?_, ?_, ?_, ?_, ?_, ?_, ?_, ?_, ?_⟩
  · intro w
    rw [hT, hC]
    dsimp only
    constructor
    · by_cases hw : w ∈ h.doc_title_words docId
      · rw [if_pos hw]
        exact removeDoc_sorted (hinv.sortedIdx w).1
      · rw [if_neg hw]
        exact (hinv.sortedIdx w).1
    · by_cases hw : w ∈ h.doc_content_words docId
      · rw [if_pos hw]
        exact removeDoc_sorted (hinv.sortedIdx w).2
      · rw [if_neg hw]
        exact (hinv.sortedIdx w).2
  · intro i d' hd
    have hi : i ≠ docId := by
      intro hc
      rw [hc, hdeadH] at hd
      exact Option.noConfusion hd
    rw [hsame i hi] at hd
    exact hinv.liveId i d' hd
  · intro i d' hd w
    have hi : i ≠ docId := by
      intro hc
      rw [hc, hdeadH] at hd
      exact Option.noConfusion hd
    rw [hsame i hi] at hd
    rw [hTpost i hi w]
    exact hinv.liveTitle i d' hd w
  · intro i d' hd w
    have hi : i ≠ docId := by
      intro hc
      rw [hc, hdeadH] at hd
      exact Option.noConfusion hd
    rw [hsame i hi] at hd
    rw [hCpost i hi w]
    exact hinv.liveContent i d' hd w
  · intro i d' hd
    have hi : i ≠ docId := by
      intro hc
      rw [hc, hdeadH] at hd
      exact Option.noConfusion hd
    rw [hsame i hi] at hd
    rw [hWT]
    dsimp only
    rw [if_neg hi]
    exact hinv.liveWordsT i d' hd
  · intro i d' hd
    have hi : i ≠ docId := by
      intro hc
      rw [hc, hdeadH] at hd
      exact Option.noConfusion hd
    rw [hsame i hi] at hd
    rw [hWC]
    dsimp only
    rw [if_neg hi]
    exact hinv.liveWordsC i d' hd
  · intro i hd w
    by_cases hi : i = docId
    · exact ⟨by rw [hi]; exact hTdead w, by rw [hi]; exact hCdead w⟩
    · rw [hsame i hi] at hd
      rw [hTpost i hi w, hCpost i hi w]
      exact hinv.deadPostings i hd w
  · intro i hd
    by_cases hi : i = docId
    · rw [hWT, hWC]
      dsimp only
      rw [if_pos hi, if_pos hi]
      exact ⟨rfl, rfl⟩
    · rw [hsame i hi] at hd
      rw [hWT, hWC]
      dsimp only
      rw [if_neg hi, if_neg hi]
      exact hinv.deadWords i hd
  · rw [hDel]
    refine List.Nodup.append hinv.poolNodup (List.nodup_singleton _) ?_
    intro a ha hb
    rw [List.mem_singleton] at hb
    exact hpoolNot (hb ▸ ha)
  · intro i hi
    rw [hDel] at hi
    rcases List.mem_append.mp hi with hmem | hmem
    · obtain ⟨hi1, hilen, d₁, hd₁, hdel₁⟩ := hinv.poolOk i hmem
      have hne : i ≠ docId := fun hc => hpoolNot (hc ▸ hmem)
      refine ⟨hi1, by rw [hLH]; exact hilen, d₁, ?_, hdel₁⟩
      rw [hdocs, getD_set_other _ _ _ _ (by omega : docId - 1 ≠ i - 1)]
      exact hd₁
    · rw [List.mem_singleton] at hmem
      refine ⟨by omega, ?_, { d with deleted := true }, ?_, rfl⟩
      · rw [hmem, hLH]
        exact hlen
      · rw [hmem, hdocs]
        exact getD_set_self _ _ _ (by omega)
  · rw [hLH, hNext, hPre]
    exact hinv.lenBound
  · rw [hNext]
    exact hinv.nextPos

theorem deleteDocument_inv (h : Hub) (i : ℕ) (hinv : HubInv h) :
    HubInv (deleteDocument h i).2 := by
  unfold deleteDocument
  by_cases h1 : i < 1 ∨ h.documents.length < i
  · rw [if_pos h1]
    exact hinv
  · rw [if_neg h1]
    rcases hget : h.documents.getD (i - 1) none with _ | d
    · exact hinv
    · dsimp only
      by_cases h2 : d.deleted
      · rw [if_pos h2]
        exact hinv
      · rw [if_neg h2]
        push_neg at h1
        have hlive : getDocument h i = some d :=
          getDocument_eq_some.mpr ⟨by omega, by omega, hget, by simpa using h2⟩
        exact hub_del_core h _ i d hinv hlive rfl rfl rfl rfl rfl rfl rfl rfl

theorem hub_upd_core (h H : Hub) (docId : ℕ) (d d' : Information)
    (hinv : HubInv h) (hlive : getDocument h docId = some d)
    (hid : d'.id = docId) (hdel' : d'.deleted = false)
    (hdocs : H.documents = h.documents.set (docId - 1) (some d'))
    (hT : H.title_index = indexTokens docId 0 (tokenize d'.title) (fun w =>
      if w ∈ h.doc_title_words docId then removeDoc docId (h.title_index w)
      else h.title_index w))
    (hC : H.content_index = indexTokens docId 0 (tokenize d'.content) (fun w =>
      if w ∈ h.doc_content_words docId then removeDoc docId (h.content_index w)
      else h.content_index w))
    (hWT : H.doc_title_words = fun j =>
      if j = docId then (tokenize d'.title).toFinset else h.doc_title_words j)
    (hWC : H.doc_content_words = fun j =>
      if j = docId then (tokenize d'.content).toFinset else h.doc_content_words j)
    (hDel : H.deleted_ids = h.deleted_ids)
    (hNext : H.next_id = h.next_id)
    (hPre : H.group_prefix = h.group_prefix) :
    HubInv H := by
  obtain ⟨h1, hlen, hget, hdel⟩ := getDocument_eq_some.mp hlive
  have hpoolNot : docId ∉ h.deleted_ids := by
    intro hc
    obtain ⟨-, -, d₁, hd₁, hdel₁⟩ := hinv.poolOk docId hc
    rw [hget] at hd₁
    cases hd₁
    rw [hdel] at hdel₁
    exact Bool.noConfusion hdel₁
  have hLH : H.documents.length = h.documents.length := by
    rw [hdocs, List.length_set]
  have hsT : ∀ u, ((fun w =>
      if w ∈ h.doc_title_words docId then removeDoc docId (h.title_index w)
      else h.title_index w) u).Pairwise ple := by
    intro u
    dsimp only
    by_cases hu : u ∈ h.doc_title_words docId
    · rw [if_pos hu]
      exact removeDoc_sorted (hinv.sortedIdx u).1
    · rw [if_neg hu]
      exact (hinv.sortedIdx u).1
  have hsC : ∀ u, ((fun w =>
      if w ∈ h.doc_content_words docId then removeDoc docId (h.content_index w)
      else h.content_index w) u).Pairwise ple := by
    intro u
    dsimp only
    by_cases hu : u ∈ h.doc_content_words docId
    · rw [if_pos hu]
      exact removeDoc_sorted (hinv.sortedIdx u).2
    · rw [if_neg hu]
      exact (hinv.sortedIdx u).2
  have hdT : ∀ u, postingsOf docId ((fun w =>
      if w ∈ h.doc_title_words docId then removeDoc docId (h.title_index w)
      else h.title_index w) u) = [] := by
    intro u
    dsimp only
    by_cases hu : u ∈ h.doc_title_words docId
    · rw [if_pos hu]
      exact postingsOf_removeDoc_self (hinv.sortedIdx u).1
    · rw [if_neg hu]
      have hwnot : u ∉ tokenize d.title := by
        intro hc
        exact hu ((hinv.liveWordsT docId d hlive) ▸ List.mem_toFinset.mpr hc)
      rw [hinv.liveTitle docId d hlive u, positionsFrom_not_mem _ _ _ hwnot]
      rfl
  have hdC : ∀ u, postingsOf docId ((fun w =>
      if w ∈ h.doc_content_words docId then removeDoc docId (h.content_index w)
      else h.content_index w) u) = [] := by
    intro u
    dsimp only
    by_cases hu : u ∈ h.doc_content_words docId
    · rw [if_pos hu]
      exact postingsOf_removeDoc_self (hinv.sortedIdx u).2
    · rw [if_neg hu]
      have hwnot : u ∉ tokenize d.content := by
        intro hc
        exact hu ((hinv.liveWordsC docId d hlive) ▸ List.mem_toFinset.mpr hc)
      rw [hinv.liveContent docId d hlive u, positionsFrom_not_mem _ _ _ hwnot]
      rfl
  have hoT : ∀ j, j ≠ docId → ∀ u,
      postingsOf j (if u ∈ h.doc_title_words docId then removeDoc docId (h.title_index u)
        else h.title_index u) = postingsOf j (h.title_index u) := by
    intro j hj u
    by_cases hu : u ∈ h.doc_title_words docId
    · rw [if_pos hu]
      exact postingsOf_removeDoc_other (hinv.sortedIdx u).1 hj
    · rw [if_neg hu]
  have hoC : ∀ j, j ≠ docId → ∀ u,
      postingsOf j (if u ∈ h.doc_content_words docId then removeDoc docId (h.content_index u)
        else h.content_index u) = postingsOf j (h.content_index u) := by
    intro j hj u
    by_cases hu : u ∈ h.doc_content_words docId
    · rw [if_pos hu]
      exact postingsOf_removeDoc_other (hinv.sortedIdx u).2 hj
    · rw [if_neg hu]
  have hnew : getDocument H docId = some d' := by
    apply getDocument_eq_some.mpr
    refine ⟨h1, by rw [hLH]; exact hlen, ?_, hdel'⟩
    rw [hdocs]
    exact getD_set_self _ _ _ (by omega)
  have hsame : ∀ j, j ≠ docId → getDocument H j = getDocument h j := by
    intro j hj
    by_cases hj0 : j < 1
    · rw [getDocument_none_out (Or.inr hj0), getDocument_none_out (Or.inr hj0)]
    · push_neg at hj0
      unfold getDocument
      rw [hdocs, List.length_set,
        getD_set_other _ _ _ _ (by omega : docId - 1 ≠ j - 1)]
  refine ⟨?_, ?_, ?_, ?_, ?_, ?_, ?_, ?_, ?_, ?_, ?_, ?_⟩
  · intro w
    rw [hT, hC]
    exact ⟨indexTokens_sorted _ _ _ _ hsT w, indexTokens_sorted _ _ _ _ hsC w⟩
  · intro i d'' hd
    by_cases hi : i = docId
    · rw [hi, hnew] at hd
      cases hd
      rw [hid, hi]
    · rw [hsame i hi] at hd
      exact hinv.liveId i d'' hd
  · intro i d'' hd w
    by_cases hi : i = docId
    · rw [hi, hnew] at hd
      cases hd
      rw [hi, hT]
      exact postingsOf_indexTokens_self docId (tokenize d'.title) _ hsT hdT w
    · rw [hsame i hi] at hd
      rw [hT, indexTokens_postings_other docId i hi]
      rw [hoT i hi w]
      exact hinv.liveTitle i d'' hd w
  · intro i d'' hd w
    by_cases hi : i = docId
    · rw [hi, hnew] at hd
      cases hd
      rw [hi, hC]
      exact postingsOf_indexTokens_self docId (tokenize d'.content) _ hsC hdC w
    · rw [hsame i hi] at hd
      rw [hC, indexTokens_postings_other docId i hi]
      rw [hoC i hi w]
      exact hinv.liveContent i d'' hd w
  · intro i d'' hd
    by_cases hi : i = docId
    · rw [hi, hnew] at hd
      cases hd
      rw [hi, hWT]
      dsimp only
      rw [if_pos rfl]
    · rw [hsame i hi] at hd
      rw [hWT]
      dsimp only
      rw [if_neg hi]
      exact hinv.liveWordsT i d'' hd
  · intro i d'' hd
    by_cases hi : i = docId
    · rw [hi, hnew] at hd
      cases hd
      rw [hi, hWC]
      dsimp only
      rw [if_pos rfl]
    · rw [hsame i hi] at hd
      rw [hWC]
      dsimp only
      rw [if_neg hi]
      exact hinv.liveWordsC i d'' hd
  · intro i hd w
    have hi : i ≠ docId := by
      intro hc
      rw [hc, hnew] at hd
      exact Option.noConfusion hd
    rw [hsame i hi] at hd
    rw [hT, hC]
    constructor
    · rw [indexTokens_postings_other docId i hi]
      rw [hoT i hi w]
      exact (hinv.deadPostings i hd w).1
    · rw [indexTokens_postings_other docId i hi]
      rw [hoC i hi w]
      exact (hinv.deadPostings i hd w).2
  · intro i hd
    have hi : i ≠ docId := by
      intro hc
      rw [hc, hnew] at hd
      exact Option.noConfusion hd
    rw [hsame i hi] at hd
    rw [hWT, hWC]
    dsimp only
    rw [if_neg hi, if_neg hi]
    exact hinv.deadWords i hd
  · rw [hDel]
    exact hinv.poolNodup
  · intro i hi
    rw [hDel] at hi
    obtain ⟨hi1, hilen, d₁, hd₁, hdel₁⟩ := hinv.poolOk i hi
    have hne : i ≠ docId := fun hc => hpoolNot (hc ▸ hi)
    refine ⟨hi1, by rw [hLH]; exact hilen, d₁, ?_, hdel₁⟩
    rw [hdocs, getD_set_other _ _ _ _ (by omega : docId - 1 ≠ i - 1)]
    exact hd₁
  · rw [hLH, hNext, hPre]
    exact hinv.lenBound
  · rw [hNext]
    exact hinv.nextPos

theorem updateDocument_inv (h : Hub) (i : ℕ) (tOpt cOpt : Option String)
    (hinv : HubInv h) : HubInv (updateDocument h i tOpt cOpt).2 := by
  unfold updateDocument
  by_cases h1 : i < 1 ∨ h.documents.length < i
  · rw [if_pos h1]
    exact hinv
  · rw [if_neg h1]
    rcases hget : h.documents.getD (i - 1) none with _ | d
    · exact hinv
    · dsimp only
      by_cases h2 : d.deleted
      · rw [if_pos h2]
        exact hinv
      · rw [if_neg h2]
        push_neg at h1
        have hlive : getDocument h i = some d :=
          getDocument_eq_some.mpr ⟨by omega, by omega, hget, by simpa using h2⟩
        refine hub_upd_core h _ i d
          { d with title := tOpt.getD d.title, content := cOpt.getD d.content }
          hinv hlive ?_ ?_ rfl rfl rfl rfl rfl rfl rfl rfl
        · show d.id = i
          exact hinv.liveId i d hlive
        · show d.deleted = false
          simpa using h2

theorem filter_ne_append_postingsOf_perm (i : ℕ) :
    ∀ l : List Posting,
      ((l.filter (fun q => decide (¬ q.1 = i))) ++ postingsOf i l).Perm l := by
  intro l
  unfold postingsOf
  induction l with
  | nil => exact List.Perm.refl _
  | cons a l ih =>
    by_cases ha : a.1 = i
    · have h1 : ¬(decide (¬ a.1 = i) = true) := by simp [ha]
      have h2 : decide (a.1 = i) = true := by simp [ha]
      rw [List.filter_cons, List.filter_cons, if_neg h1, if_pos h2]
      exact List.perm_middle.trans (ih.cons a)
    · have h1 : decide (¬ a.1 = i) = true := by simp [ha]
      have h2 : ¬(decide (a.1 = i) = true) := by simp [ha]
      rw [List.filter_cons, List.filter_cons, if_pos h1, if_neg h2,
        List.cons_append]
      exact ih.cons a

theorem applyHubOp_inv (h : Hub) (op : HubOp) (hinv : HubInv h) :
    HubInv (applyHubOp h op) := by
  cases op with
  | add t c => exact addDocument_inv h t c hinv
  | upd i tOpt cOpt => exact updateDocument_inv h i tOpt cOpt hinv
  | del i => exact deleteDocument_inv h i hinv

theorem foldl_hubInv : ∀ (ops : List HubOp) (h : Hub), HubInv h →
    HubInv (ops.foldl applyHubOp h) := by
  intro ops
  induction ops with
  | nil => exact fun h hs => hs
  | cons op ops ih =>
    intro h hs
    rw [List.foldl_cons]
    exact ih _ (applyHubOp_inv h op hs)

theorem runHubOps_inv (hashVal : ℕ) (ops : List HubOp) :
    HubInv (runHubOps hashVal ops) :=
  foldl_hubInv ops (freshHub hashVal) (freshHub_inv hashVal)

theorem updateDocument_noop (h : Hub) (i : ℕ) (hinv : HubInv h)
    (hlive : (getDocument h i).isSome = true) :
    updateDocument h i none none = (true, h) := by
  rcases hd : getDocument h i with _ | d
  · rw [hd] at hlive
    exact absurd hlive (by simp)
  obtain ⟨h1, hlen, hget, hdel⟩ := getDocument_eq_some.mp hd
  have hwordsT := hinv.liveWordsT i d hd
  have hwordsC := hinv.liveWordsC i d hd
  unfold updateDocument
  rw [if_neg (by omega), hget]
  dsimp only
  rw [if_neg (by simp [hdel])]
  refine congrArg (Prod.mk true) ?_
  apply Hub.ext
  · show h.documents.set (i - 1) (some d) = h.documents
    rw [← hget]
    exact list_set_getD _ _ (by omega)
  · rfl
  · rfl
  · rfl
  · show indexTokens i 0 (tokenize d.title) (fun w =>
      if w ∈ h.doc_title_words i then removeDoc i (h.title_index w)
      else h.title_index w) = h.title_index
    funext w
    by_cases hw : w ∈ tokenize d.title
    · have hwm : w ∈ h.doc_title_words i := by
        rw [hwordsT]
        exact List.mem_toFinset.mpr hw
      have hsorted := (hinv.sortedIdx w).1
      have hperm : (indexTokens i 0 (tokenize d.title) (fun u =>
          if u ∈ h.doc_title_words i then removeDoc i (h.title_index u)
          else h.title_index u) w).Perm (h.title_index w) := by
        refine (indexTokens_perm i (tokenize d.title) 0 _ w).trans ?_
        show ((if w ∈ h.doc_title_words i then removeDoc i (h.title_index w)
          else h.title_index w) ++
            (positionsFrom w 0 (tokenize d.title)).map (fun p => (i, p))).Perm
          (h.title_index w)
        rw [if_pos hwm, removeDoc_eq_filter _ hsorted, ← hinv.liveTitle i d hd w]
        exact filter_ne_append_postingsOf_perm i (h.title_index w)
      have hs1 : (indexTokens i 0 (tokenize d.title) (fun u =>
          if u ∈ h.doc_title_words i then removeDoc i (h.title_index u)
          else h.title_index u) w).Pairwise ple := by
        apply indexTokens_sorted
        intro u
        dsimp only
        by_cases hu : u ∈ h.doc_title_words i
        · rw [if_pos hu]
          exact removeDoc_sorted (hinv.sortedIdx u).1
        · rw [if_neg hu]
          exact (hinv.sortedIdx u).1
      exact List.eq_of_perm_of_sorted hperm hs1 hsorted
    · have hwm : w ∉ h.doc_title_words i := by
        rw [hwordsT]
        intro hc
        exact hw (List.mem_toFinset.mp hc)
      rw [indexTokens_not_mem i (tokenize d.title) 0 _ w hw]
      show (if w ∈ h.doc_title_words i then removeDoc i (h.title_index w)
        else h.title_index w) = h.title_index w
      rw [if_neg hwm]
  · show indexTokens i 0 (tokenize d.content) (fun w =>
      if w ∈ h.doc_content_words i then removeDoc i (h.content_index w)
      else h.content_index w) = h.content_index
    funext w
    by_cases hw : w ∈ tokenize d.content
    · have hwm : w ∈ h.doc_content_words i := by
        rw [hwordsC]
        exact List.mem_toFinset.mpr hw
      have hsorted := (hinv.sortedIdx w).2
      have hperm : (indexTokens i 0 (tokenize d.content) (fun u =>
          if u ∈ h.doc_content_words i then removeDoc i (h.content_index u)
          else h.content_index u) w).Perm (h.content_index w) := by
        refine (indexTokens_perm i (tokenize d.content) 0 _ w).trans ?_
        show ((if w ∈ h.doc_content_words i then removeDoc i (h.content_index w)
          else h.content_index w) ++
            (positionsFrom w 0 (tokenize d.content)).map (fun p => (i, p))).Perm
          (h.content_index w)
        rw [if_pos hwm, removeDoc_eq_filter _ hsorted, ← hinv.liveContent i d hd w]
        exact filter_ne_append_postingsOf_perm i (h.content_index w)
      have hs1 : (indexTokens i 0 (tokenize d.content) (fun u =>
          if u ∈ h.doc_content_words i then removeDoc i (h.content_index u)
          else h.content_index u) w).Pairwise ple := by
        apply indexTokens_sorted
        intro u
        dsimp only
        by_cases hu : u ∈ h.doc_content_words i
        · rw [if_pos hu]
          exact removeDoc_sorted (hinv.sortedIdx u).2
        · rw [if_neg hu]
          exact (hinv.sortedIdx u).2
      exact List.eq_of_perm_of_sorted hperm hs1 hsorted
    · have hwm : w ∉ h.doc_content_words i := by
        rw [hwordsC]
        intro hc
        exact hw (List.mem_toFinset.mp hc)
      rw [indexTokens_not_mem i (tokenize d.content) 0 _ w hw]
      show (if w ∈ h.doc_content_words i then removeDoc i (h.content_index w)
        else h.content_index w) = h.content_index w
      rw [if_neg hwm]
  · show (fun j => if j = i then (tokenize d.title).toFinset
      else h.doc_title_words j) = h.doc_title_words
    funext j
    by_cases hj : j = i
    · rw [if_pos hj, hj, hwordsT]
    · rw [if_neg hj]
  · show (fun j => if j = i then (tokenize d.content).toFinset
      else h.doc_content_words j) = h.doc_content_words
    funext j
    by_cases hj : j = i
    · rw [if_pos hj, hj, hwordsC]
    · rw [if_neg hj]

/-- C9: in every reachable hub state, for every live (allocated and
non-tombstoned) document id, `update_document(doc_id)` with both the title
and content arguments omitted returns `True` and leaves the hub state — in
particular the stored document's title, content and deleted flag, and
every posting list of both `title_index` and `content_index` — exactly as
it was. -/
theorem C9_update_noop_identity (hashVal : ℕ) (ops : List HubOp) (i : ℕ)
    (hlive : (getDocument (runHubOps hashVal ops) i).isSome = true) :
    updateDocument (runHubOps hashVal ops) i none none
      = (true, runHubOps hashVal ops) :=
  updateDocument_noop (runHubOps hashVal ops) i (runHubOps_inv hashVal ops) hlive

theorem C9_update_noop_identity_witness :
    (getDocument (runHubOps 0 [HubOp.add "a" "b"]) 1).isSome = true ∧
    updateDocument (runHubOps 0 [HubOp.add "a" "b"]) 1 none none
      = (true, runHubOps 0 [HubOp.add "a" "b"]) :=
  ⟨by decide, C9_update_noop_identity 0 [HubOp.add "a" "b"] 1 (by decide)⟩

end InfoHub
